import Mathlib

/-! go-boilerpipe: the content segmenter and the text-block model.

A shallow embedding of `src/boilerpipe.go`, `src/content_handler.go` and
`src/textblock.go`.

Conventions of the embedding.

* A Go `string` or `bytes.Buffer` that holds UTF-8 text is the list of its
  runes (`List Char`).  `len(s)` and `Buffer.Len()` count bytes, so they are
  `byteLen`, the sum of the UTF-8 widths of the runes.  The text of a token is
  read rune by rune (`strings.Map`), so a text is taken as the runes that this
  decoding yields.
* A Go map is the function from a key to the value stored under it, if any;
  blocks are built by `NewTextBlock`, which allocates the map.
* A Go `int` is an `Int` in the range of 64 bits (`InIntRange`), as on a 64-bit
  platform.  The counters of the segmenter count tokens of an in-memory
  buffer, the offsets count emitted blocks and the depths count open tags, so
  they stay far from the ends of the range and their sums are not reduced.
  `MergeNext` works on fields that a caller can set to any `int`: its sums
  wrap modulo `2^64` (`wrapInt`).
* `int(math.Min(float64(a), float64(b)))` is taken step by step:
  `float64OfInt` rounds to 53 significant bits, `mathMin` takes the smaller
  value, `float64ToInt` converts back.  The result of converting `2^63`, which
  the language leaves to the implementation, is the parameter `outOfRange` of
  `MergeNext`.
* A `float64` quotient of two `int`s (`float64Div`) is the quotient of the
  converted values rounded to nearest, ties to even, kept as the rational
  number that the `float64` is; a zero divisor gives the IEEE results and a
  zero dividend over a negative divisor gives negative zero.
* The Unicode classes `\p{L}`, `\p{Nd}`, `\p{Nl}`, `\p{No}` of
  `reValidWordCharacter` are tables of the Go runtime that are not part of the
  repository: the class is the parameter `isWordChar` of every definition that
  depends on it, and every theorem holds for every choice of it.
* What the handler takes from outside `src/` is a parameter too: the table
  `TagActionMap` with the interface `TagAction` of its values, `atom.Lookup`
  and `Atom.String` (`TagTables`), and `html.EscapeString`.  The tokenizer is
  the list of the tokens it yields.
-/

namespace Boilerpipe

/-! ## Runes and strings -/

/-- Go `unicode.IsSpace`: the Latin-1 spaces `\t \n \v \f \r`, space, U+0085,
U+00A0, and the other code points with the Unicode property `White_Space`. -/
def isSpace (r : Char) : Bool :=
  let n := r.toNat
  (0x09 ≤ n && n ≤ 0x0D) || n == 0x20 || n == 0x85 || n == 0xA0 || n == 0x1680 ||
  (0x2000 ≤ n && n ≤ 0x200A) || n == 0x2028 || n == 0x2029 || n == 0x202F ||
  n == 0x205F || n == 0x3000

/-- Go `utf8.RuneLen` on a valid rune: the number of bytes of its encoding. -/
def runeLen (r : Char) : Nat :=
  let n := r.toNat
  if n < 0x80 then 1 else if n < 0x800 then 2 else if n < 0x10000 then 3 else 4

/-- Go `len(s)` and `Buffer.Len()`: the length in bytes. -/
def byteLen : List Char → Nat
  | [] => 0
  | r :: s => runeLen r + byteLen s

/-- Drops the trailing runes that satisfy `p`. -/
def trimRight (p : Char → Bool) : List Char → List Char
  | [] => []
  | r :: s =>
    match trimRight p s with
    | [] => if p r then [] else [r]
    | r2 :: s2 => r :: r2 :: s2

/-- Go `strings.TrimSpace`: drops leading and trailing Unicode white space. -/
def TrimSpace (s : List Char) : List Char :=
  trimRight isSpace (s.dropWhile isSpace)

/-- Go `strings.Split(s, " ")`: the pieces of `s` between single spaces; the
empty string gives one empty piece. -/
def Split : List Char → List (List Char)
  | [] => [[]]
  | r :: s =>
    if r = ' ' then [] :: Split s
    else
      match Split s with
      | [] => [[r]]
      | tok :: toks => (r :: tok) :: toks

/-- The tokens of a text joined by single spaces (the inverse of `Split`). -/
def joinSpace : List (List Char) → List Char
  | [] => []
  | [tok] => tok
  | tok :: tok2 :: toks => tok ++ ' ' :: joinSpace (tok2 :: toks)

/-! ## Machine numbers -/

/-- Go `int` arithmetic on a 64-bit platform: the value of a sum is the
mathematical sum brought back into `-2^63 .. 2^63 - 1` modulo `2^64`. -/
def wrapInt (x : Int) : Int :=
  (x + 2 ^ 63) % 2 ^ 64 - 2 ^ 63

/-- The values of a Go `int` on a 64-bit platform. -/
def InIntRange (x : Int) : Prop :=
  -2 ^ 63 ≤ x ∧ x < 2 ^ 63

instance (x : Int) : Decidable (InIntRange x) :=
  inferInstanceAs (Decidable (-2 ^ 63 ≤ x ∧ x < 2 ^ 63))

/-- The number of binary digits of `n`, counted with `fuel` steps. -/
def bitLenAux : Nat → Nat → Nat
  | 0, _ => 0
  | fuel + 1, n => if n = 0 then 0 else bitLenAux fuel (n / 2) + 1

/-- The number of binary digits of `n` (Go `bits.Len`). -/
def bitLen (n : Nat) : Nat :=
  bitLenAux n n

/-- Rounding to the 53 significant bits of a `float64`, to nearest, ties to
even.  For `N / D` with `2^53 ≤ N * 2^K / D` the result `P` is the numerator of
the rounded value `P / 2^K`: the quotient `Q` scaled by `2^K` loses its last
`s` bits, and the part lost is compared with one half of the last bit kept. -/
def roundNearestEven (N D K : Nat) : Nat :=
  let Q := N * 2 ^ K / D
  let s := bitLen Q - 53
  let m := Q / 2 ^ s
  let M :=
    if 2 * (N * 2 ^ K) < (2 * m + 1) * 2 ^ s * D then m
    else if 2 * (N * 2 ^ K) = (2 * m + 1) * 2 ^ s * D then (if m % 2 = 0 then m else m + 1)
    else m + 1
  M * 2 ^ s

/-- Go `float64(n)` for an `int`: the value of the `float64`, which is an
integer.  Below `2^53` in magnitude the conversion is exact; above, `n` is
rounded to 53 significant bits. -/
def float64OfInt (n : Int) : Int :=
  if n.natAbs < 2 ^ 53 then n
  else n.sign * (roundNearestEven n.natAbs 1 0 : Nat)

/-- Go `math.Min` on two `float64` values that are integers (no NaN, no
infinity, no negative zero): the smaller. -/
def mathMin (x y : Int) : Int :=
  min x y

/-- Go `int(f)` for a `float64` whose value `f` is an integer.  A value out of
the range of `int` (here only `2^63`) converts to a value that the language
leaves to the implementation, the parameter `outOfRange`. -/
def float64ToInt (outOfRange : Int) (f : Int) : Int :=
  if -2 ^ 63 ≤ f ∧ f < 2 ^ 63 then f else outOfRange

/-- The value that `int(f)` takes on amd64 when `f` is out of range: `-2^63`. -/
def amd64OutOfRange : Int :=
  -9223372036854775808

/-- A `float64` that a quotient of two `int`s can be: a finite value other
than negative zero (a rational), negative zero, or the IEEE results of a
division by zero. -/
inductive Float64 where
  | finite (q : ℚ)
  | negZero
  | posInf
  | negInf
  | nan
deriving DecidableEq

/-- Go `float64(a) / float64(b)` for two `int`s: both are converted, and the
quotient is rounded to 53 significant bits.  The quotient of two non-zero
`float64` values of `int`s has a magnitude between `2^-63` and `2^63`, so it
neither overflows nor falls into the subnormal range. -/
def float64Div (a b : Int) : Float64 :=
  let x := float64OfInt a
  let y := float64OfInt b
  if y = 0 then
    if 0 < x then Float64.posInf else if x < 0 then Float64.negInf else Float64.nan
  else if x = 0 then
    if 0 < y then Float64.finite 0 else Float64.negZero
  else
    let K := bitLen y.natAbs + 53
    Float64.finite
      (mkRat (x.sign * y.sign * (roundNearestEven x.natAbs y.natAbs K : Nat)) (2 ^ K))

/-! ## Reading of `float64` that the IEEE standard gives -/

/-- The finite values of a `float64`: `m * 2^e` with `|m| < 2^53` and
`-1074 ≤ e ≤ 971`. -/
def IsFloat64 (r : ℚ) : Prop :=
  ∃ m e : ℤ, |m| < 2 ^ 53 ∧ -1074 ≤ e ∧ e ≤ 971 ∧ r = m * (2 : ℚ) ^ e

/-- The value `r` is `q` rounded to `float64`, to nearest, ties to even: `r`
is a `float64`, no `float64` is nearer to `q`, and when another one is as near
then `r` is the even multiple of their distance. -/
def IsRoundedFloat64 (q r : ℚ) : Prop :=
  IsFloat64 r ∧ (∀ r2, IsFloat64 r2 → |q - r| ≤ |q - r2|) ∧
  (∀ r2, IsFloat64 r2 → r2 ≠ r → |q - r2| = |q - r| → ∃ k : ℤ, r = 2 * k * |r2 - r|)

/-- The value `d` is the `float64` quotient of the `int`s `a` and `b`: `a` and
`b` are rounded to `float64`, and `d` is their quotient rounded to `float64`,
or the IEEE result when the divisor or the dividend is zero. -/
def IsFloat64Quotient (a b : Int) (d : Float64) : Prop :=
  ∃ x y : ℚ, IsRoundedFloat64 a x ∧ IsRoundedFloat64 b y ∧
    (y = 0 → d = if 0 < x then Float64.posInf else if x < 0 then Float64.negInf
      else Float64.nan) ∧
    (y ≠ 0 → x = 0 → d = if 0 < y then Float64.finite 0 else Float64.negZero) ∧
    (y ≠ 0 → x ≠ 0 → ∃ r : ℚ, IsRoundedFloat64 (x / y) r ∧ d = Float64.finite r)

/-! ## Text blocks (`boilerpipe.go`) -/

/-- Go `type Label string`. -/
abbrev Label := String

/-- Go `TextBlock` of `boilerpipe.go`.  The map `Labels` is the function from
a key to the value stored under it, if any. -/
structure TextBlock where
  Text : List Char
  OffsetBlocksStart : Int
  OffsetBlocksEnd : Int
  NumWords : Int
  NumLinkedWords : Int
  NumWordsInWrappedLines : Int
  NumWrappedLines : Int
  TagLevel : Int
  TextDensity : Float64
  LinkDensity : Float64
  IsContent : Bool
  Labels : Label → Option Bool

/-- Go `initDensities`. -/
def initDensities (tb : TextBlock) : TextBlock :=
  let tb := { tb with
    TextDensity := float64Div tb.NumWordsInWrappedLines tb.NumWrappedLines }
  if tb.NumWords = 0 then { tb with LinkDensity := Float64.finite 0 }
  else { tb with LinkDensity := float64Div tb.NumLinkedWords tb.NumWords }

/-- Go `NewTextBlock` of `boilerpipe.go`. -/
def NewTextBlock (text : List Char) (numWords numLinkedWords numWordsInWrappedLines
    numWrappedLines offsetBlocks tagLevel : Int) : TextBlock :=
  let tb : TextBlock :=
    { Text := text
      NumWords := numWords
      NumLinkedWords := numLinkedWords
      NumWordsInWrappedLines := numWordsInWrappedLines
      NumWrappedLines := numWrappedLines
      OffsetBlocksStart := offsetBlocks
      OffsetBlocksEnd := offsetBlocks
      TagLevel := tagLevel
      TextDensity := Float64.finite 0
      LinkDensity := Float64.finite 0
      IsContent := false
      Labels := fun _ => none }
  let tb :=
    if numWordsInWrappedLines = 0 then
      { tb with NumWordsInWrappedLines := numWords, NumWrappedLines := 1 }
    else tb
  initDensities tb

/-- Go `(*TextBlock).AddLabel`. -/
def TextBlock.AddLabel (tb : TextBlock) (label : Label) : TextBlock :=
  { tb with Labels := fun k => if k = label then some true else tb.Labels k }

/-- Go `(*TextBlock).HasLabel`: whether the key is present in the map. -/
def TextBlock.HasLabel (tb : TextBlock) (label : Label) : Bool :=
  (tb.Labels label).isSome

/-- Go `(*TextBlock).MergeNext` of `boilerpipe.go`; the result is the
receiver after the call.  The sums are sums of `int`s, and each minimum is
`int(math.Min(float64(..), float64(..)))`. -/
def TextBlock.MergeNext (outOfRange : Int) (tb next : TextBlock) : TextBlock :=
  let tb := { tb with Text := tb.Text ++ '\n' :: next.Text }
  let tb := { tb with NumWords := wrapInt (tb.NumWords + next.NumWords) }
  let tb := { tb with NumLinkedWords := wrapInt (tb.NumLinkedWords + next.NumLinkedWords) }
  let tb := { tb with
    NumWordsInWrappedLines :=
      wrapInt (tb.NumWordsInWrappedLines + next.NumWordsInWrappedLines) }
  let tb := { tb with NumWrappedLines := wrapInt (tb.NumWrappedLines + next.NumWrappedLines) }
  let tb := { tb with
    OffsetBlocksStart := float64ToInt outOfRange
      (mathMin (float64OfInt tb.OffsetBlocksStart) (float64OfInt next.OffsetBlocksStart)) }
  let tb := { tb with
    OffsetBlocksEnd := float64ToInt outOfRange
      (mathMin (float64OfInt tb.OffsetBlocksEnd) (float64OfInt next.OffsetBlocksEnd)) }
  let tb := initDensities tb
  let tb := { tb with IsContent := tb.IsContent || next.IsContent }
  let tb := { tb with
    Labels := fun k => match next.Labels k with
      | some v => some v
      | none => tb.Labels k }
  { tb with
    TagLevel := float64ToInt outOfRange
      (mathMin (float64OfInt tb.TagLevel) (float64OfInt next.TagLevel)) }

/-! ## The content handler (`content_handler.go`) -/

/-- Go `ANCHOR_TEXT_START`, the marker `$`, U+E00A, `<`. -/
def ANCHOR_TEXT_START : List Char := ['$', Char.ofNat 0xE00A, '<']

/-- Go `ANCHOR_TEXT_END`, the marker `>`, U+E00A, `$`. -/
def ANCHOR_TEXT_END : List Char := ['>', Char.ofNat 0xE00A, '$']

/-- Go `atom.Title.String()`. -/
def atomTitle : List Char := ['t', 'i', 't', 'l', 'e']

/-- Go `maxLineLength` of `FlushBlock`. -/
def maxLineLength : Int := 80

/-- Go `ContentHandler`. -/
structure ContentHandler where
  title : List Char
  tokenBuffer : List Char
  textBuffer : List Char
  depthBody : Int
  depthAnchor : Int
  depthIgnoreable : Int
  depthTag : Int
  depthBlockTag : Int
  sbLastWasWhitespace : Bool
  textElementIndex : Int
  textBlocks : List TextBlock
  lastStartTag : List Char
  lastEndTag : List Char
  offsetBlocks : Int
  flush : Bool
  inAnchorText : Bool

/-- Go `NewContentHandler`. -/
def NewContentHandler : ContentHandler :=
  { title := []
    tokenBuffer := []
    textBuffer := []
    depthBody := 0
    depthAnchor := 0
    depthIgnoreable := 0
    depthTag := 0
    depthBlockTag := -1
    sbLastWasWhitespace := false
    textElementIndex := 0
    textBlocks := []
    lastStartTag := []
    lastEndTag := []
    offsetBlocks := 0
    flush := false
    inAnchorText := false }

/-- Go `spaceRemover`, together with the counter `i` that the closure of
`getSpaceRemovalFunc` captures. -/
structure spaceRemover where
  i : Int
  wasFirstWhitespace : Bool
  wasLastWhitespace : Bool

/-- One call of the closure returned by Go `getSpaceRemovalFunc`: the state
after the call and the rune returned, `none` standing for `-1`. -/
def getSpaceRemovalFunc (sr : spaceRemover) (r : Char) : spaceRemover × Option Char :=
  if isSpace r then
    let sr := if sr.i = 0 then { sr with wasFirstWhitespace := true } else sr
    let sr := { sr with i := sr.i + 1 }
    if sr.wasLastWhitespace then (sr, none)
    else ({ sr with wasLastWhitespace := true }, some ' ')
  else
    let sr := { sr with i := sr.i + 1 }
    ({ sr with wasLastWhitespace := false }, some r)

/-- Go `strings.Map(sr.getSpaceRemovalFunc(), t)`: the closure is called on
every rune of `t` in order and the runes it returns, other than `-1`, are
written out. -/
def Map : spaceRemover → List Char → spaceRemover × List Char
  | sr, [] => (sr, [])
  | sr, r :: t =>
    let step := getSpaceRemovalFunc sr r
    let rest := Map step.1 t
    match step.2 with
    | some c => (rest.1, c :: rest.2)
    | none => (rest.1, rest.2)

/-- Go `isWord`: `reValidWordCharacter.MatchString(tok)`, a match of one
character of the class anywhere in the token. -/
def isWord (isWordChar : Char → Bool) (tok : List Char) : Bool :=
  tok.any isWordChar

/-- The variables of the token loop of Go `FlushBlock`. -/
structure FlushVars where
  inAnchorText : Bool
  numWords : Int
  numLinkedWords : Int
  numWrappedLines : Int
  numTokens : Int
  numWordsCurrentLine : Int
  currentLineLength : Int

/-- The variables at the start of the token loop of Go `FlushBlock`. -/
def flushInit (inAnchorText : Bool) : FlushVars :=
  { inAnchorText := inAnchorText
    numWords := 0
    numLinkedWords := 0
    numWrappedLines := 0
    numTokens := 0
    numWordsCurrentLine := 0
    currentLineLength := -1 }

/-- One iteration of the token loop of Go `FlushBlock`. -/
def flushStep (isWordChar : Char → Bool) (v : FlushVars) (tok : List Char) : FlushVars :=
  if tok = ANCHOR_TEXT_START then { v with inAnchorText := true }
  else if tok = ANCHOR_TEXT_END then { v with inAnchorText := false }
  else if isWord isWordChar tok then
    let v := { v with numTokens := v.numTokens + 1 }
    let v := { v with numWords := v.numWords + 1 }
    let v := { v with numWordsCurrentLine := v.numWordsCurrentLine + 1 }
    let v := if v.inAnchorText then { v with numLinkedWords := v.numLinkedWords + 1 } else v
    let tokLength : Int := byteLen tok
    let v := { v with currentLineLength := v.currentLineLength + (tokLength + 1) }
    if v.currentLineLength > maxLineLength then
      { v with
        numWrappedLines := v.numWrappedLines + 1
        currentLineLength := tokLength
        numWordsCurrentLine := 1 }
    else v
  else { v with numTokens := v.numTokens + 1 }

/-- The token loop of Go `FlushBlock`. -/
def flushLoop (isWordChar : Char → Bool) (v : FlushVars) (tokens : List (List Char)) :
    FlushVars :=
  tokens.foldl (flushStep isWordChar) v

/-- Go `(*ContentHandler).FlushBlock`. -/
def FlushBlock (isWordChar : Char → Bool) (h : ContentHandler) : ContentHandler :=
  if h.depthBody = 0 then
    let h :=
      if h.lastStartTag = atomTitle then
        let title := TrimSpace h.tokenBuffer
        if byteLen title > 0 then { h with title := title } else h
      else h
    { h with textBuffer := [], tokenBuffer := [] }
  else if byteLen h.tokenBuffer = 0 then h
  else if byteLen h.tokenBuffer = 1 ∧ h.sbLastWasWhitespace = true then
    { h with textBuffer := [], tokenBuffer := [] }
  else
    let tokens := Split h.tokenBuffer
    let v := flushLoop isWordChar (flushInit h.inAnchorText) tokens
    let h := { h with inAnchorText := v.inAnchorText }
    if v.numTokens = 0 then h
    else
      let numWordsInWrappedLines :=
        if v.numWrappedLines = 0 then v.numWords else v.numWords - v.numWordsCurrentLine
      let numWrappedLines := if v.numWrappedLines = 0 then 1 else v.numWrappedLines
      let text := TrimSpace h.textBuffer
      let h :=
        if byteLen text > 0 then
          { h with
            textBlocks := h.textBlocks ++ [NewTextBlock text v.numWords v.numLinkedWords
              numWordsInWrappedLines numWrappedLines h.offsetBlocks h.depthBlockTag]
            offsetBlocks := h.offsetBlocks + 1 }
        else h
      { h with textBuffer := [], tokenBuffer := [], depthBlockTag := -1 }

/-- Go `(*ContentHandler).TextToken`; `t` is `string(z.Text())`. -/
def TextToken (isWordChar : Char → Bool) (h : ContentHandler) (t : List Char) :
    ContentHandler :=
  let h := { h with textElementIndex := h.textElementIndex + 1 }
  let h := if h.flush then { FlushBlock isWordChar h with flush := false } else h
  if h.depthIgnoreable ≠ 0 then h
  else if byteLen t = 0 then h
  else
    let m := Map { i := 0, wasFirstWhitespace := false, wasLastWhitespace := false } t
    let sr := m.1
    let ch := TrimSpace m.2
    if byteLen ch = 0 then
      if sr.wasFirstWhitespace || sr.wasLastWhitespace then
        let h :=
          if h.sbLastWasWhitespace = false then
            { h with textBuffer := h.textBuffer ++ [' '], tokenBuffer := h.tokenBuffer ++ [' '] }
          else h
        { h with sbLastWasWhitespace := true }
      else { h with sbLastWasWhitespace := false }
    else
      let h :=
        if sr.wasFirstWhitespace then
          if h.sbLastWasWhitespace = false then
            { h with textBuffer := h.textBuffer ++ [' '], tokenBuffer := h.tokenBuffer ++ [' '] }
          else h
        else h
      let h := if h.depthBlockTag = -1 then { h with depthBlockTag := h.depthTag } else h
      let h := { h with textBuffer := h.textBuffer ++ ch, tokenBuffer := h.tokenBuffer ++ ch }
      let h :=
        if sr.wasLastWhitespace then
          { h with textBuffer := h.textBuffer ++ [' '], tokenBuffer := h.tokenBuffer ++ [' '] }
        else h
      { h with sbLastWasWhitespace := sr.wasLastWhitespace }

/-! ## Reading of the counters that the specification gives -/

/-- Whether a token is one of the two anchor markers. -/
def isAnchorMarker (tok : List Char) : Bool :=
  tok == ANCHOR_TEXT_START || tok == ANCHOR_TEXT_END

/-- A word token: not an anchor marker, and with at least one word
character. -/
def isWordToken (isWordChar : Char → Bool) (tok : List Char) : Bool :=
  !isAnchorMarker tok && tok.any isWordChar

/-- Whether the tokens `pre` hold an anchor-start marker with no anchor-end
marker after it. -/
def inOpenAnchor : List (List Char) → Bool
  | [] => false
  | tok :: toks =>
    (tok == ANCHOR_TEXT_START && !toks.contains ANCHOR_TEXT_END) || inOpenAnchor toks

/-- The number of tokens that are not anchor markers. -/
def specNumTokens (toks : List (List Char)) : Nat :=
  (toks.filter fun tok => !isAnchorMarker tok).length

/-- The number of word tokens. -/
def specNumWords (isWordChar : Char → Bool) (toks : List (List Char)) : Nat :=
  (toks.filter (isWordToken isWordChar)).length

/-- The number of word tokens that stand after an anchor-start marker with no
anchor-end marker in between: every token is paired with the tokens before
it. -/
def specNumLinkedWords (isWordChar : Char → Bool) (toks : List (List Char)) : Nat :=
  ((toks.inits.zip toks).filter fun p =>
    isWordToken isWordChar p.2 && inOpenAnchor p.1).length

/-- One word more on the lines of a text wrapped at 80 bytes: `st.1` holds the
lines already closed and `st.2` the open line.  The word joins the open line
when that line, its words separated by single spaces, stays within 80 bytes;
otherwise the open line is closed and the word opens a new line. -/
def specWrapStep (st : List (List (List Char)) × List (List Char)) (tok : List Char) :
    List (List (List Char)) × List (List Char) :=
  if byteLen (joinSpace (st.2 ++ [tok])) ≤ 80 then (st.1, st.2 ++ [tok])
  else (st.1 ++ [st.2], [tok])

/-- The words of a block put on lines of at most 80 bytes, in order: the lines
closed (one each time the limit was exceeded) and the line still open. -/
def specWrap (words : List (List Char)) : List (List (List Char)) × List (List Char) :=
  words.foldl specWrapStep ([], [])

/-- The ASCII part of the word-character class (ASCII letters and digits),
to evaluate the handler on ASCII examples. -/
def asciiWordChar (c : Char) : Bool :=
  c.isAlphanum

/-- A handler inside body with no text accumulated. -/
def bodyHandler : ContentHandler :=
  { NewContentHandler with depthBody := 1 }

/-- A handler inside body whose buffers hold `Click here now` with `here` as
anchor text: the token buffer has the two anchor markers around `here`. -/
def clickHandler : ContentHandler :=
  { NewContentHandler with
    depthBody := 1
    tokenBuffer :=
      ['C', 'l', 'i', 'c', 'k', ' '] ++ ANCHOR_TEXT_START ++ [' ', 'h', 'e', 'r', 'e', ' '] ++
        ANCHOR_TEXT_END ++ [' ', 'n', 'o', 'w']
    textBuffer := ['C', 'l', 'i', 'c', 'k', ' ', 'h', 'e', 'r', 'e', ' ', 'n', 'o', 'w'] }

/-- The six words of `Hello world this is a test`. -/
def helloWords : List (List Char) :=
  [['H', 'e', 'l', 'l', 'o'], ['w', 'o', 'r', 'l', 'd'], ['t', 'h', 'i', 's'], ['i', 's'],
    ['a'], ['t', 'e', 's', 't']]

/-- A handler before body that already has the title `A`, whose last start
tag is `title` and whose token buffer holds `B`. -/
def retitleHandler : ContentHandler :=
  { NewContentHandler with
    title := ['A']
    lastStartTag := atomTitle
    tokenBuffer := ['B']
    textBuffer := ['B'] }

/-! ## Start and end tags (`content_handler.go`) -/

/-- Go `atom.Atom` of `golang.org/x/net/html/atom`: the code of a known tag
name, 0 for every other name. -/
abbrev Atom := Nat

/-- The dynamic types of a tag action that the type switch of `ExtractText`
tells apart. -/
inductive TagActionKind where
  | Anchor
  | InlineNoWhitespace
  | Other
deriving DecidableEq

/-- Go `TagAction`, the interface of the values of `TagActionMap`.  Its
declaration is in a file of the repository that is not under `src/`; the
fields are the methods that `StartElement`, `EndElement` and `ExtractText`
call.  `Start` and `End` work on the handler and return whether to flush. -/
structure TagAction where
  kind : TagActionKind
  ChangesTagLevel : Bool
  Start : ContentHandler → ContentHandler × Bool
  End : ContentHandler → ContentHandler × Bool

/-- What the handler reads from outside `src/`: `atom.Lookup`, `Atom.String`
and the table `TagActionMap`.  They are parameters of the embedding. -/
structure TagTables where
  Lookup : List Char → Atom
  String : Atom → List Char
  TagActionMap : Atom → Option TagAction

/-- Go `(*ContentHandler).StartElement`; `a` is `atom.Lookup(z.TagName())`. -/
def StartElement (tk : TagTables) (h : ContentHandler) (a : Atom) : ContentHandler :=
  let h :=
    match tk.TagActionMap a with
    | some ta =>
      let h := if ta.ChangesTagLevel then { h with depthTag := h.depthTag + 1 } else h
      let r := ta.Start h
      { r.1 with flush := r.2 || r.1.flush }
    | none => { h with depthTag := h.depthTag + 1, flush := true }
  { h with lastStartTag := tk.String a }

/-- Go `(*ContentHandler).EndElement`; `a` is `atom.Lookup(z.TagName())`. -/
def EndElement (tk : TagTables) (isWordChar : Char → Bool) (h : ContentHandler) (a : Atom) :
    ContentHandler :=
  let h :=
    match tk.TagActionMap a with
    | some ta =>
      let r := ta.End h
      { r.1 with flush := r.2 || r.1.flush }
    | none => { h with flush := true }
  let h :=
    match tk.TagActionMap a with
    | some ta => if ta.ChangesTagLevel then { h with depthTag := h.depthTag - 1 } else h
    | none => { h with depthTag := h.depthTag - 1 }
  let h := if h.flush then FlushBlock isWordChar h else h
  { h with lastEndTag := tk.String a }

/-- Tables with no tag action at all: every tag takes the default branch. -/
def noTagTables : TagTables :=
  { Lookup := fun _ => 0
    String := fun _ => []
    TagActionMap := fun _ => none }

/-! ## Runs of handler operations -/

/-- The operations on a handler that the claims about runs speak of: the two
methods `TextToken` and `FlushBlock`, and the changes that tag events make to
the depth counters, to the pending-flush flag and to the last start tag. -/
inductive HandlerOp where
  | text (t : List Char)
  | flushBlock
  | setDepthBody (n : Int)
  | setDepthTag (n : Int)
  | setDepthIgnoreable (n : Int)
  | setFlush (b : Bool)
  | setLastStartTag (tag : List Char)

/-- One operation on the handler. -/
def HandlerOp.apply (isWordChar : Char → Bool) (h : ContentHandler) : HandlerOp → ContentHandler
  | HandlerOp.text t => TextToken isWordChar h t
  | HandlerOp.flushBlock => FlushBlock isWordChar h
  | HandlerOp.setDepthBody n => { h with depthBody := n }
  | HandlerOp.setDepthTag n => { h with depthTag := n }
  | HandlerOp.setDepthIgnoreable n => { h with depthIgnoreable := n }
  | HandlerOp.setFlush b => { h with flush := b }
  | HandlerOp.setLastStartTag tag => { h with lastStartTag := tag }

/-- A run of operations from a handler state. -/
def runOps (isWordChar : Char → Bool) (h : ContentHandler) (ops : List HandlerOp) :
    ContentHandler :=
  ops.foldl (HandlerOp.apply isWordChar) h

/-! ## White-space collapsing, as the specification words it -/

/-- Every run of Unicode white space becomes one space; `prev` tells that the
rune before the text was white space, so that a run at the start of the text
continues it and gives nothing. -/
def collapseFrom : Bool → List Char → List Char
  | _, [] => []
  | prev, r :: t =>
    if isSpace r then
      if prev then collapseFrom true t else ' ' :: collapseFrom true t
    else r :: collapseFrom false t

/-- Whether the last rune of a text is white space; `prev` answers for the
empty text. -/
def endsInSpace : Bool → List Char → Bool
  | prev, [] => prev
  | _, r :: t => endsInSpace (isSpace r) t

/-- The white-space-collapsed, trimmed form of a text. -/
def collapsedTrimmed (t : List Char) : List Char :=
  TrimSpace (collapseFrom false t)

/-- A text as the segmenter emits it: not empty, no white space at either end,
no white space but the space, and no two spaces next to each other. -/
def TextClean (s : List Char) : Prop :=
  s ≠ [] ∧
  (∀ c, s.head? = some c → isSpace c = false) ∧
  (∀ c, s.getLast? = some c → isSpace c = false) ∧
  (∀ c ∈ s, isSpace c = true → c = ' ') ∧
  (∀ pre post : List Char, s ≠ pre ++ ' ' :: ' ' :: post)

/-- A run that enters body at depth 1, reads `Hi`, flushes, goes to depth 3 and
reads ` a  b ` and `c`, and flushes again. -/
def sampleRun : List HandlerOp :=
  [HandlerOp.setDepthBody 1, HandlerOp.setDepthTag 1, HandlerOp.text ['H', 'i'],
    HandlerOp.flushBlock, HandlerOp.setDepthTag 3, HandlerOp.text [' ', 'a', ' ', ' ', 'b', ' '],
    HandlerOp.text ['c'], HandlerOp.flushBlock]

/-- The state of the render buffer between operations: no two white-space
runes next to each other, no white space but the space, and the
last-was-white-space flag set whenever the buffer ends with a space. -/
def BufferClean (h : ContentHandler) : Prop :=
  List.Chain' (fun a b => ¬ (isSpace a = true ∧ isSpace b = true)) h.textBuffer ∧
  (∀ c ∈ h.textBuffer, isSpace c = true → c = ' ') ∧
  (endsInSpace false h.textBuffer = true → h.sbLastWasWhitespace = true)

/-- A handler inside body whose buffers hold one word of 81 bytes. -/
def longWordHandler : ContentHandler :=
  { NewContentHandler with
    depthBody := 1
    tokenBuffer := List.replicate 81 'a'
    textBuffer := List.replicate 81 'a' }

/-- A handler inside body whose buffers hold three words of 30 bytes. -/
def wrappedHandler : ContentHandler :=
  { NewContentHandler with
    depthBody := 1
    tokenBuffer := List.replicate 30 'a' ++ ' ' :: List.replicate 30 'b' ++
      ' ' :: List.replicate 30 'c'
    textBuffer := List.replicate 30 'a' ++ ' ' :: List.replicate 30 'b' ++
      ' ' :: List.replicate 30 'c' }

/-- A run that reads the title `T` at depth 3 before body, flushes, enters body
and reads `a` at depth 5, and flushes. -/
def staleLevelRun : List HandlerOp :=
  [HandlerOp.setDepthTag 3, HandlerOp.text ['T'], HandlerOp.flushBlock,
    HandlerOp.setDepthBody 1, HandlerOp.setDepthTag 5, HandlerOp.text ['a'],
    HandlerOp.flushBlock]

/-! ## Text documents (`boilerpipe.go`) -/

/-- Go `TextDocument`; the field `Time` plays no part in the projections and
is left out. -/
structure TextDocument where
  Title : List Char
  TextBlocks : List TextBlock

/-- Go `strings.Trim(s, cutset)`: drops the leading and trailing runes that
are in the cutset. -/
def Trim (s : List Char) (cutset : List Char) : List Char :=
  trimRight (fun c => cutset.contains c) (s.dropWhile fun c => cutset.contains c)

/-- The loop of Go `(*TextDocument).Text`: the text of every selected block
with a line break after it. -/
def textLines (includeContent includeNonContent : Bool) : List TextBlock → List Char
  | [] => []
  | tb :: tbs =>
    if tb.IsContent then
      if includeContent = false then textLines includeContent includeNonContent tbs
      else tb.Text ++ '\n' :: textLines includeContent includeNonContent tbs
    else
      if includeNonContent = false then textLines includeContent includeNonContent tbs
      else tb.Text ++ '\n' :: textLines includeContent includeNonContent tbs

/-- Go `(*TextDocument).Text`; `EscapeString` is `html.EscapeString` of
`golang.org/x/net/html`, a parameter of the embedding. -/
def TextDocument.Text (EscapeString : List Char → List Char) (doc : TextDocument)
    (includeContent includeNonContent : Bool) : List Char :=
  EscapeString (Trim (textLines includeContent includeNonContent doc.TextBlocks) [' ', '\n'])

/-- Go `(*TextDocument).Content`. -/
def TextDocument.Content (EscapeString : List Char → List Char) (doc : TextDocument) :
    List Char :=
  doc.Text EscapeString true false

/-- The escapes of `html.EscapeString` in `golang.org/x/net/html` (ampersand,
apostrophe U+0027, angle brackets, quotation mark U+0022 and carriage return),
to evaluate examples. -/
def htmlEscapeString : List Char → List Char
  | [] => []
  | c :: s =>
    (if c = '&' then ['&', 'a', 'm', 'p', ';']
     else if c = Char.ofNat 39 then ['&', '#', '3', '9', ';']
     else if c = '<' then ['&', 'l', 't', ';']
     else if c = '>' then ['&', 'g', 't', ';']
     else if c = Char.ofNat 34 then ['&', '#', '3', '4', ';']
     else if c = '\r' then ['&', '#', '1', '3', ';']
     else [c]) ++ htmlEscapeString s

/-! ### The content projection, as the specification words it -/

/-- The pieces of a text between line breaks. -/
def splitLines : List Char → List (List Char)
  | [] => [[]]
  | r :: s =>
    if r = '\n' then [] :: splitLines s
    else
      match splitLines s with
      | [] => [[r]]
      | line :: lines => (r :: line) :: lines

/-- A blank line: empty, or made of spaces only. -/
def isBlankLine (line : List Char) : Bool :=
  line.all fun c => c == ' '

/-- Lines joined by line breaks. -/
def joinLines : List (List Char) → List Char
  | [] => []
  | [line] => line
  | line :: line2 :: lines => line ++ '\n' :: joinLines (line2 :: lines)

/-- Removing the leading and the trailing blank lines of a text. -/
def dropBlankLines (s : List Char) : List Char :=
  joinLines (((splitLines s).dropWhile isBlankLine).reverse.dropWhile isBlankLine).reverse

/-- The content as the specification words it: the text of every block with
`IsContent`, in document order, one per line, then the leading and trailing
blank lines removed, then entity-escaped. -/
def specContent (EscapeString : List Char → List Char) (doc : TextDocument) : List Char :=
  EscapeString (dropBlankLines
    (((doc.TextBlocks.filter fun tb => tb.IsContent).map fun tb => tb.Text ++ ['\n']).flatten))

/-- A document with one content block, whose text is ` a`. -/
def indentedDocument : TextDocument :=
  { Title := []
    TextBlocks := [{ NewTextBlock [' ', 'a'] 1 0 1 1 0 0 with IsContent := true }] }

/-! ## Plain-text extraction (`boilerpipe.go`) -/

/-- The tokens of `html.Tokenizer` as `ExtractText` tells them apart: an error
token (`eof` when `z.Err()` is `io.EOF`), a text token with `z.Text()`, a start
or end tag with the atom of its name, and the other kinds (self-closing tag,
comment, doctype). -/
inductive HtmlToken where
  | ErrorToken (eof : Bool)
  | TextToken (text : List Char)
  | StartTagToken (a : Atom)
  | EndTagToken (a : Atom)
  | OtherToken

/-- The class `\s` of Go regular expressions: tab, line feed, form feed,
carriage return and space. -/
def isReSpace (c : Char) : Bool :=
  c == '\t' || c == '\n' || c == Char.ofNat 12 || c == '\r' || c == ' '

/-- Replaces every maximal run of `\s` characters by one space; `inRun` tells
that the rune before belongs to the run being replaced. -/
def replaceSpaceRuns : Bool → List Char → List Char
  | _, [] => []
  | inRun, c :: s =>
    if isReSpace c then
      if inRun then replaceSpaceRuns true s else ' ' :: replaceSpaceRuns true s
    else c :: replaceSpaceRuns false s

/-- Go `reMultiSpace.ReplaceAllString(s, " ")` for `reMultiSpace`, the
expression `[\s]+`. -/
def reMultiSpaceReplaceAll (s : List Char) : List Char :=
  replaceSpaceRuns false s

/-- The token loop of Go `ExtractText`, up to the label `DONE`: the buffer,
or nothing when the tokenizer fails.  The end of the list stands for the end
of the input. -/
def extractLoop (tk : TagTables) (isWordChar : Char → Bool) :
    List HtmlToken → List Char → ContentHandler → Option (List Char)
  | [], buf, _ => some buf
  | HtmlToken.ErrorToken eof :: _, buf, _ => if eof then some buf else none
  | HtmlToken.TextToken text :: rest, buf, h =>
    if h.depthIgnoreable = 0 then
      let skipWhitespace :=
        if h.lastEndTag ≠ [] then
          match tk.TagActionMap (tk.Lookup h.lastEndTag) with
          | some ta =>
            decide (ta.kind = TagActionKind.Anchor ∨ ta.kind = TagActionKind.InlineNoWhitespace)
          | none => false
        else false
      let buf := if skipWhitespace then buf else buf ++ [' ']
      extractLoop tk isWordChar rest (buf ++ text) h
    else extractLoop tk isWordChar rest buf h
  | HtmlToken.StartTagToken a :: rest, buf, h =>
    extractLoop tk isWordChar rest buf (StartElement tk h a)
  | HtmlToken.EndTagToken a :: rest, buf, h =>
    extractLoop tk isWordChar rest buf (EndElement tk isWordChar h a)
  | HtmlToken.OtherToken :: rest, buf, h => extractLoop tk isWordChar rest buf h

/-- Go `ExtractText` on the tokens of the input; `none` is the error result. -/
def ExtractText (tk : TagTables) (isWordChar : Char → Bool) (tokens : List HtmlToken) :
    Option (List Char) :=
  (extractLoop tk isWordChar tokens [] NewContentHandler).map fun buf =>
    TrimSpace (reMultiSpaceReplaceAll buf)

/-- Whether a text starts with a character of the class `\s`. -/
def startsWithReSpace : List Char → Bool
  | [] => false
  | c :: _ => isReSpace c

/-- The maximal runs of characters outside the class `\s`, in order: the
pieces of the text that its runs of `\s` separate (what Go `strings.FieldsFunc`
gives for the class). -/
def reFields : List Char → List (List Char)
  | [] => []
  | c :: s =>
    if isReSpace c then reFields s
    else
      match reFields s with
      | [] => [[c]]
      | f :: fs => if startsWithReSpace s then [c] :: f :: fs else (c :: f) :: fs

/-- The text space, `a`, tab, space, `b`, two no-break spaces U+00A0, `c`,
line feed. -/
def mixedSpaceText : List Char :=
  [' ', 'a', '\t', ' ', 'b', Char.ofNat 0xA0, Char.ofNat 0xA0, 'c', '\n']

/-- The text `a`, two no-break spaces U+00A0, `b`. -/
def nbspText : List Char :=
  ['a', Char.ofNat 0xA0, Char.ofNat 0xA0, 'b']

end Boilerpipe

/-! ## Text blocks (`textblock.go`) -/

namespace TextblockGo

open Boilerpipe (Float64 float64Div wrapInt float64OfInt float64ToInt mathMin)

/-- Go `type Label int` of `textblock.go`. -/
abbrev Label := Int

/-- Go `TextBlock` of `textblock.go`; the densities are methods here. -/
structure TextBlock where
  Text : List Char
  OffsetBlocksStart : Int
  OffsetBlocksEnd : Int
  NumWords : Int
  NumLinkedWords : Int
  NumWordsInWrappedLines : Int
  NumWrappedLines : Int
  TagLevel : Int
  IsContent : Bool
  Labels : Label → Option Bool

/-- Go `NewTextBlock` of `textblock.go`: the zero block with an empty map. -/
def NewTextBlock : TextBlock :=
  { Text := []
    OffsetBlocksStart := 0
    OffsetBlocksEnd := 0
    NumWords := 0
    NumLinkedWords := 0
    NumWordsInWrappedLines := 0
    NumWrappedLines := 0
    TagLevel := 0
    IsContent := false
    Labels := fun _ => none }

/-- Go `(*TextBlock).AddLabels` of `textblock.go`. -/
def TextBlock.AddLabels (tb : TextBlock) (labels : List Label) : TextBlock :=
  labels.foldl
    (fun tb label =>
      { tb with Labels := fun k => if k = label then some true else tb.Labels k })
    tb

/-- Go `(*TextBlock).HasLabel` of `textblock.go`. -/
def TextBlock.HasLabel (tb : TextBlock) (label : Label) : Bool :=
  (tb.Labels label).isSome

/-- Go `(*TextBlock).MergeNext` of `textblock.go`; the result is the receiver
after the call.  The sums are sums of `int`s, and each minimum is
`int(math.Min(float64(..), float64(..)))`. -/
def TextBlock.MergeNext (outOfRange : Int) (tb next : TextBlock) : TextBlock :=
  let tb := { tb with Text := tb.Text ++ '\n' :: next.Text }
  let tb := { tb with NumWords := wrapInt (tb.NumWords + next.NumWords) }
  let tb := { tb with NumLinkedWords := wrapInt (tb.NumLinkedWords + next.NumLinkedWords) }
  let tb := { tb with
    NumWordsInWrappedLines :=
      wrapInt (tb.NumWordsInWrappedLines + next.NumWordsInWrappedLines) }
  let tb := { tb with NumWrappedLines := wrapInt (tb.NumWrappedLines + next.NumWrappedLines) }
  let tb := { tb with
    OffsetBlocksStart := float64ToInt outOfRange
      (mathMin (float64OfInt tb.OffsetBlocksStart) (float64OfInt next.OffsetBlocksStart)) }
  let tb := { tb with
    OffsetBlocksEnd := float64ToInt outOfRange
      (mathMin (float64OfInt tb.OffsetBlocksEnd) (float64OfInt next.OffsetBlocksEnd)) }
  let tb := { tb with IsContent := tb.IsContent || next.IsContent }
  let tb := { tb with
    Labels := fun k => match next.Labels k with
      | some v => some v
      | none => tb.Labels k }
  { tb with
    TagLevel := float64ToInt outOfRange
      (mathMin (float64OfInt tb.TagLevel) (float64OfInt next.TagLevel)) }

/-- Go `(*TextBlock).LinkDensity` of `textblock.go`. -/
def TextBlock.LinkDensity (tb : TextBlock) : Float64 :=
  if tb.NumWords = 0 then Float64.finite 0
  else float64Div tb.NumLinkedWords tb.NumWords

/-- Go `(*TextBlock).TextDensity` of `textblock.go`. -/
def TextBlock.TextDensity (tb : TextBlock) : Float64 :=
  float64Div tb.NumWordsInWrappedLines tb.NumWrappedLines

end TextblockGo

/-! # Theorems -/

namespace Boilerpipe

/-! ## Machine numbers -/

theorem bitLenAux_spec : ∀ (fuel n : Nat), n ≤ fuel → n ≠ 0 →
    2 ^ (bitLenAux fuel n - 1) ≤ n ∧ n < 2 ^ bitLenAux fuel n ∧ 1 ≤ bitLenAux fuel n := by
  intro fuel
  induction fuel with
  | zero => intro n hn h0; omega
  | succ fuel ih =>
    intro n hn h0
    simp only [bitLenAux, h0, if_false]
    by_cases h2 : n / 2 = 0
    · have h1 : n = 1 := by omega
      subst h1
      cases fuel <;> simp [bitLenAux]
    · have hle : n / 2 ≤ fuel := by omega
      obtain ⟨a, b, c⟩ := ih (n / 2) hle h2
      refine ⟨?_, ?_, by omega⟩
      · have e : bitLenAux fuel (n / 2) + 1 - 1 = (bitLenAux fuel (n / 2) - 1) + 1 := by omega
        rw [e, pow_succ]
        omega
      · rw [pow_succ]
        omega

theorem bitLen_spec (n : Nat) (h0 : n ≠ 0) :
    2 ^ (bitLen n - 1) ≤ n ∧ n < 2 ^ bitLen n ∧ 1 ≤ bitLen n :=
  bitLenAux_spec n n (le_refl n) h0

theorem bitLen_le (n k : Nat) (h : n < 2 ^ k) : bitLen n ≤ k := by
  by_cases h0 : n = 0
  · subst h0
    simp [bitLen, bitLenAux]
  · obtain ⟨a, _, c⟩ := bitLen_spec n h0
    by_contra hk
    have : 2 ^ k ≤ 2 ^ (bitLen n - 1) := Nat.pow_le_pow_right (by norm_num) (by omega)
    omega

theorem lt_bitLen (n k : Nat) (h : 2 ^ k ≤ n) : k < bitLen n := by
  have h0 : n ≠ 0 := by
    have : 0 < 2 ^ k := Nat.two_pow_pos k
    omega
  obtain ⟨_, b, _⟩ := bitLen_spec n h0
  by_contra hk
  have : 2 ^ bitLen n ≤ 2 ^ k := Nat.pow_le_pow_right (by norm_num) (by omega)
  omega

theorem no_float_between (m : ℕ) (t : ℤ) (hm : 2 ^ 52 ≤ m) (m2 e2 : ℤ) (hm2 : |m2| < 2 ^ 53) :
    (m2 : ℚ) * (2 : ℚ) ^ e2 ≤ (m : ℚ) * (2 : ℚ) ^ t ∨
    ((m : ℚ) + 1) * (2 : ℚ) ^ t ≤ (m2 : ℚ) * (2 : ℚ) ^ e2 := by
  have ht : (0 : ℚ) < (2 : ℚ) ^ t := zpow_pos (by norm_num) t
  by_cases he : e2 < t
  · left
    have h1 : (2 : ℚ) ^ e2 ≤ (2 : ℚ) ^ (t - 1) :=
      zpow_le_zpow_right₀ (by norm_num) (by omega)
    have h2 : (2 : ℚ) ^ (t - 1) = (2 : ℚ) ^ t / 2 := by
      rw [zpow_sub_one₀ (by norm_num)]
      rfl
    have h3 : (m2 : ℚ) ≤ 2 ^ 53 := by
      have : m2 ≤ 2 ^ 53 := by
        have := abs_lt.1 hm2
        omega
      exact_mod_cast this
    have h4 : (0 : ℚ) < (2 : ℚ) ^ e2 := zpow_pos (by norm_num) e2
    have h5 : (m2 : ℚ) * (2 : ℚ) ^ e2 ≤ 2 ^ 53 * (2 : ℚ) ^ e2 :=
      mul_le_mul_of_nonneg_right h3 (le_of_lt h4)
    have h6 : (2 : ℚ) ^ 53 * (2 : ℚ) ^ e2 ≤ 2 ^ 53 * ((2 : ℚ) ^ t / 2) := by
      rw [← h2]
      exact mul_le_mul_of_nonneg_left h1 (by norm_num)
    have h7 : ((2 : ℚ) ^ 52) ≤ (m : ℚ) := by exact_mod_cast hm
    have h8 : (2 : ℚ) ^ 52 * (2 : ℚ) ^ t ≤ (m : ℚ) * (2 : ℚ) ^ t :=
      mul_le_mul_of_nonneg_right h7 (le_of_lt ht)
    have h9 : (2 : ℚ) ^ 53 * ((2 : ℚ) ^ t / 2) = (2 : ℚ) ^ 52 * (2 : ℚ) ^ t := by ring
    linarith
  · have he2 : t ≤ e2 := by omega
    obtain ⟨d, hd⟩ := Int.eq_ofNat_of_zero_le (by omega : 0 ≤ e2 - t)
    have hpow : (2 : ℚ) ^ e2 = (2 : ℚ) ^ d * (2 : ℚ) ^ t := by
      have : e2 = (d : ℤ) + t := by omega
      rw [this, zpow_add₀ (by norm_num), zpow_natCast]
    have hj : (m2 : ℚ) * (2 : ℚ) ^ e2 = ((m2 * 2 ^ d : ℤ) : ℚ) * (2 : ℚ) ^ t := by
      rw [hpow]
      push_cast
      ring
    rw [hj]
    by_cases hle : m2 * 2 ^ d ≤ (m : ℤ)
    · left
      have : ((m2 * 2 ^ d : ℤ) : ℚ) ≤ (m : ℚ) := by exact_mod_cast hle
      exact mul_le_mul_of_nonneg_right this (le_of_lt ht)
    · right
      have hge : (m : ℤ) + 1 ≤ m2 * 2 ^ d := by omega
      have : (m : ℚ) + 1 ≤ ((m2 * 2 ^ d : ℤ) : ℚ) := by exact_mod_cast hge
      exact mul_le_mul_of_nonneg_right this (le_of_lt ht)

theorem nearest_choice (q lo c r r2 : ℚ) (hc : 0 < c) (h1 : lo ≤ q) (h2 : q < lo + c)
    (hr : (r = lo ∧ q ≤ lo + c / 2) ∨ (r = lo + c ∧ lo + c / 2 ≤ q))
    (hr2 : r2 ≤ lo ∨ lo + c ≤ r2) :
    |q - r| ≤ |q - r2| ∧
    (r2 ≠ r → |q - r2| = |q - r| → q = lo + c / 2 ∧ |r2 - r| = c) := by
  rcases hr with ⟨e, hq⟩ | ⟨e, hq⟩ <;> rcases hr2 with h3 | h3
  · subst e
    rw [abs_of_nonneg (by linarith : 0 ≤ q - r), abs_of_nonneg (by linarith : 0 ≤ q - r2)]
    refine ⟨by linarith, ?_⟩
    intro hne heq
    exact absurd (by linarith : r2 = r) hne
  · subst e
    rw [abs_of_nonneg (by linarith : 0 ≤ q - r), abs_of_nonpos (by linarith : q - r2 ≤ 0)]
    refine ⟨by linarith, ?_⟩
    intro _ heq
    have e1 : r2 = r + c := by linarith
    refine ⟨by linarith, ?_⟩
    rw [e1]
    simp [abs_of_pos hc]
  · subst e
    rw [abs_of_nonpos (by linarith : q - (lo + c) ≤ 0), abs_of_nonneg (by linarith : 0 ≤ q - r2)]
    refine ⟨by linarith, ?_⟩
    intro _ heq
    have e1 : r2 = lo := by linarith
    refine ⟨by linarith, ?_⟩
    rw [e1]
    have : lo - (lo + c) = -c := by ring
    rw [this, abs_neg, abs_of_pos hc]
  · subst e
    rw [abs_of_nonpos (by linarith : q - (lo + c) ≤ 0), abs_of_nonpos (by linarith : q - r2 ≤ 0)]
    refine ⟨by linarith, ?_⟩
    intro hne heq
    exact absurd (by linarith : r2 = lo + c) hne

/-- The rounding of `N / D` scaled by `2^K`: shape and choice of the result. -/
theorem roundNearestEven_shape (N D K : Nat) (hD : 0 < D) (hQ : 2 ^ 53 ≤ N * 2 ^ K / D) :
    ∃ m M s : Nat, roundNearestEven N D K = M * 2 ^ s ∧ s + 53 = bitLen (N * 2 ^ K / D) ∧
      2 ^ 52 ≤ m ∧ m < 2 ^ 53 ∧
      m * 2 ^ s * D ≤ N * 2 ^ K ∧ N * 2 ^ K < (m + 1) * 2 ^ s * D ∧
      ((M = m ∧ 2 * (N * 2 ^ K) ≤ (2 * m + 1) * 2 ^ s * D ∧
          (2 * (N * 2 ^ K) = (2 * m + 1) * 2 ^ s * D → m % 2 = 0)) ∨
       (M = m + 1 ∧ (2 * m + 1) * 2 ^ s * D ≤ 2 * (N * 2 ^ K) ∧
          (2 * (N * 2 ^ K) = (2 * m + 1) * 2 ^ s * D → m % 2 = 1))) := by
  have hL : 53 < bitLen (N * 2 ^ K / D) := lt_bitLen _ _ hQ
  have hQ0 : N * 2 ^ K / D ≠ 0 := by
    have : 0 < 2 ^ 53 := Nat.two_pow_pos 53
    omega
  obtain ⟨b1, b2, _⟩ := bitLen_spec _ hQ0
  have hs : bitLen (N * 2 ^ K / D) - 53 + 53 = bitLen (N * 2 ^ K / D) := by omega
  have hpow : 0 < 2 ^ (bitLen (N * 2 ^ K / D) - 53) := Nat.two_pow_pos _
  have e1 : 2 ^ (bitLen (N * 2 ^ K / D) - 1) = 2 ^ 52 * 2 ^ (bitLen (N * 2 ^ K / D) - 53) := by
    rw [← pow_add]
    congr 1
    omega
  have e2 : 2 ^ bitLen (N * 2 ^ K / D) = 2 ^ 53 * 2 ^ (bitLen (N * 2 ^ K / D) - 53) := by
    rw [← pow_add]
    congr 1
    omega
  have hm1 : 2 ^ 52 ≤ N * 2 ^ K / D / 2 ^ (bitLen (N * 2 ^ K / D) - 53) := by
    rw [Nat.le_div_iff_mul_le hpow, ← e1]
    exact b1
  have hm2 : N * 2 ^ K / D / 2 ^ (bitLen (N * 2 ^ K / D) - 53) < 2 ^ 53 := by
    rw [Nat.div_lt_iff_lt_mul hpow, ← e2]
    exact b2
  have hq1 : N * 2 ^ K / D * D ≤ N * 2 ^ K := Nat.div_mul_le_self _ _
  have hq2 : N * 2 ^ K < (N * 2 ^ K / D + 1) * D := by
    have := Nat.lt_succ_iff.2 (le_refl (N * 2 ^ K / D))
    exact (Nat.div_lt_iff_lt_mul hD).1 this
  have hd1 : N * 2 ^ K / D / 2 ^ (bitLen (N * 2 ^ K / D) - 53) *
      2 ^ (bitLen (N * 2 ^ K / D) - 53) ≤ N * 2 ^ K / D := Nat.div_mul_le_self _ _
  have hd2 : N * 2 ^ K / D + 1 ≤ (N * 2 ^ K / D / 2 ^ (bitLen (N * 2 ^ K / D) - 53) + 1) *
      2 ^ (bitLen (N * 2 ^ K / D) - 53) := by
    have := Nat.lt_succ_iff.2 (le_refl (N * 2 ^ K / D / 2 ^ (bitLen (N * 2 ^ K / D) - 53)))
    exact (Nat.div_lt_iff_lt_mul hpow).1 this
  refine ⟨N * 2 ^ K / D / 2 ^ (bitLen (N * 2 ^ K / D) - 53), _,
    bitLen (N * 2 ^ K / D) - 53, rfl, hs, hm1, hm2, ?_, ?_, ?_⟩
  · calc _ ≤ N * 2 ^ K / D * D := Nat.mul_le_mul_right D hd1
      _ ≤ _ := hq1
  · calc N * 2 ^ K < (N * 2 ^ K / D + 1) * D := hq2
      _ ≤ _ := Nat.mul_le_mul_right D hd2
  · split_ifs with c1 c2 c3
    · left
      exact ⟨rfl, le_of_lt c1, fun h => absurd h (ne_of_lt c1)⟩
    · left
      exact ⟨rfl, le_of_eq c2, fun _ => c3⟩
    · right
      exact ⟨rfl, le_of_eq c2.symm, fun _ => by omega⟩
    · right
      exact ⟨rfl, by omega, fun h => absurd h c2⟩

theorem roundNearestEven_rounded (N D K : Nat) (hD : 0 < D) (hQ : 2 ^ 53 ≤ N * 2 ^ K / D)
    (hK : K ≤ 1074) (hL : bitLen (N * 2 ^ K / D) ≤ K + 1000) :
    IsRoundedFloat64 ((N : ℚ) / (D : ℚ)) (((roundNearestEven N D K : ℕ) : ℚ) / (2 : ℚ) ^ K) := by
  obtain ⟨m, M, s, hP, hs, hm1, hm2, hlo, hhi, hch⟩ := roundNearestEven_shape N D K hD hQ
  have hDq : (0 : ℚ) < (D : ℚ) := by exact_mod_cast hD
  have hKq : (0 : ℚ) < (2 : ℚ) ^ K := pow_pos (by norm_num) K
  have hsq : (0 : ℚ) < (2 : ℚ) ^ s := pow_pos (by norm_num) s
  have hc : (2 : ℚ) ^ ((s : ℤ) - (K : ℤ)) = (2 : ℚ) ^ s / (2 : ℚ) ^ K := by
    rw [zpow_sub₀ (by norm_num), zpow_natCast, zpow_natCast]
  have hcpos : (0 : ℚ) < (2 : ℚ) ^ ((s : ℤ) - (K : ℤ)) := zpow_pos (by norm_num) _
  have hr : ((roundNearestEven N D K : ℕ) : ℚ) / (2 : ℚ) ^ K =
      (M : ℚ) * (2 : ℚ) ^ ((s : ℤ) - (K : ℤ)) := by
    rw [hP, hc]
    push_cast
    ring
  have hloq : (m : ℚ) * (2 : ℚ) ^ ((s : ℤ) - (K : ℤ)) ≤ (N : ℚ) / (D : ℚ) := by
    rw [hc, ← mul_div_assoc, div_le_div_iff₀ hKq hDq]
    exact_mod_cast hlo
  have hhiq : (N : ℚ) / (D : ℚ) <
      (m : ℚ) * (2 : ℚ) ^ ((s : ℤ) - (K : ℤ)) + (2 : ℚ) ^ ((s : ℤ) - (K : ℤ)) := by
    have e : (m : ℚ) * (2 : ℚ) ^ ((s : ℤ) - (K : ℤ)) + (2 : ℚ) ^ ((s : ℤ) - (K : ℤ)) =
        (((m : ℚ) + 1) * (2 : ℚ) ^ s) / (2 : ℚ) ^ K := by
      rw [hc]
      ring
    rw [e, div_lt_div_iff₀ hDq hKq]
    exact_mod_cast hhi
  have hmid : ∀ (x : ℚ), (m : ℚ) * (2 : ℚ) ^ ((s : ℤ) - (K : ℤ)) +
      (2 : ℚ) ^ ((s : ℤ) - (K : ℤ)) / 2 = ((2 * (m : ℚ) + 1) * (2 : ℚ) ^ s) / (2 * (2 : ℚ) ^ K) := by
    intro _
    rw [hc]
    field_simp
    ring
  have h2K : (0 : ℚ) < 2 * (2 : ℚ) ^ K := by positivity
  have hchq :
      ((M : ℚ) * (2 : ℚ) ^ ((s : ℤ) - (K : ℤ)) = (m : ℚ) * (2 : ℚ) ^ ((s : ℤ) - (K : ℤ)) ∧
        (N : ℚ) / (D : ℚ) ≤ (m : ℚ) * (2 : ℚ) ^ ((s : ℤ) - (K : ℤ)) +
          (2 : ℚ) ^ ((s : ℤ) - (K : ℤ)) / 2) ∨
      ((M : ℚ) * (2 : ℚ) ^ ((s : ℤ) - (K : ℤ)) = (m : ℚ) * (2 : ℚ) ^ ((s : ℤ) - (K : ℤ)) +
          (2 : ℚ) ^ ((s : ℤ) - (K : ℤ)) ∧
        (m : ℚ) * (2 : ℚ) ^ ((s : ℤ) - (K : ℤ)) + (2 : ℚ) ^ ((s : ℤ) - (K : ℤ)) / 2 ≤
          (N : ℚ) / (D : ℚ)) := by
    rcases hch with ⟨e, h1, _⟩ | ⟨e, h1, _⟩
    · left
      refine ⟨by rw [e], ?_⟩
      rw [hmid 0, div_le_div_iff₀ hDq h2K]
      have : N * (2 * 2 ^ K) ≤ (2 * m + 1) * 2 ^ s * D := by
        calc N * (2 * 2 ^ K) = 2 * (N * 2 ^ K) := by ring
          _ ≤ _ := h1
      exact_mod_cast this
    · right
      refine ⟨by rw [e]; push_cast; ring, ?_⟩
      rw [hmid 0, div_le_div_iff₀ h2K hDq]
      have : (2 * m + 1) * 2 ^ s * D ≤ N * (2 * 2 ^ K) := by
        calc (2 * m + 1) * 2 ^ s * D ≤ 2 * (N * 2 ^ K) := h1
          _ = _ := by ring
      exact_mod_cast this
  have hMle : M ≤ 2 ^ 53 := by
    rcases hch with ⟨e, _⟩ | ⟨e, _⟩ <;> omega
  rw [hr]
  refine ⟨?_, ?_, ?_⟩
  · by_cases hM : M < 2 ^ 53
    · refine ⟨(M : ℤ), (s : ℤ) - (K : ℤ), ?_, by omega, by omega, by push_cast; rfl⟩
      rw [abs_of_nonneg (by positivity)]
      exact_mod_cast hM
    · have hM2 : M = 2 ^ 53 := by omega
      refine ⟨2 ^ 52, (s : ℤ) - (K : ℤ) + 1, by norm_num, by omega, by omega, ?_⟩
      rw [hM2, zpow_add_one₀ (by norm_num)]
      push_cast
      ring
  · intro r2 ⟨m2, e2, hm2a, _, _, hr2⟩
    have hnb := no_float_between m ((s : ℤ) - (K : ℤ)) hm1 m2 e2 hm2a
    rw [← hr2] at hnb
    have hnb2 : r2 ≤ (m : ℚ) * (2 : ℚ) ^ ((s : ℤ) - (K : ℤ)) ∨
        (m : ℚ) * (2 : ℚ) ^ ((s : ℤ) - (K : ℤ)) + (2 : ℚ) ^ ((s : ℤ) - (K : ℤ)) ≤ r2 := by
      rcases hnb with h | h
      · exact Or.inl h
      · right
        have e : ((m : ℚ) + 1) * (2 : ℚ) ^ ((s : ℤ) - (K : ℤ)) =
            (m : ℚ) * (2 : ℚ) ^ ((s : ℤ) - (K : ℤ)) + (2 : ℚ) ^ ((s : ℤ) - (K : ℤ)) := by ring
        rw [← e]
        exact h
    exact (nearest_choice _ _ _ _ r2 hcpos hloq hhiq hchq hnb2).1
  · intro r2 ⟨m2, e2, hm2a, _, _, hr2⟩ hne heq
    have hnb := no_float_between m ((s : ℤ) - (K : ℤ)) hm1 m2 e2 hm2a
    rw [← hr2] at hnb
    have hnb2 : r2 ≤ (m : ℚ) * (2 : ℚ) ^ ((s : ℤ) - (K : ℤ)) ∨
        (m : ℚ) * (2 : ℚ) ^ ((s : ℤ) - (K : ℤ)) + (2 : ℚ) ^ ((s : ℤ) - (K : ℤ)) ≤ r2 := by
      rcases hnb with h | h
      · exact Or.inl h
      · right
        have e : ((m : ℚ) + 1) * (2 : ℚ) ^ ((s : ℤ) - (K : ℤ)) =
            (m : ℚ) * (2 : ℚ) ^ ((s : ℤ) - (K : ℤ)) + (2 : ℚ) ^ ((s : ℤ) - (K : ℤ)) := by ring
        rw [← e]
        exact h
    obtain ⟨hq, hgap⟩ := (nearest_choice _ _ _ _ r2 hcpos hloq hhiq hchq hnb2).2 hne heq
    rw [hgap]
    have htie : 2 * (N * 2 ^ K) = (2 * m + 1) * 2 ^ s * D := by
      rw [hmid 0, div_eq_div_iff (ne_of_gt hDq) (ne_of_gt h2K)] at hq
      have hq2 : ((N * (2 * 2 ^ K) : ℕ) : ℚ) = (((2 * m + 1) * 2 ^ s * D : ℕ) : ℚ) := by
        push_cast
        exact hq
      have hq3 : N * (2 * 2 ^ K) = (2 * m + 1) * 2 ^ s * D := by exact_mod_cast hq2
      rw [← hq3]
      ring
    rcases hch with ⟨e, _, hpar⟩ | ⟨e, _, hpar⟩
    · have hp := hpar htie
      obtain ⟨k, hk⟩ : ∃ k : ℕ, M = 2 * k := ⟨m / 2, by omega⟩
      refine ⟨(k : ℤ), ?_⟩
      rw [hk]
      push_cast
      ring
    · have hp := hpar htie
      obtain ⟨k, hk⟩ : ∃ k : ℕ, M = 2 * k := ⟨(m + 1) / 2, by omega⟩
      refine ⟨(k : ℤ), ?_⟩
      rw [hk]
      push_cast
      ring

theorem IsFloat64_neg (r : ℚ) (h : IsFloat64 r) : IsFloat64 (-r) := by
  obtain ⟨m, e, h1, h2, h3, h4⟩ := h
  refine ⟨-m, e, by rw [abs_neg]; exact h1, h2, h3, ?_⟩
  rw [h4]
  push_cast
  ring

theorem IsRoundedFloat64_neg (q r : ℚ) (h : IsRoundedFloat64 q r) :
    IsRoundedFloat64 (-q) (-r) := by
  obtain ⟨h1, h2, h3⟩ := h
  refine ⟨IsFloat64_neg r h1, ?_, ?_⟩
  · intro r2 hr2
    have := h2 (-r2) (IsFloat64_neg r2 hr2)
    have e1 : |-q - -r| = |q - r| := by
      rw [← abs_neg]
      congr 1
      ring
    have e2 : |-q - r2| = |q - -r2| := by
      rw [← abs_neg]
      congr 1
      ring
    rw [e1, e2]
    exact this
  · intro r2 hr2 hne heq
    have e1 : |-q - -r| = |q - r| := by
      rw [← abs_neg]
      congr 1
      ring
    have e2 : |-q - r2| = |q - -r2| := by
      rw [← abs_neg]
      congr 1
      ring
    rw [e1, e2] at heq
    have hne2 : -r2 ≠ r := by
      intro h
      apply hne
      rw [← h]
      ring
    obtain ⟨k, hk⟩ := h3 (-r2) (IsFloat64_neg r2 hr2) hne2 heq
    refine ⟨-k, ?_⟩
    have e3 : |r2 - -r| = |-r2 - r| := by
      rw [← abs_neg]
      congr 1
      ring
    rw [e3]
    push_cast
    generalize |-r2 - r| = g at hk
    linarith

theorem IsRoundedFloat64_self (q : ℚ) (h : IsFloat64 q) : IsRoundedFloat64 q q := by
  refine ⟨h, ?_, ?_⟩
  · intro r2 _
    simp
  · intro r2 _ hne heq
    simp only [sub_self, abs_zero, abs_eq_zero] at heq
    exact absurd (by linarith : r2 = q) hne

theorem IsRoundedFloat64_exact (q r : ℚ) (h : IsRoundedFloat64 q r) (hq : IsFloat64 q) :
    r = q := by
  have := h.2.1 q hq
  simp only [sub_self, abs_zero] at this
  have h0 : |q - r| = 0 := le_antisymm this (abs_nonneg _)
  rw [abs_eq_zero] at h0
  linarith

theorem IsFloat64_intCast (n : Int) (h : n.natAbs < 2 ^ 53) : IsFloat64 (n : ℚ) := by
  refine ⟨n, 0, ?_, by norm_num, by norm_num, by simp⟩
  rw [Int.abs_eq_natAbs]
  exact_mod_cast h

theorem roundNearestEven_int (N : Nat) (h1 : 2 ^ 53 ≤ N) (h2 : N ≤ 2 ^ 63) :
    IsRoundedFloat64 (N : ℚ) ((roundNearestEven N 1 0 : ℕ) : ℚ) ∧
    0 < roundNearestEven N 1 0 ∧ roundNearestEven N 1 0 < 2 ^ 65 := by
  have hQ : 2 ^ 53 ≤ N * 2 ^ 0 / 1 := by simpa using h1
  have hL : bitLen (N * 2 ^ 0 / 1) ≤ 0 + 1000 := by
    have : bitLen (N * 2 ^ 0 / 1) ≤ 64 := by
      apply bitLen_le
      simp only [pow_zero, mul_one, Nat.div_one]
      have : (2 : ℕ) ^ 63 < 2 ^ 64 := by norm_num
      omega
    omega
  have h := roundNearestEven_rounded N 1 0 (by norm_num) hQ (by norm_num) hL
  simp only [Nat.cast_one, div_one, pow_zero] at h
  refine ⟨h, ?_, ?_⟩
  · obtain ⟨m, M, s, hP, _, hm1, _, _, _, hch⟩ := roundNearestEven_shape N 1 0 (by norm_num) hQ
    rw [hP]
    have hM : 0 < M := by
      have : 0 < 2 ^ 52 := Nat.two_pow_pos 52
      rcases hch with ⟨e, _⟩ | ⟨e, _⟩ <;> omega
    exact Nat.mul_pos hM (Nat.two_pow_pos s)
  · obtain ⟨m, M, s, hP, hs, _, hm2, _, _, hch⟩ := roundNearestEven_shape N 1 0 (by norm_num) hQ
    rw [hP]
    have hM : M ≤ 2 ^ 53 := by
      rcases hch with ⟨e, _⟩ | ⟨e, _⟩ <;> omega
    have hs2 : s ≤ 11 := by
      have : bitLen (N * 2 ^ 0 / 1) ≤ 64 := by
        apply bitLen_le
        simp only [pow_zero, mul_one, Nat.div_one]
        have : (2 : ℕ) ^ 63 < 2 ^ 64 := by norm_num
        omega
      omega
    calc M * 2 ^ s ≤ 2 ^ 53 * 2 ^ 11 :=
          Nat.mul_le_mul hM (Nat.pow_le_pow_right (by norm_num) hs2)
      _ < 2 ^ 65 := by norm_num

theorem float64OfInt_spec (n : Int) (h : InIntRange n) :
    IsRoundedFloat64 (n : ℚ) ((float64OfInt n : ℤ) : ℚ) ∧
    (float64OfInt n = 0 ↔ n = 0) ∧ (0 < float64OfInt n ↔ 0 < n) ∧
    (float64OfInt n).natAbs < 2 ^ 65 := by
  obtain ⟨h1, h2⟩ := h
  unfold float64OfInt
  by_cases hs : n.natAbs < 2 ^ 53
  · simp only [hs, if_true]
    refine ⟨IsRoundedFloat64_self _ (IsFloat64_intCast n hs), trivial, trivial, ?_⟩
    have : (2 : ℕ) ^ 53 < 2 ^ 65 := by norm_num
    omega
  · simp only [hs, if_false]
    have hN1 : 2 ^ 53 ≤ n.natAbs := by omega
    have hN2 : n.natAbs ≤ 2 ^ 63 := by omega
    obtain ⟨r1, r2, r3⟩ := roundNearestEven_int n.natAbs hN1 hN2
    have hpos53 : (0 : ℕ) < 2 ^ 53 := Nat.two_pow_pos 53
    rcases lt_trichotomy n 0 with hn | hn | hn
    · have e : n = -((n.natAbs : ℕ) : ℤ) := by omega
      have hsg : n.sign = -1 := Int.sign_eq_neg_one_of_neg hn
      rw [hsg]
      refine ⟨?_, ?_, ?_, ?_⟩
      · have := IsRoundedFloat64_neg _ _ r1
        have e2 : (n : ℚ) = -((n.natAbs : ℕ) : ℚ) := by
          have := congrArg (Int.cast : ℤ → ℚ) e
          simp only [Int.cast_neg, Int.cast_natCast] at this
          exact this
        rw [e2]
        push_cast
        simpa using this
      · constructor
        · intro h0
          omega
        · intro h0
          omega
      · constructor
        · intro h0
          omega
        · intro h0
          omega
      · omega
    · omega
    · have e : n = ((n.natAbs : ℕ) : ℤ) := by omega
      have hsg : n.sign = 1 := Int.sign_eq_one_of_pos hn
      rw [hsg]
      refine ⟨?_, ?_, ?_, ?_⟩
      · have e2 : (n : ℚ) = ((n.natAbs : ℕ) : ℚ) := by
          have := congrArg (Int.cast : ℤ → ℚ) e
          simp only [Int.cast_natCast] at this
          exact this
        rw [e2]
        simpa using r1
      · constructor
        · intro h0
          omega
        · intro h0
          omega
      · constructor
        · intro h0
          omega
        · intro h0
          omega
      · omega

theorem roundNearestEven_quotient (N D : Nat) (hN : 0 < N) (hD : 0 < D) (hN2 : N < 2 ^ 65)
    (hD2 : D < 2 ^ 65) :
    IsRoundedFloat64 ((N : ℚ) / (D : ℚ))
      (((roundNearestEven N D (bitLen D + 53) : ℕ) : ℚ) / (2 : ℚ) ^ (bitLen D + 53)) := by
  obtain ⟨_, b2, _⟩ := bitLen_spec D (by omega)
  have hbl : bitLen D ≤ 65 := bitLen_le D 65 hD2
  have hQ : 2 ^ 53 ≤ N * 2 ^ (bitLen D + 53) / D := by
    rw [Nat.le_div_iff_mul_le hD]
    calc 2 ^ 53 * D ≤ 2 ^ 53 * 2 ^ bitLen D := Nat.mul_le_mul_left _ (le_of_lt b2)
      _ = 1 * 2 ^ (bitLen D + 53) := by rw [one_mul, pow_add, mul_comm]
      _ ≤ N * 2 ^ (bitLen D + 53) := Nat.mul_le_mul_right _ hN
  have hL : bitLen (N * 2 ^ (bitLen D + 53) / D) ≤ bitLen D + 53 + 1000 := by
    have : bitLen (N * 2 ^ (bitLen D + 53) / D) ≤ 65 + (bitLen D + 53) := by
      apply bitLen_le
      calc N * 2 ^ (bitLen D + 53) / D ≤ N * 2 ^ (bitLen D + 53) := Nat.div_le_self _ _
        _ < 2 ^ 65 * 2 ^ (bitLen D + 53) :=
          Nat.mul_lt_mul_of_pos_right hN2 (Nat.two_pow_pos _)
        _ = 2 ^ (65 + (bitLen D + 53)) := by rw [← pow_add]
    omega
  exact roundNearestEven_rounded N D (bitLen D + 53) hD hQ (by omega) hL

theorem float64Div_spec (a b : Int) (ha : InIntRange a) (hb : InIntRange b) :
    IsFloat64Quotient a b (float64Div a b) := by
  obtain ⟨hx, hx0, hxp, hxb⟩ := float64OfInt_spec a ha
  obtain ⟨hy, hy0, hyp, hyb⟩ := float64OfInt_spec b hb
  refine ⟨((float64OfInt a : ℤ) : ℚ), ((float64OfInt b : ℤ) : ℚ), hx, hy, ?_, ?_, ?_⟩
  · intro h0
    have h1 : float64OfInt b = 0 := by exact_mod_cast h0
    unfold float64Div
    simp only [h1, if_true, Int.cast_pos, Int.cast_lt_zero]
  · intro h0 hx1
    have h1 : float64OfInt b ≠ 0 := by
      intro h
      apply h0
      exact_mod_cast h
    have h2 : float64OfInt a = 0 := by exact_mod_cast hx1
    unfold float64Div
    simp only [h1, h2, if_true, if_false, Int.cast_pos]
  · intro h0 hx1
    have h1 : float64OfInt b ≠ 0 := by
      intro h
      apply h0
      exact_mod_cast h
    have h2 : float64OfInt a ≠ 0 := by
      intro h
      apply hx1
      exact_mod_cast h
    unfold float64Div
    simp only [h1, h2, if_false]
    refine ⟨_, ?_, rfl⟩
    have hN : 0 < (float64OfInt a).natAbs := Int.natAbs_pos.2 h2
    have hD : 0 < (float64OfInt b).natAbs := Int.natAbs_pos.2 h1
    have hr := roundNearestEven_quotient _ _ hN hD hxb hyb
    rw [Rat.mkRat_eq_div]
    push_cast
    generalize roundNearestEven (float64OfInt a).natAbs (float64OfInt b).natAbs
      (bitLen (float64OfInt b).natAbs + 53) = P at hr ⊢
    generalize bitLen (float64OfInt b).natAbs + 53 = K at hr ⊢
    rcases Int.natAbs_eq (float64OfInt a) with ea | ea <;>
      rcases Int.natAbs_eq (float64OfInt b) with eb | eb
    · have s1 : (float64OfInt a).sign = 1 := Int.sign_eq_one_of_pos (by omega)
      have s2 : (float64OfInt b).sign = 1 := Int.sign_eq_one_of_pos (by omega)
      have c1 : ((float64OfInt a : ℤ) : ℚ) = ((float64OfInt a).natAbs : ℚ) := by
        have := congrArg (Int.cast : ℤ → ℚ) ea
        simp only [Int.cast_natCast] at this
        exact this
      have c2 : ((float64OfInt b : ℤ) : ℚ) = ((float64OfInt b).natAbs : ℚ) := by
        have := congrArg (Int.cast : ℤ → ℚ) eb
        simp only [Int.cast_natCast] at this
        exact this
      rw [s1, s2, c1, c2]
      simpa using hr
    · have s1 : (float64OfInt a).sign = 1 := Int.sign_eq_one_of_pos (by omega)
      have s2 : (float64OfInt b).sign = -1 := Int.sign_eq_neg_one_of_neg (by omega)
      have c1 : ((float64OfInt a : ℤ) : ℚ) = ((float64OfInt a).natAbs : ℚ) := by
        have := congrArg (Int.cast : ℤ → ℚ) ea
        simp only [Int.cast_natCast] at this
        exact this
      have c2 : ((float64OfInt b : ℤ) : ℚ) = -((float64OfInt b).natAbs : ℚ) := by
        have := congrArg (Int.cast : ℤ → ℚ) eb
        simp only [Int.cast_neg, Int.cast_natCast] at this
        exact this
      rw [s1, s2, c1, c2]
      have := IsRoundedFloat64_neg _ _ hr
      have e1 : ((float64OfInt a).natAbs : ℚ) / -((float64OfInt b).natAbs : ℚ) =
          -(((float64OfInt a).natAbs : ℚ) / ((float64OfInt b).natAbs : ℚ)) := by
        rw [div_neg]
      have e2 : ((1 : ℤ) : ℚ) * ((-1 : ℤ) : ℚ) * (P : ℚ) / (2 : ℚ) ^ K =
          -((P : ℚ) / (2 : ℚ) ^ K) := by
        push_cast
        ring
      rw [e1, e2]
      exact this
    · have s1 : (float64OfInt a).sign = -1 := Int.sign_eq_neg_one_of_neg (by omega)
      have s2 : (float64OfInt b).sign = 1 := Int.sign_eq_one_of_pos (by omega)
      have c1 : ((float64OfInt a : ℤ) : ℚ) = -((float64OfInt a).natAbs : ℚ) := by
        have := congrArg (Int.cast : ℤ → ℚ) ea
        simp only [Int.cast_neg, Int.cast_natCast] at this
        exact this
      have c2 : ((float64OfInt b : ℤ) : ℚ) = ((float64OfInt b).natAbs : ℚ) := by
        have := congrArg (Int.cast : ℤ → ℚ) eb
        simp only [Int.cast_natCast] at this
        exact this
      rw [s1, s2, c1, c2]
      have := IsRoundedFloat64_neg _ _ hr
      have e1 : -((float64OfInt a).natAbs : ℚ) / ((float64OfInt b).natAbs : ℚ) =
          -(((float64OfInt a).natAbs : ℚ) / ((float64OfInt b).natAbs : ℚ)) := by
        rw [neg_div]
      have e2 : ((-1 : ℤ) : ℚ) * ((1 : ℤ) : ℚ) * (P : ℚ) / (2 : ℚ) ^ K =
          -((P : ℚ) / (2 : ℚ) ^ K) := by
        push_cast
        ring
      rw [e1, e2]
      exact this
    · have s1 : (float64OfInt a).sign = -1 := Int.sign_eq_neg_one_of_neg (by omega)
      have s2 : (float64OfInt b).sign = -1 := Int.sign_eq_neg_one_of_neg (by omega)
      have c1 : ((float64OfInt a : ℤ) : ℚ) = -((float64OfInt a).natAbs : ℚ) := by
        have := congrArg (Int.cast : ℤ → ℚ) ea
        simp only [Int.cast_neg, Int.cast_natCast] at this
        exact this
      have c2 : ((float64OfInt b : ℤ) : ℚ) = -((float64OfInt b).natAbs : ℚ) := by
        have := congrArg (Int.cast : ℤ → ℚ) eb
        simp only [Int.cast_neg, Int.cast_natCast] at this
        exact this
      rw [s1, s2, c1, c2]
      have e1 : -((float64OfInt a).natAbs : ℚ) / -((float64OfInt b).natAbs : ℚ) =
          (((float64OfInt a).natAbs : ℚ) / ((float64OfInt b).natAbs : ℚ)) := by
        rw [neg_div_neg_eq]
      have e2 : ((-1 : ℤ) : ℚ) * ((-1 : ℤ) : ℚ) * (P : ℚ) / (2 : ℚ) ^ K =
          ((P : ℚ) / (2 : ℚ) ^ K) := by
        push_cast
        ring
      rw [e1, e2]
      exact hr

theorem wrapInt_of_range (x : Int) (h : InIntRange x) : wrapInt x = x := by
  unfold InIntRange at h
  unfold wrapInt
  omega

theorem wrapInt_range (x : Int) : InIntRange (wrapInt x) := by
  unfold InIntRange wrapInt
  omega

theorem wrapInt_mod (x : Int) : (wrapInt x - x) % 2 ^ 64 = 0 := by
  unfold wrapInt
  omega

theorem roundNearestEven_pos (N : Nat) (h : 2 ^ 53 ≤ N) : 0 < roundNearestEven N 1 0 := by
  have hQ : 2 ^ 53 ≤ N * 2 ^ 0 / 1 := by simpa using h
  obtain ⟨m, M, s, hP, _, hm1, _, _, _, hch⟩ := roundNearestEven_shape N 1 0 (by norm_num) hQ
  rw [hP]
  have hM : 0 < M := by
    have : 0 < 2 ^ 52 := Nat.two_pow_pos 52
    rcases hch with ⟨e, _⟩ | ⟨e, _⟩ <;> omega
  exact Nat.mul_pos hM (Nat.two_pow_pos s)

theorem float64OfInt_pos (n : Int) (h : 0 < n) : 0 < float64OfInt n := by
  unfold float64OfInt
  split_ifs with hs
  · exact h
  · rw [Int.sign_eq_one_of_pos h, one_mul]
    have := roundNearestEven_pos n.natAbs (by omega)
    exact_mod_cast this

theorem float64OfInt_zero : float64OfInt 0 = 0 := by
  decide

theorem float64Div_zero (n : Int) (hn : 0 < n) : float64Div 0 n = Float64.finite 0 := by
  have h := float64OfInt_pos n hn
  have h2 : float64OfInt n ≠ 0 := by omega
  unfold float64Div
  simp only [float64OfInt_zero, h2, h, if_true, if_false]

theorem float64OfInt_exact (n : Int) (h : n.natAbs ≤ 2 ^ 53) : float64OfInt n = n := by
  by_cases hs : n.natAbs < 2 ^ 53
  · unfold float64OfInt
    rw [if_pos hs]
  · have h2 : n.natAbs = 2 ^ 53 := by omega
    rcases Int.natAbs_eq n with e | e
    · rw [h2] at e
      rw [e]
      decide
    · rw [h2] at e
      rw [e]
      decide

theorem minimum_of_small (big a b : Int) (ha : a.natAbs ≤ 2 ^ 53) (hb : b.natAbs ≤ 2 ^ 53) :
    float64ToInt big (mathMin (float64OfInt a) (float64OfInt b)) = min a b := by
  rw [float64OfInt_exact a ha, float64OfInt_exact b hb]
  unfold float64ToInt mathMin
  have h1 : -2 ^ 63 ≤ min a b ∧ min a b < 2 ^ 63 := by
    have e : (2 : ℕ) ^ 53 = 9007199254740992 := by norm_num
    rw [e] at ha hb
    constructor
    · apply le_min <;> omega
    · apply lt_of_le_of_lt (min_le_left a b)
      omega
  rw [if_pos h1]

/-- The conversions and the division on sample values: `2^53 + 1` is a tie and
rounds to the even `2^53`, `2^53 + 3` rounds up to `2^53 + 4`, the largest
`int` rounds to `2^63`; `7 / 10` and `-7 / 3` are rounded, `10 / 4` is exact,
and a zero over a negative divisor is negative zero. -/
theorem float64_samples :
    float64OfInt 9007199254740993 = 9007199254740992 ∧
    float64OfInt 9007199254740995 = 9007199254740996 ∧
    float64OfInt 9223372036854775807 = 9223372036854775808 ∧
    float64OfInt (-9007199254740993) = -9007199254740992 ∧
    float64Div 7 10 = Float64.finite (mkRat 3152519739159347 4503599627370496) ∧
    float64Div (-7) 3 = Float64.finite (mkRat (-5254199565265579) 2251799813685248) ∧
    float64Div 10 4 = Float64.finite (mkRat 5 2) ∧
    float64Div 0 (-4) = Float64.negZero ∧
    float64Div 4 0 = Float64.posInf ∧
    float64Div 0 0 = Float64.nan := by
  decide

/-! ## Merging and densities -/

theorem MergeNext_fields (big : Int) (a next : TextBlock) :
    (a.MergeNext big next).Text = a.Text ++ '\n' :: next.Text ∧
    (a.MergeNext big next).NumWords = wrapInt (a.NumWords + next.NumWords) ∧
    (a.MergeNext big next).NumLinkedWords = wrapInt (a.NumLinkedWords + next.NumLinkedWords) ∧
    (a.MergeNext big next).NumWordsInWrappedLines =
      wrapInt (a.NumWordsInWrappedLines + next.NumWordsInWrappedLines) ∧
    (a.MergeNext big next).NumWrappedLines =
      wrapInt (a.NumWrappedLines + next.NumWrappedLines) ∧
    (a.MergeNext big next).OffsetBlocksStart = float64ToInt big
      (mathMin (float64OfInt a.OffsetBlocksStart) (float64OfInt next.OffsetBlocksStart)) ∧
    (a.MergeNext big next).OffsetBlocksEnd = float64ToInt big
      (mathMin (float64OfInt a.OffsetBlocksEnd) (float64OfInt next.OffsetBlocksEnd)) ∧
    (a.MergeNext big next).TagLevel = float64ToInt big
      (mathMin (float64OfInt a.TagLevel) (float64OfInt next.TagLevel)) ∧
    (a.MergeNext big next).IsContent = (a.IsContent || next.IsContent) ∧
    (a.MergeNext big next).Labels = (fun k => match next.Labels k with
      | some v => some v
      | none => a.Labels k) ∧
    (a.MergeNext big next).TextDensity =
      float64Div (wrapInt (a.NumWordsInWrappedLines + next.NumWordsInWrappedLines))
        (wrapInt (a.NumWrappedLines + next.NumWrappedLines)) ∧
    (a.MergeNext big next).LinkDensity =
      if wrapInt (a.NumWords + next.NumWords) = 0 then Float64.finite 0
      else float64Div (wrapInt (a.NumLinkedWords + next.NumLinkedWords))
        (wrapInt (a.NumWords + next.NumWords)) := by
  simp only [TextBlock.MergeNext, initDensities]
  by_cases h : wrapInt (a.NumWords + next.NumWords) = 0 <;> simp [h]

theorem NewTextBlock_densities (text : List Char) (nw nlw nwwl nwl off lvl : Int) :
    (NewTextBlock text nw nlw nwwl nwl off lvl).TextDensity =
      float64Div (NewTextBlock text nw nlw nwwl nwl off lvl).NumWordsInWrappedLines
        (NewTextBlock text nw nlw nwwl nwl off lvl).NumWrappedLines ∧
    (NewTextBlock text nw nlw nwwl nwl off lvl).LinkDensity =
      (if (NewTextBlock text nw nlw nwwl nwl off lvl).NumWords = 0 then Float64.finite 0
       else float64Div (NewTextBlock text nw nlw nwwl nwl off lvl).NumLinkedWords
        (NewTextBlock text nw nlw nwwl nwl off lvl).NumWords) ∧
    (NewTextBlock text nw nlw nwwl nwl off lvl).NumWords = nw ∧
    (NewTextBlock text nw nlw nwwl nwl off lvl).NumLinkedWords = nlw ∧
    (NewTextBlock text nw nlw nwwl nwl off lvl).NumWordsInWrappedLines =
      (if nwwl = 0 then nw else nwwl) ∧
    (NewTextBlock text nw nlw nwwl nwl off lvl).NumWrappedLines =
      (if nwwl = 0 then 1 else nwl) := by
  simp only [NewTextBlock, initDensities]
  by_cases h1 : nwwl = 0 <;> by_cases h2 : nw = 0 <;> simp [h1, h2]

theorem IsFloat64_of_small (n : Int) (h : n.natAbs ≤ 2 ^ 53) : IsFloat64 (n : ℚ) := by
  by_cases hs : n.natAbs < 2 ^ 53
  · exact IsFloat64_intCast n hs
  · have h2 : n.natAbs = 2 ^ 53 := by omega
    rcases Int.natAbs_eq n with e | e
    · refine ⟨2 ^ 52, 1, by norm_num, by norm_num, by norm_num, ?_⟩
      rw [e, h2]
      norm_num
    · refine ⟨-2 ^ 52, 1, by norm_num, by norm_num, by norm_num, ?_⟩
      rw [e, h2]
      norm_num

theorem IsFloat64Quotient_exact (a b : Int) (d : Float64) (h : IsFloat64Quotient a b d)
    (ha : a.natAbs ≤ 2 ^ 53) (hb : b.natAbs ≤ 2 ^ 53) (ha0 : a ≠ 0) (hb0 : b ≠ 0)
    (hq : IsFloat64 ((a : ℚ) / (b : ℚ))) :
    d = Float64.finite ((a : ℚ) / (b : ℚ)) := by
  obtain ⟨x, y, hx, hy, _, _, h3⟩ := h
  have ex : x = (a : ℚ) := IsRoundedFloat64_exact _ _ hx (IsFloat64_of_small a ha)
  have ey : y = (b : ℚ) := IsRoundedFloat64_exact _ _ hy (IsFloat64_of_small b hb)
  subst ex ey
  have hb1 : (b : ℚ) ≠ 0 := by exact_mod_cast hb0
  have ha1 : (a : ℚ) ≠ 0 := by exact_mod_cast ha0
  obtain ⟨r, hr, hd⟩ := h3 hb1 ha1
  rw [hd, IsRoundedFloat64_exact _ _ hr hq]

/-- C4, as stated, fails: the block built with one word in wrapped lines and
three wrapped lines has the text density `6004799503160661 / 2^54`, the
`float64` nearest to one third, and not the exact ratio `1/3`. -/
theorem third_density_rounded :
    (NewTextBlock [] 3 0 1 3 0 0).NumWordsInWrappedLines = 1 ∧
    (NewTextBlock [] 3 0 1 3 0 0).NumWrappedLines = 3 ∧
    (NewTextBlock [] 3 0 1 3 0 0).TextDensity =
      Float64.finite (mkRat 6004799503160661 (2 ^ 54)) ∧
    (NewTextBlock [] 3 0 1 3 0 0).TextDensity ≠ Float64.finite ((1 : ℚ) / 3) := by
  have h : (NewTextBlock [] 3 0 1 3 0 0).TextDensity =
      Float64.finite (mkRat 6004799503160661 (2 ^ 54)) := by decide
  refine ⟨by decide, by decide, h, ?_⟩
  rw [h]
  intro hc
  have h2 : mkRat 6004799503160661 (2 ^ 54) = (1 : ℚ) / 3 := by
    injection hc
  rw [Rat.mkRat_eq_div] at h2
  norm_num at h2

theorem TextblockGo_MergeNext_fields (big : Int) (a next : TextblockGo.TextBlock) :
    (a.MergeNext big next).Text = a.Text ++ '\n' :: next.Text ∧
    (a.MergeNext big next).NumWords = wrapInt (a.NumWords + next.NumWords) ∧
    (a.MergeNext big next).NumLinkedWords = wrapInt (a.NumLinkedWords + next.NumLinkedWords) ∧
    (a.MergeNext big next).NumWordsInWrappedLines =
      wrapInt (a.NumWordsInWrappedLines + next.NumWordsInWrappedLines) ∧
    (a.MergeNext big next).NumWrappedLines =
      wrapInt (a.NumWrappedLines + next.NumWrappedLines) ∧
    (a.MergeNext big next).OffsetBlocksStart = float64ToInt big
      (mathMin (float64OfInt a.OffsetBlocksStart) (float64OfInt next.OffsetBlocksStart)) ∧
    (a.MergeNext big next).OffsetBlocksEnd = float64ToInt big
      (mathMin (float64OfInt a.OffsetBlocksEnd) (float64OfInt next.OffsetBlocksEnd)) ∧
    (a.MergeNext big next).TagLevel = float64ToInt big
      (mathMin (float64OfInt a.TagLevel) (float64OfInt next.TagLevel)) := by
  simp [TextblockGo.TextBlock.MergeNext]

/-- C4, amended. A block returned by `NewTextBlock` on `int` counters, and a
block just after `MergeNext`, has as `TextDensity` the `float64` quotient of
its current `NumWordsInWrappedLines` and `NumWrappedLines` (both converted to
`float64`, the quotient rounded to nearest, ties to even; the IEEE result for a
zero divisor), and as `LinkDensity` 0 when `NumWords = 0` and the `float64`
quotient of its current `NumLinkedWords` and `NumWords` otherwise; for
`MergeNext` the current counters are the merged ones.  The density methods of
`textblock.go` give the same on the merged counters.  When both counters are
not 0, at most `2^53` in magnitude, and their exact ratio is a `float64`, the
`float64` quotient is that ratio. -/
theorem densities_follow_counters :
    (∀ (text : List Char) (nw nlw nwwl nwl off lvl : Int),
      InIntRange nw → InIntRange nlw → InIntRange nwwl → InIntRange nwl →
      let b := NewTextBlock text nw nlw nwwl nwl off lvl
      IsFloat64Quotient b.NumWordsInWrappedLines b.NumWrappedLines b.TextDensity ∧
      (b.NumWords = 0 → b.LinkDensity = Float64.finite 0) ∧
      (b.NumWords ≠ 0 → IsFloat64Quotient b.NumLinkedWords b.NumWords b.LinkDensity)) ∧
    (∀ (big : Int) (a next : TextBlock),
      let b := a.MergeNext big next
      IsFloat64Quotient b.NumWordsInWrappedLines b.NumWrappedLines b.TextDensity ∧
      (b.NumWords = 0 → b.LinkDensity = Float64.finite 0) ∧
      (b.NumWords ≠ 0 → IsFloat64Quotient b.NumLinkedWords b.NumWords b.LinkDensity)) ∧
    (∀ (big : Int) (a next : TextblockGo.TextBlock),
      let b := a.MergeNext big next
      IsFloat64Quotient b.NumWordsInWrappedLines b.NumWrappedLines b.TextDensity ∧
      (b.NumWords = 0 → b.LinkDensity = Float64.finite 0) ∧
      (b.NumWords ≠ 0 → IsFloat64Quotient b.NumLinkedWords b.NumWords b.LinkDensity)) ∧
    (∀ (x y : Int) (d : Float64), IsFloat64Quotient x y d →
      x.natAbs ≤ 2 ^ 53 → y.natAbs ≤ 2 ^ 53 → x ≠ 0 → y ≠ 0 →
      IsFloat64 ((x : ℚ) / (y : ℚ)) → d = Float64.finite ((x : ℚ) / (y : ℚ))) := by
  refine ⟨?_, ?_, ?_, ?_⟩
  · intro text nw nlw nwwl nwl off lvl h1 h2 h3 h4
    obtain ⟨d1, d2, f1, f2, f3, f4⟩ := NewTextBlock_densities text nw nlw nwwl nwl off lvl
    have r3 : InIntRange (NewTextBlock text nw nlw nwwl nwl off lvl).NumWordsInWrappedLines := by
      rw [f3]
      split_ifs
      · exact h1
      · exact h3
    have r4 : InIntRange (NewTextBlock text nw nlw nwwl nwl off lvl).NumWrappedLines := by
      rw [f4]
      split_ifs
      · decide
      · exact h4
    refine ⟨?_, ?_, ?_⟩
    · rw [d1]
      exact float64Div_spec _ _ r3 r4
    · intro h0
      rw [d2, if_pos h0]
    · intro h0
      rw [d2, if_neg h0]
      exact float64Div_spec _ _ (by rw [f2]; exact h2) (by rw [f1]; exact h1)
  · intro big a next
    obtain ⟨_, f1, f2, f3, f4, _, _, _, _, _, d1, d2⟩ := MergeNext_fields big a next
    refine ⟨?_, ?_, ?_⟩
    · rw [d1, f3, f4]
      exact float64Div_spec _ _ (wrapInt_range _) (wrapInt_range _)
    · intro h0
      rw [f1] at h0
      rw [d2, if_pos h0]
    · intro h0
      rw [f1] at h0
      rw [d2, if_neg h0, f1, f2]
      exact float64Div_spec _ _ (wrapInt_range _) (wrapInt_range _)
  · intro big a next
    obtain ⟨_, f1, f2, f3, f4, _, _, _⟩ := TextblockGo_MergeNext_fields big a next
    refine ⟨?_, ?_, ?_⟩
    · unfold TextblockGo.TextBlock.TextDensity
      rw [f3, f4]
      exact float64Div_spec _ _ (wrapInt_range _) (wrapInt_range _)
    · intro h0
      unfold TextblockGo.TextBlock.LinkDensity
      rw [if_pos h0]
    · intro h0
      unfold TextblockGo.TextBlock.LinkDensity
      rw [if_neg h0, f1, f2]
      exact float64Div_spec _ _ (wrapInt_range _) (wrapInt_range _)
  · intro x y d h hx hy hx0 hy0 hq
    exact IsFloat64Quotient_exact x y d h hx hy hx0 hy0 hq

/-- C4 (amended) on the block with 1 word in wrapped lines and 3 wrapped
lines, and on the block with 6 words in wrapped lines and 3 wrapped lines,
whose ratio 2 is a `float64`. -/
theorem densities_follow_counters_witness :
    IsFloat64Quotient (NewTextBlock [] 3 0 1 3 0 0).NumWordsInWrappedLines
      (NewTextBlock [] 3 0 1 3 0 0).NumWrappedLines (NewTextBlock [] 3 0 1 3 0 0).TextDensity ∧
    (NewTextBlock [] 6 0 6 3 0 0).TextDensity =
      Float64.finite (((6 : ℤ) : ℚ) / ((3 : ℤ) : ℚ)) :=
  ⟨(densities_follow_counters.1 [] 3 0 1 3 0 0 (by decide) (by decide) (by decide)
      (by decide)).1,
   densities_follow_counters.2.2.2 6 3 _
      (densities_follow_counters.1 [] 6 0 6 3 0 0 (by decide) (by decide) (by decide)
        (by decide)).1
      (by decide) (by decide) (by decide) (by decide)
      ⟨2, 0, by norm_num, by norm_num, by norm_num, by norm_num⟩⟩

/-- C5, as stated, fails: merging a block of `2^63 - 1` words, the largest
`int`, with a block of 1 word leaves `NumWords = -2^63`, not the sum `2^63`. -/
theorem MergeNext_counter_wraps :
    InIntRange (NewTextBlock ['a'] 9223372036854775807 0 1 1 0 0).NumWords ∧
    InIntRange (NewTextBlock ['b'] 1 0 1 1 1 0).NumWords ∧
    (NewTextBlock ['a'] 9223372036854775807 0 1 1 0 0).NumWords +
      (NewTextBlock ['b'] 1 0 1 1 1 0).NumWords = 9223372036854775808 ∧
    ((NewTextBlock ['a'] 9223372036854775807 0 1 1 0 0).MergeNext amd64OutOfRange
      (NewTextBlock ['b'] 1 0 1 1 1 0)).NumWords = -9223372036854775808 := by
  refine ⟨by decide, by decide, by decide, ?_⟩
  rw [(MergeNext_fields amd64OutOfRange _ _).2.1]
  decide

/-- C5, amended. After `a.MergeNext(next)` each of the counters `NumWords`,
`NumLinkedWords`, `NumWordsInWrappedLines` and `NumWrappedLines` of `a` is an
`int` that differs from the sum of its value before the merge and the value of
`next` by a multiple of `2^64`; it is that sum whenever the sum is in the range
of `int`.  This holds in `boilerpipe.go` and in `textblock.go`. -/
theorem MergeNext_sums_counters :
    (∀ (big : Int) (a next : TextBlock),
      (InIntRange (a.MergeNext big next).NumWords ∧
        ((a.MergeNext big next).NumWords - (a.NumWords + next.NumWords)) % 2 ^ 64 = 0 ∧
        (InIntRange (a.NumWords + next.NumWords) →
          (a.MergeNext big next).NumWords = a.NumWords + next.NumWords)) ∧
      (InIntRange (a.MergeNext big next).NumLinkedWords ∧
        ((a.MergeNext big next).NumLinkedWords -
          (a.NumLinkedWords + next.NumLinkedWords)) % 2 ^ 64 = 0 ∧
        (InIntRange (a.NumLinkedWords + next.NumLinkedWords) →
          (a.MergeNext big next).NumLinkedWords = a.NumLinkedWords + next.NumLinkedWords)) ∧
      (InIntRange (a.MergeNext big next).NumWordsInWrappedLines ∧
        ((a.MergeNext big next).NumWordsInWrappedLines -
          (a.NumWordsInWrappedLines + next.NumWordsInWrappedLines)) % 2 ^ 64 = 0 ∧
        (InIntRange (a.NumWordsInWrappedLines + next.NumWordsInWrappedLines) →
          (a.MergeNext big next).NumWordsInWrappedLines =
            a.NumWordsInWrappedLines + next.NumWordsInWrappedLines)) ∧
      (InIntRange (a.MergeNext big next).NumWrappedLines ∧
        ((a.MergeNext big next).NumWrappedLines -
          (a.NumWrappedLines + next.NumWrappedLines)) % 2 ^ 64 = 0 ∧
        (InIntRange (a.NumWrappedLines + next.NumWrappedLines) →
          (a.MergeNext big next).NumWrappedLines =
            a.NumWrappedLines + next.NumWrappedLines))) ∧
    (∀ (big : Int) (a next : TextblockGo.TextBlock),
      (InIntRange (a.MergeNext big next).NumWords ∧
        ((a.MergeNext big next).NumWords - (a.NumWords + next.NumWords)) % 2 ^ 64 = 0 ∧
        (InIntRange (a.NumWords + next.NumWords) →
          (a.MergeNext big next).NumWords = a.NumWords + next.NumWords)) ∧
      (InIntRange (a.MergeNext big next).NumLinkedWords ∧
        ((a.MergeNext big next).NumLinkedWords -
          (a.NumLinkedWords + next.NumLinkedWords)) % 2 ^ 64 = 0 ∧
        (InIntRange (a.NumLinkedWords + next.NumLinkedWords) →
          (a.MergeNext big next).NumLinkedWords = a.NumLinkedWords + next.NumLinkedWords)) ∧
      (InIntRange (a.MergeNext big next).NumWordsInWrappedLines ∧
        ((a.MergeNext big next).NumWordsInWrappedLines -
          (a.NumWordsInWrappedLines + next.NumWordsInWrappedLines)) % 2 ^ 64 = 0 ∧
        (InIntRange (a.NumWordsInWrappedLines + next.NumWordsInWrappedLines) →
          (a.MergeNext big next).NumWordsInWrappedLines =
            a.NumWordsInWrappedLines + next.NumWordsInWrappedLines)) ∧
      (InIntRange (a.MergeNext big next).NumWrappedLines ∧
        ((a.MergeNext big next).NumWrappedLines -
          (a.NumWrappedLines + next.NumWrappedLines)) % 2 ^ 64 = 0 ∧
        (InIntRange (a.NumWrappedLines + next.NumWrappedLines) →
          (a.MergeNext big next).NumWrappedLines =
            a.NumWrappedLines + next.NumWrappedLines))) := by
  refine ⟨?_, ?_⟩
  · intro big a next
    obtain ⟨_, f1, f2, f3, f4, _⟩ := MergeNext_fields big a next
    rw [f1, f2, f3, f4]
    exact ⟨⟨wrapInt_range _, wrapInt_mod _, wrapInt_of_range _⟩,
      ⟨wrapInt_range _, wrapInt_mod _, wrapInt_of_range _⟩,
      ⟨wrapInt_range _, wrapInt_mod _, wrapInt_of_range _⟩,
      ⟨wrapInt_range _, wrapInt_mod _, wrapInt_of_range _⟩⟩
  · intro big a next
    obtain ⟨_, f1, f2, f3, f4, _⟩ := TextblockGo_MergeNext_fields big a next
    rw [f1, f2, f3, f4]
    exact ⟨⟨wrapInt_range _, wrapInt_mod _, wrapInt_of_range _⟩,
      ⟨wrapInt_range _, wrapInt_mod _, wrapInt_of_range _⟩,
      ⟨wrapInt_range _, wrapInt_mod _, wrapInt_of_range _⟩,
      ⟨wrapInt_range _, wrapInt_mod _, wrapInt_of_range _⟩⟩

/-- C5 (amended) on the merge of a block of 3 words with a block of 4 words. -/
theorem MergeNext_sums_counters_witness :
    ((NewTextBlock ['a'] 3 1 2 2 0 0).MergeNext amd64OutOfRange
      (NewTextBlock ['b'] 4 0 4 1 1 0)).NumWords =
      (NewTextBlock ['a'] 3 1 2 2 0 0).NumWords + (NewTextBlock ['b'] 4 0 4 1 1 0).NumWords ∧
    ((NewTextBlock ['a'] 3 1 2 2 0 0).MergeNext amd64OutOfRange
      (NewTextBlock ['b'] 4 0 4 1 1 0)).NumWrappedLines =
      (NewTextBlock ['a'] 3 1 2 2 0 0).NumWrappedLines +
        (NewTextBlock ['b'] 4 0 4 1 1 0).NumWrappedLines :=
  ⟨(MergeNext_sums_counters.1 amd64OutOfRange (NewTextBlock ['a'] 3 1 2 2 0 0)
      (NewTextBlock ['b'] 4 0 4 1 1 0)).1.2.2 (by decide),
   (MergeNext_sums_counters.1 amd64OutOfRange (NewTextBlock ['a'] 3 1 2 2 0 0)
      (NewTextBlock ['b'] 4 0 4 1 1 0)).2.2.2.2.2 (by decide)⟩

/-- C6, as stated, fails: for the start offsets `2^53 + 1` and `2^62` the
conversion to `float64` rounds the first to `2^53`, and the merged block gets
`2^53`, which is neither offset and not their minimum. -/
theorem MergeNext_minimum_rounded :
    (NewTextBlock ['a'] 1 0 1 1 9007199254740993 0).OffsetBlocksStart = 9007199254740993 ∧
    (NewTextBlock ['b'] 1 0 1 1 4611686018427387904 0).OffsetBlocksStart =
      4611686018427387904 ∧
    ((NewTextBlock ['a'] 1 0 1 1 9007199254740993 0).MergeNext amd64OutOfRange
      (NewTextBlock ['b'] 1 0 1 1 4611686018427387904 0)).OffsetBlocksStart =
        9007199254740992 ∧
    min (NewTextBlock ['a'] 1 0 1 1 9007199254740993 0).OffsetBlocksStart
      (NewTextBlock ['b'] 1 0 1 1 4611686018427387904 0).OffsetBlocksStart =
        9007199254740993 := by
  refine ⟨by decide, by decide, ?_, by decide⟩
  rw [(MergeNext_fields amd64OutOfRange _ _).2.2.2.2.2.1]
  have h1 : float64OfInt (NewTextBlock ['a'] 1 0 1 1 9007199254740993 0).OffsetBlocksStart =
      9007199254740992 := by decide
  have h2 : float64OfInt
      (NewTextBlock ['b'] 1 0 1 1 4611686018427387904 0).OffsetBlocksStart =
      4611686018427387904 := by decide
  rw [h1, h2, float64ToInt, if_pos (by decide)]
  decide

/-- C6, amended. When the two start offsets are at most `2^53` in magnitude,
`OffsetBlocksStart` after `a.MergeNext(next)` is their minimum; likewise
`OffsetBlocksEnd` is the minimum (not the maximum) of the two end offsets, and
`TagLevel` the minimum of the two tag levels, in `boilerpipe.go` and in
`textblock.go`. -/
theorem MergeNext_takes_minima :
    (∀ (big : Int) (a next : TextBlock),
      (a.OffsetBlocksStart.natAbs ≤ 2 ^ 53 → next.OffsetBlocksStart.natAbs ≤ 2 ^ 53 →
        (a.MergeNext big next).OffsetBlocksStart =
          min a.OffsetBlocksStart next.OffsetBlocksStart) ∧
      (a.OffsetBlocksEnd.natAbs ≤ 2 ^ 53 → next.OffsetBlocksEnd.natAbs ≤ 2 ^ 53 →
        (a.MergeNext big next).OffsetBlocksEnd =
          min a.OffsetBlocksEnd next.OffsetBlocksEnd) ∧
      (a.TagLevel.natAbs ≤ 2 ^ 53 → next.TagLevel.natAbs ≤ 2 ^ 53 →
        (a.MergeNext big next).TagLevel = min a.TagLevel next.TagLevel)) ∧
    (∀ (big : Int) (a next : TextblockGo.TextBlock),
      (a.OffsetBlocksStart.natAbs ≤ 2 ^ 53 → next.OffsetBlocksStart.natAbs ≤ 2 ^ 53 →
        (a.MergeNext big next).OffsetBlocksStart =
          min a.OffsetBlocksStart next.OffsetBlocksStart) ∧
      (a.OffsetBlocksEnd.natAbs ≤ 2 ^ 53 → next.OffsetBlocksEnd.natAbs ≤ 2 ^ 53 →
        (a.MergeNext big next).OffsetBlocksEnd =
          min a.OffsetBlocksEnd next.OffsetBlocksEnd) ∧
      (a.TagLevel.natAbs ≤ 2 ^ 53 → next.TagLevel.natAbs ≤ 2 ^ 53 →
        (a.MergeNext big next).TagLevel = min a.TagLevel next.TagLevel)) := by
  refine ⟨?_, ?_⟩
  · intro big a next
    obtain ⟨_, _, _, _, _, f5, f6, f7, _⟩ := MergeNext_fields big a next
    rw [f5, f6, f7]
    exact ⟨minimum_of_small big _ _, minimum_of_small big _ _, minimum_of_small big _ _⟩
  · intro big a next
    obtain ⟨_, _, _, _, _, f5, f6, f7⟩ := TextblockGo_MergeNext_fields big a next
    rw [f5, f6, f7]
    exact ⟨minimum_of_small big _ _, minimum_of_small big _ _, minimum_of_small big _ _⟩

/-- C6 (amended) on the merge of the blocks at the offsets 4 and 7, with the
tag levels 2 and 1. -/
theorem MergeNext_takes_minima_witness :
    ((NewTextBlock ['a'] 1 0 1 1 4 2).MergeNext amd64OutOfRange
      (NewTextBlock ['b'] 1 0 1 1 7 1)).OffsetBlocksEnd =
      min (NewTextBlock ['a'] 1 0 1 1 4 2).OffsetBlocksEnd
        (NewTextBlock ['b'] 1 0 1 1 7 1).OffsetBlocksEnd ∧
    ((NewTextBlock ['a'] 1 0 1 1 4 2).MergeNext amd64OutOfRange
      (NewTextBlock ['b'] 1 0 1 1 7 1)).TagLevel =
      min (NewTextBlock ['a'] 1 0 1 1 4 2).TagLevel (NewTextBlock ['b'] 1 0 1 1 7 1).TagLevel :=
  ⟨(MergeNext_takes_minima.1 amd64OutOfRange (NewTextBlock ['a'] 1 0 1 1 4 2)
      (NewTextBlock ['b'] 1 0 1 1 7 1)).2.1 (by decide) (by decide),
   (MergeNext_takes_minima.1 amd64OutOfRange (NewTextBlock ['a'] 1 0 1 1 4 2)
      (NewTextBlock ['b'] 1 0 1 1 7 1)).2.2 (by decide) (by decide)⟩

/-- C7. After `a.MergeNext(next)` the text of `a` is its previous text, one line
break, and the text of `next`; `IsContent` is the disjunction of the two flags;
and `a.HasLabel(l)` holds exactly when `a` had `l` before or `next` has `l`. -/
theorem MergeNext_text_content_labels (big : Int) (a next : TextBlock) :
    (a.MergeNext big next).Text = a.Text ++ ['\n'] ++ next.Text ∧
    (a.MergeNext big next).IsContent = (a.IsContent || next.IsContent) ∧
    ∀ l : Label,
      (a.MergeNext big next).HasLabel l = true ↔
        a.HasLabel l = true ∨ next.HasLabel l = true := by
  obtain ⟨f0, _, _, _, _, _, _, _, f8, f9, _⟩ := MergeNext_fields big a next
  refine ⟨?_, f8, ?_⟩
  · rw [f0]
    simp
  · intro l
    simp only [TextBlock.HasLabel, f9]
    cases hn : next.Labels l <;> simp [hn]

/-! ## Byte lengths -/

theorem runeLen_pos (r : Char) : 0 < runeLen r := by
  unfold runeLen
  simp only
  split_ifs <;> omega

theorem byteLen_eq_zero (s : List Char) : byteLen s = 0 ↔ s = [] := by
  cases s with
  | nil => simp [byteLen]
  | cons r s =>
    have := runeLen_pos r
    simp [byteLen]
    omega

theorem byteLen_pos (s : List Char) : byteLen s > 0 ↔ s ≠ [] := by
  rw [← not_iff_not]
  simp [byteLen_eq_zero]

theorem byteLen_append (s t : List Char) : byteLen (s ++ t) = byteLen s + byteLen t := by
  induction s with
  | nil => simp [byteLen]
  | cons r s ih => simp [byteLen, ih]; omega

/-! ## What `FlushBlock` leaves alone -/

theorem FlushBlock_depthBody (w : Char → Bool) (h : ContentHandler) :
    (FlushBlock w h).depthBody = h.depthBody := by
  unfold FlushBlock
  simp only
  split_ifs <;> rfl

theorem FlushBlock_depthIgnoreable (w : Char → Bool) (h : ContentHandler) :
    (FlushBlock w h).depthIgnoreable = h.depthIgnoreable := by
  unfold FlushBlock
  simp only
  split_ifs <;> rfl

theorem FlushBlock_of_empty (w : Char → Bool) (h : ContentHandler)
    (hbody : h.depthBody ≠ 0) (htok : h.tokenBuffer = []) : FlushBlock w h = h := by
  unfold FlushBlock
  simp [hbody, htok, byteLen]

/-- The block that `FlushBlock` builds when it reaches `NewTextBlock`. -/
theorem FlushBlock_textBlocks (w : Char → Bool) (h : ContentHandler) :
    (FlushBlock w h).textBlocks = h.textBlocks ∨
    (h.depthBody ≠ 0 ∧ h.tokenBuffer ≠ [] ∧ TrimSpace h.textBuffer ≠ [] ∧
      (flushLoop w (flushInit h.inAnchorText) (Split h.tokenBuffer)).numTokens ≠ 0 ∧
      (FlushBlock w h).textBlocks = h.textBlocks ++
        [NewTextBlock (TrimSpace h.textBuffer)
          (flushLoop w (flushInit h.inAnchorText) (Split h.tokenBuffer)).numWords
          (flushLoop w (flushInit h.inAnchorText) (Split h.tokenBuffer)).numLinkedWords
          (if (flushLoop w (flushInit h.inAnchorText) (Split h.tokenBuffer)).numWrappedLines = 0
            then (flushLoop w (flushInit h.inAnchorText) (Split h.tokenBuffer)).numWords
            else (flushLoop w (flushInit h.inAnchorText) (Split h.tokenBuffer)).numWords -
              (flushLoop w (flushInit h.inAnchorText)
                (Split h.tokenBuffer)).numWordsCurrentLine)
          (if (flushLoop w (flushInit h.inAnchorText) (Split h.tokenBuffer)).numWrappedLines = 0
            then 1
            else (flushLoop w (flushInit h.inAnchorText)
              (Split h.tokenBuffer)).numWrappedLines)
          h.offsetBlocks h.depthBlockTag]) := by
  unfold FlushBlock
  simp only
  split_ifs
  all_goals first
    | (left; rfl)
    | (right
       refine ⟨by assumption, ?_, ?_, by assumption, rfl⟩
       · intro hc; simp_all [byteLen]
       · rw [← byteLen_pos]; assumption)

/-! ## Ignorable regions -/

theorem TextToken_of_ignorable (w : Char → Bool) (h : ContentHandler) (t : List Char)
    (hign : h.depthIgnoreable ≠ 0) :
    TextToken w h t =
      if h.flush then
        { FlushBlock w { h with textElementIndex := h.textElementIndex + 1 } with
          flush := false }
      else { h with textElementIndex := h.textElementIndex + 1 } := by
  unfold TextToken
  by_cases hf : h.flush = true
  · simp [hf, FlushBlock_depthIgnoreable, hign]
  · simp [hf, hign]

/-- C9. With `depthIgnoreable > 0`, `TextToken` gives the same token buffer,
render buffer, title and emitted blocks for any two raw texts; when no flush is
pending these are the ones of the state before the call. -/
theorem TextToken_ignorable_discards (w : Char → Bool) (h : ContentHandler)
    (t1 t2 : List Char) (hign : 0 < h.depthIgnoreable) :
    (TextToken w h t1).tokenBuffer = (TextToken w h t2).tokenBuffer ∧
    (TextToken w h t1).textBuffer = (TextToken w h t2).textBuffer ∧
    (TextToken w h t1).title = (TextToken w h t2).title ∧
    (TextToken w h t1).textBlocks = (TextToken w h t2).textBlocks ∧
    (h.flush = false →
      (TextToken w h t1).tokenBuffer = h.tokenBuffer ∧
      (TextToken w h t1).textBuffer = h.textBuffer ∧
      (TextToken w h t1).title = h.title ∧
      (TextToken w h t1).textBlocks = h.textBlocks) := by
  have hne : h.depthIgnoreable ≠ 0 := by omega
  rw [TextToken_of_ignorable w h t1 hne, TextToken_of_ignorable w h t2 hne]
  refine ⟨rfl, rfl, rfl, rfl, ?_⟩
  intro hf
  simp [hf]

/-- C9 on a handler inside an ignorable region with text in its buffers. -/
theorem TextToken_ignorable_discards_witness :
    (TextToken asciiWordChar { clickHandler with depthIgnoreable := 1 } ['x']).tokenBuffer =
      (TextToken asciiWordChar { clickHandler with depthIgnoreable := 1 } ['y', ' ']).tokenBuffer ∧
    (TextToken asciiWordChar { clickHandler with depthIgnoreable := 1 } ['x']).tokenBuffer =
      clickHandler.tokenBuffer :=
  ⟨(TextToken_ignorable_discards asciiWordChar { clickHandler with depthIgnoreable := 1 }
      ['x'] ['y', ' '] (by decide)).1,
   ((TextToken_ignorable_discards asciiWordChar { clickHandler with depthIgnoreable := 1 }
      ['x'] ['y', ' '] (by decide)).2.2.2.2 rfl).1⟩

/-! ## The title -/

/-- C10, as stated, fails: before body, with the title `A` already set, the last
start tag `title` and the token buffer `B`, `FlushBlock` replaces the title by
`B`. -/
theorem FlushBlock_title_overwritten :
    retitleHandler.title ≠ [] ∧ retitleHandler.depthBody = 0 ∧
    retitleHandler.lastStartTag = atomTitle ∧
    TrimSpace retitleHandler.tokenBuffer ≠ [] ∧
    (FlushBlock asciiWordChar retitleHandler).title = ['B'] ∧
    (FlushBlock asciiWordChar retitleHandler).title ≠ retitleHandler.title := by
  decide

/-- C10, amended. Inside body (`depthBody > 0`) `FlushBlock` leaves the title
unchanged, whatever the state.  Before body (`depthBody = 0`), with
`lastStartTag` the title tag and a non-blank token buffer, `FlushBlock` sets
the title to the trimmed token buffer, whether or not a title was set; before
body in every other case the title is unchanged. -/
theorem FlushBlock_title (w : Char → Bool) (h : ContentHandler) :
    (0 < h.depthBody → (FlushBlock w h).title = h.title) ∧
    (h.depthBody = 0 → h.lastStartTag = atomTitle → TrimSpace h.tokenBuffer ≠ [] →
      (FlushBlock w h).title = TrimSpace h.tokenBuffer) ∧
    (h.depthBody = 0 → (h.lastStartTag ≠ atomTitle ∨ TrimSpace h.tokenBuffer = []) →
      (FlushBlock w h).title = h.title) := by
  refine ⟨?_, ?_, ?_⟩
  · intro hb
    have hne : h.depthBody ≠ 0 := by omega
    unfold FlushBlock
    simp only [hne, if_false]
    split_ifs <;> rfl
  · intro hb ht hn
    unfold FlushBlock
    simp [hb, ht, (byteLen_pos _).2 hn]
  · intro hb hor
    unfold FlushBlock
    simp only [hb, if_true]
    rcases hor with ht | hn
    · simp [ht]
    · simp [hn, byteLen]

/-- C10 (amended) inside body, before body on a title, and before body on an
empty buffer. -/
theorem FlushBlock_title_witness :
    (FlushBlock asciiWordChar bodyHandler).title = bodyHandler.title ∧
    (FlushBlock asciiWordChar retitleHandler).title = TrimSpace retitleHandler.tokenBuffer ∧
    (FlushBlock asciiWordChar NewContentHandler).title = NewContentHandler.title :=
  ⟨(FlushBlock_title asciiWordChar bodyHandler).1 (by decide),
   (FlushBlock_title asciiWordChar retitleHandler).2.1 (by decide) (by decide) (by decide),
   (FlushBlock_title asciiWordChar NewContentHandler).2.2 (by decide) (by decide)⟩

/-! ## White space only -/

theorem dropWhile_isSpace_of_blank (s : List Char) (hs : ∀ c ∈ s, isSpace c = true) :
    s.dropWhile isSpace = [] := by
  induction s with
  | nil => rfl
  | cons c s ih =>
    have hc : isSpace c = true := hs c (List.mem_cons_self _ _)
    rw [List.dropWhile_cons_of_pos hc]
    exact ih fun d hd => hs d (List.mem_cons_of_mem _ hd)

theorem TrimSpace_of_blank (s : List Char) (hs : ∀ c ∈ s, isSpace c = true) :
    TrimSpace s = [] := by
  unfold TrimSpace
  rw [dropWhile_isSpace_of_blank s hs]
  rfl

theorem Map_nil (sr : spaceRemover) : Map sr [] = (sr, []) := by
  rfl

theorem Map_cons (sr : spaceRemover) (r : Char) (t : List Char) :
    Map sr (r :: t) =
      match (getSpaceRemovalFunc sr r).2 with
      | some c =>
        ((Map (getSpaceRemovalFunc sr r).1 t).1, c :: (Map (getSpaceRemovalFunc sr r).1 t).2)
      | none =>
        ((Map (getSpaceRemovalFunc sr r).1 t).1, (Map (getSpaceRemovalFunc sr r).1 t).2) := by
  rfl

theorem isSpace_space : isSpace ' ' = true := by
  decide

theorem Map_cons_of_space (sr : spaceRemover) (r : Char) (t : List Char)
    (hr : isSpace r = true) :
    Map sr (r :: t) =
      if sr.wasLastWhitespace = true then
        Map { i := sr.i + 1
              wasFirstWhitespace := sr.wasFirstWhitespace || decide (sr.i = 0)
              wasLastWhitespace := true } t
      else
        ((Map { i := sr.i + 1
                wasFirstWhitespace := sr.wasFirstWhitespace || decide (sr.i = 0)
                wasLastWhitespace := true } t).1,
         ' ' :: (Map { i := sr.i + 1
                       wasFirstWhitespace := sr.wasFirstWhitespace || decide (sr.i = 0)
                       wasLastWhitespace := true } t).2) := by
  rw [Map_cons]
  simp only [getSpaceRemovalFunc, hr, if_true]
  by_cases h0 : sr.i = 0 <;> by_cases hl : sr.wasLastWhitespace = true <;> simp [h0, hl]

theorem Map_cons_of_not_space (sr : spaceRemover) (r : Char) (t : List Char)
    (hr : isSpace r = false) :
    Map sr (r :: t) =
      ((Map { i := sr.i + 1
              wasFirstWhitespace := sr.wasFirstWhitespace
              wasLastWhitespace := false } t).1,
       r :: (Map { i := sr.i + 1
                   wasFirstWhitespace := sr.wasFirstWhitespace
                   wasLastWhitespace := false } t).2) := by
  rw [Map_cons]
  simp [getSpaceRemovalFunc, hr]

theorem Map_out_of_blank (t : List Char) (ht : ∀ c ∈ t, isSpace c = true) :
    ∀ sr : spaceRemover, ∀ c ∈ (Map sr t).2, isSpace c = true := by
  induction t with
  | nil =>
    intro sr c hc
    rw [Map_nil] at hc
    simp at hc
  | cons r t ih =>
    intro sr c hc
    have hr : isSpace r = true := ht r (List.mem_cons_self _ _)
    have ih2 := ih (fun d hd => ht d (List.mem_cons_of_mem _ hd))
    rw [Map_cons_of_space sr r t hr] at hc
    split_ifs at hc
    · exact ih2 _ c hc
    · simp only [List.mem_cons] at hc
      rcases hc with hc | hc
      · rw [hc]; exact isSpace_space
      · exact ih2 _ c hc

theorem Map_wasFirst_keeps (t : List Char) :
    ∀ sr : spaceRemover, sr.wasFirstWhitespace = true →
      (Map sr t).1.wasFirstWhitespace = true := by
  induction t with
  | nil => intro sr h; rw [Map_nil]; exact h
  | cons r t ih =>
    intro sr h
    by_cases hr : isSpace r = true
    · rw [Map_cons_of_space sr r t hr]
      split_ifs <;> exact ih _ (by simp [h])
    · rw [Map_cons_of_not_space sr r t (by simpa using hr)]
      exact ih _ h

theorem Map_wasFirst_of_blank (t : List Char) (ht : ∀ c ∈ t, isSpace c = true)
    (hne : t ≠ []) :
    (Map { i := 0, wasFirstWhitespace := false, wasLastWhitespace := false } t).1.wasFirstWhitespace
      = true := by
  cases t with
  | nil => exact absurd rfl hne
  | cons r t =>
    have hr : isSpace r = true := ht r (List.mem_cons_self _ _)
    rw [Map_cons_of_space _ r t hr]
    simp only [Bool.false_eq_true, if_false]
    exact Map_wasFirst_keeps t _ (by simp)

/-- The state of the buffers while only white space has been seen in a
block: both empty, or both one space with the last-was-white-space flag set. -/
theorem TextToken_blank_step (w : Char → Bool) (h : ContentHandler) (t : List Char)
    (hbody : 0 < h.depthBody) (ht : ∀ c ∈ t, isSpace c = true)
    (hbuf : (h.tokenBuffer = [] ∧ h.textBuffer = []) ∨
      (h.tokenBuffer = [' '] ∧ h.textBuffer = [' '] ∧ h.sbLastWasWhitespace = true)) :
    (TextToken w h t).textBlocks = h.textBlocks ∧
    (TextToken w h t).depthBody = h.depthBody ∧
    (((TextToken w h t).tokenBuffer = [] ∧ (TextToken w h t).textBuffer = []) ∨
      ((TextToken w h t).tokenBuffer = [' '] ∧ (TextToken w h t).textBuffer = [' '] ∧
        (TextToken w h t).sbLastWasWhitespace = true)) := by
  have hne : h.depthBody ≠ 0 := by omega
  have htrim := TrimSpace_of_blank _ (Map_out_of_blank t ht
    { i := 0, wasFirstWhitespace := false, wasLastWhitespace := false })
  by_cases htn : t = []
  · subst htn
    unfold TextToken
    rcases hbuf with ⟨h1, h2⟩ | ⟨h1, h2, h3⟩ <;>
      by_cases hf : h.flush = true <;>
      by_cases hi : h.depthIgnoreable = 0 <;>
      simp [hf, hi, h1, h2, hne, FlushBlock, byteLen, runeLen, *]
  · have hfirst := Map_wasFirst_of_blank t ht htn
    have hlen : byteLen t ≠ 0 := by
      rw [Ne, byteLen_eq_zero]; exact htn
    unfold TextToken
    rcases hbuf with ⟨h1, h2⟩ | ⟨h1, h2, h3⟩
    · by_cases hf : h.flush = true <;>
        by_cases hi : h.depthIgnoreable = 0 <;>
        by_cases hs : h.sbLastWasWhitespace = true <;>
        simp [hf, hi, h1, h2, hs, hne, FlushBlock, byteLen, runeLen, htrim, hfirst, hlen]
    · by_cases hf : h.flush = true <;>
        by_cases hi : h.depthIgnoreable = 0 <;>
        simp [hf, hi, h1, h2, h3, hne, FlushBlock, byteLen, runeLen, htrim, hfirst, hlen]

theorem foldl_TextToken_blank (w : Char → Bool) (ts : List (List Char))
    (hts : ∀ t ∈ ts, ∀ c ∈ t, isSpace c = true) :
    ∀ h : ContentHandler, 0 < h.depthBody →
      ((h.tokenBuffer = [] ∧ h.textBuffer = []) ∨
        (h.tokenBuffer = [' '] ∧ h.textBuffer = [' '] ∧ h.sbLastWasWhitespace = true)) →
      (ts.foldl (TextToken w) h).textBlocks = h.textBlocks ∧
      0 < (ts.foldl (TextToken w) h).depthBody ∧
      (((ts.foldl (TextToken w) h).tokenBuffer = [] ∧
          (ts.foldl (TextToken w) h).textBuffer = []) ∨
        ((ts.foldl (TextToken w) h).tokenBuffer = [' '] ∧
          (ts.foldl (TextToken w) h).textBuffer = [' '] ∧
          (ts.foldl (TextToken w) h).sbLastWasWhitespace = true)) := by
  induction ts with
  | nil => intro h hb hbuf; exact ⟨rfl, hb, hbuf⟩
  | cons t ts ih =>
    intro h hb hbuf
    have hstep := TextToken_blank_step w h t hb
      (hts t (List.mem_cons_self _ _)) hbuf
    have hrest := ih (fun u hu => hts u (List.mem_cons_of_mem _ hu)) (TextToken w h t)
      (by rw [hstep.2.1]; exact hb) hstep.2.2
    simp only [List.foldl_cons]
    exact ⟨hrest.1.trans hstep.1, hrest.2.1, hrest.2.2⟩

/-- C8. Inside body with both buffers empty, any sequence of text tokens made
only of Unicode white space, followed by `FlushBlock`, leaves the list of
emitted blocks unchanged. -/
theorem blank_text_emits_no_block (w : Char → Bool) (h : ContentHandler)
    (ts : List (List Char)) (hbody : 0 < h.depthBody)
    (htok : h.tokenBuffer = []) (htxt : h.textBuffer = [])
    (hts : ∀ t ∈ ts, ∀ c ∈ t, isSpace c = true) :
    (FlushBlock w (ts.foldl (TextToken w) h)).textBlocks = h.textBlocks := by
  obtain ⟨hblocks, hb, hbuf⟩ :=
    foldl_TextToken_blank w ts hts h hbody (Or.inl ⟨htok, htxt⟩)
  rw [← hblocks]
  have hne : (ts.foldl (TextToken w) h).depthBody ≠ 0 := by omega
  rcases hbuf with ⟨h1, _⟩ | ⟨h1, _, h3⟩
  · rw [FlushBlock_of_empty w _ hne h1]
  · unfold FlushBlock
    simp [hne, h1, h3, byteLen, runeLen]

/-- C8 on three blank text tokens (space and line feed, tab, U+00A0). -/
theorem blank_text_emits_no_block_witness :
    (FlushBlock asciiWordChar
      ([[' ', '\n'], ['\t'], [Char.ofNat 0xA0]].foldl (TextToken asciiWordChar)
        bodyHandler)).textBlocks = bodyHandler.textBlocks :=
  blank_text_emits_no_block asciiWordChar bodyHandler [[' ', '\n'], ['\t'], [Char.ofNat 0xA0]]
    (by decide) (by decide) (by decide) (by decide)

/-! ## The token loop keeps the counters consistent -/

theorem flushStep_counters (w : Char → Bool) (v : FlushVars) (tok : List Char)
    (hv : 0 ≤ v.numWordsCurrentLine ∧ v.numWordsCurrentLine ≤ v.numWords ∧
      0 ≤ v.numWrappedLines ∧ (v.numWrappedLines ≠ 0 → 1 ≤ v.numWordsCurrentLine)) :
    0 ≤ (flushStep w v tok).numWordsCurrentLine ∧
    (flushStep w v tok).numWordsCurrentLine ≤ (flushStep w v tok).numWords ∧
    0 ≤ (flushStep w v tok).numWrappedLines ∧
    ((flushStep w v tok).numWrappedLines ≠ 0 →
      1 ≤ (flushStep w v tok).numWordsCurrentLine) := by
  obtain ⟨h1, h2, h3, h4⟩ := hv
  unfold flushStep
  simp only
  split_ifs <;> simp only <;> refine ⟨?_, ?_, ?_, ?_⟩ <;> omega

theorem flushLoop_counters (w : Char → Bool) (tokens : List (List Char)) :
    ∀ v : FlushVars,
      (0 ≤ v.numWordsCurrentLine ∧ v.numWordsCurrentLine ≤ v.numWords ∧
        0 ≤ v.numWrappedLines ∧ (v.numWrappedLines ≠ 0 → 1 ≤ v.numWordsCurrentLine)) →
      0 ≤ (flushLoop w v tokens).numWordsCurrentLine ∧
      (flushLoop w v tokens).numWordsCurrentLine ≤ (flushLoop w v tokens).numWords ∧
      0 ≤ (flushLoop w v tokens).numWrappedLines ∧
      ((flushLoop w v tokens).numWrappedLines ≠ 0 →
        1 ≤ (flushLoop w v tokens).numWordsCurrentLine) := by
  induction tokens with
  | nil => intro v hv; exact hv
  | cons tok tokens ih =>
    intro v hv
    exact ih (flushStep w v tok) (flushStep_counters w v tok hv)

theorem NewTextBlock_counters (text : List Char) (nw nlw nwwl nwl off lvl : Int)
    (h1 : 1 ≤ nwl) (h2 : nwwl ≤ nw) :
    1 ≤ (NewTextBlock text nw nlw nwwl nwl off lvl).NumWrappedLines ∧
    (NewTextBlock text nw nlw nwwl nwl off lvl).NumWordsInWrappedLines ≤
      (NewTextBlock text nw nlw nwwl nwl off lvl).NumWords := by
  simp only [NewTextBlock, initDensities]
  by_cases h3 : nwwl = 0 <;> by_cases h4 : nw = 0 <;> simp [h3, h4] <;> omega

/-- C3, as stated, fails: two blocks that satisfy both inequalities, the
first with `2^63 - 1` wrapped lines, merge into a block with
`NumWrappedLines = -2^63`. -/
theorem MergeNext_wrapped_lines_wrap :
    (1 ≤ (NewTextBlock ['a'] 1 0 1 9223372036854775807 0 0).NumWrappedLines ∧
      (NewTextBlock ['a'] 1 0 1 9223372036854775807 0 0).NumWordsInWrappedLines ≤
        (NewTextBlock ['a'] 1 0 1 9223372036854775807 0 0).NumWords) ∧
    (1 ≤ (NewTextBlock ['b'] 1 0 1 1 1 0).NumWrappedLines ∧
      (NewTextBlock ['b'] 1 0 1 1 1 0).NumWordsInWrappedLines ≤
        (NewTextBlock ['b'] 1 0 1 1 1 0).NumWords) ∧
    ((NewTextBlock ['a'] 1 0 1 9223372036854775807 0 0).MergeNext amd64OutOfRange
      (NewTextBlock ['b'] 1 0 1 1 1 0)).NumWrappedLines = -9223372036854775808 ∧
    ¬ (1 ≤ ((NewTextBlock ['a'] 1 0 1 9223372036854775807 0 0).MergeNext amd64OutOfRange
      (NewTextBlock ['b'] 1 0 1 1 1 0)).NumWrappedLines) := by
  have h : ((NewTextBlock ['a'] 1 0 1 9223372036854775807 0 0).MergeNext amd64OutOfRange
      (NewTextBlock ['b'] 1 0 1 1 1 0)).NumWrappedLines = -9223372036854775808 := by
    rw [(MergeNext_fields amd64OutOfRange _ _).2.2.2.2.1]
    decide
  refine ⟨by decide, by decide, h, ?_⟩
  rw [h]
  decide

/-- C3, amended. Any block that `FlushBlock` appends has `NumWrappedLines ≥ 1`
and `NumWordsInWrappedLines ≤ NumWords`, and `MergeNext` of two blocks that
satisfy both inequalities gives a block that satisfies both when the sums of
the two `NumWrappedLines`, of the two `NumWordsInWrappedLines` and of the two
`NumWords` are in the range of `int`. -/
theorem block_counters_invariant :
    (∀ (w : Char → Bool) (h : ContentHandler) (b : TextBlock),
      (FlushBlock w h).textBlocks = h.textBlocks ++ [b] →
      1 ≤ b.NumWrappedLines ∧ b.NumWordsInWrappedLines ≤ b.NumWords) ∧
    (∀ (big : Int) (a next : TextBlock),
      (1 ≤ a.NumWrappedLines ∧ a.NumWordsInWrappedLines ≤ a.NumWords) →
      (1 ≤ next.NumWrappedLines ∧ next.NumWordsInWrappedLines ≤ next.NumWords) →
      InIntRange (a.NumWrappedLines + next.NumWrappedLines) →
      InIntRange (a.NumWordsInWrappedLines + next.NumWordsInWrappedLines) →
      InIntRange (a.NumWords + next.NumWords) →
      1 ≤ (a.MergeNext big next).NumWrappedLines ∧
      (a.MergeNext big next).NumWordsInWrappedLines ≤ (a.MergeNext big next).NumWords) := by
  refine ⟨?_, ?_⟩
  · intro w h b hb
    rcases FlushBlock_textBlocks w h with hsame | ⟨_, _, _, _, happ⟩
    · rw [hsame] at hb
      simp at hb
    · rw [happ] at hb
      have hbe := List.append_cancel_left hb
      simp only [List.cons.injEq, and_true] at hbe
      subst hbe
      obtain ⟨c1, c2, c3, c4⟩ := flushLoop_counters w (Split h.tokenBuffer)
        (flushInit h.inAnchorText) (by simp [flushInit])
      apply NewTextBlock_counters
      · split_ifs <;> omega
      · split_ifs with hz
        · omega
        · have := c4 hz
          omega
  · intro big a next ha hn r1 r2 r3
    obtain ⟨_, f1, _, f3, f4, _⟩ := MergeNext_fields big a next
    rw [f1, f3, f4, wrapInt_of_range _ r1, wrapInt_of_range _ r2, wrapInt_of_range _ r3]
    omega

/-- C3 (amended) on the block flushed from the buffer `Hi` and on a merge of
two blocks. -/
theorem block_counters_invariant_witness :
    (1 ≤ (NewTextBlock ['H', 'i'] 1 0 1 1 0 (-1)).NumWrappedLines ∧
      (NewTextBlock ['H', 'i'] 1 0 1 1 0 (-1)).NumWordsInWrappedLines ≤
        (NewTextBlock ['H', 'i'] 1 0 1 1 0 (-1)).NumWords) ∧
    (1 ≤ ((NewTextBlock ['a'] 3 1 2 2 0 0).MergeNext amd64OutOfRange
        (NewTextBlock ['b'] 4 0 4 1 1 0)).NumWrappedLines ∧
      ((NewTextBlock ['a'] 3 1 2 2 0 0).MergeNext amd64OutOfRange
        (NewTextBlock ['b'] 4 0 4 1 1 0)).NumWordsInWrappedLines ≤
      ((NewTextBlock ['a'] 3 1 2 2 0 0).MergeNext amd64OutOfRange
        (NewTextBlock ['b'] 4 0 4 1 1 0)).NumWords) :=
  ⟨block_counters_invariant.1 asciiWordChar
      { bodyHandler with tokenBuffer := ['H', 'i'], textBuffer := ['H', 'i'] }
      (NewTextBlock ['H', 'i'] 1 0 1 1 0 (-1)) rfl,
   block_counters_invariant.2 amd64OutOfRange (NewTextBlock ['a'] 3 1 2 2 0 0)
      (NewTextBlock ['b'] 4 0 4 1 1 0) (by decide) (by decide) (by decide) (by decide)
      (by decide)⟩

/-! ## The token loop counts words and linked words -/

theorem ANCHOR_TEXT_START_ne_END : ANCHOR_TEXT_START ≠ ANCHOR_TEXT_END := by
  decide

theorem inOpenAnchor_cons (tok : List Char) (toks : List (List Char)) :
    inOpenAnchor (tok :: toks) =
      ((tok == ANCHOR_TEXT_START && !toks.contains ANCHOR_TEXT_END) || inOpenAnchor toks) := by
  rfl

theorem inOpenAnchor_append_singleton (pre : List (List Char)) (tok : List Char) :
    inOpenAnchor (pre ++ [tok]) =
      if tok = ANCHOR_TEXT_START then true
      else if tok = ANCHOR_TEXT_END then false
      else inOpenAnchor pre := by
  induction pre with
  | nil =>
    by_cases h1 : tok = ANCHOR_TEXT_START
    · simp [inOpenAnchor, h1]
    · by_cases h2 : tok = ANCHOR_TEXT_END
      · simp [inOpenAnchor, h2, Ne.symm ANCHOR_TEXT_START_ne_END]
      · simp [inOpenAnchor, h1, h2]
  | cons p pre ih =>
    rw [List.cons_append, inOpenAnchor_cons, ih, inOpenAnchor_cons]
    by_cases h1 : tok = ANCHOR_TEXT_START
    · simp [h1]
    · by_cases h2 : tok = ANCHOR_TEXT_END
      · simp [h2, Ne.symm ANCHOR_TEXT_START_ne_END]
      · have h3 : ¬ ANCHOR_TEXT_END = tok := fun e => h2 e.symm
        simp [h1, h2, h3]

theorem isAnchorMarker_iff (tok : List Char) :
    isAnchorMarker tok = true ↔ tok = ANCHOR_TEXT_START ∨ tok = ANCHOR_TEXT_END := by
  simp [isAnchorMarker]

theorem flushStep_counts (w : Char → Bool) (v : FlushVars) (tok : List Char) :
    (flushStep w v tok).numWords = v.numWords + (if isWordToken w tok then 1 else 0) ∧
    (flushStep w v tok).numTokens = v.numTokens + (if isAnchorMarker tok then 0 else 1) ∧
    (flushStep w v tok).numLinkedWords =
      v.numLinkedWords + (if (isWordToken w tok && v.inAnchorText) = true then 1 else 0) ∧
    (flushStep w v tok).inAnchorText =
      (if tok = ANCHOR_TEXT_START then true
       else if tok = ANCHOR_TEXT_END then false
       else v.inAnchorText) := by
  by_cases h1 : tok = ANCHOR_TEXT_START
  · have hm : isAnchorMarker tok = true := (isAnchorMarker_iff tok).2 (Or.inl h1)
    have hw : isWordToken w tok = false := by simp [isWordToken, hm]
    rw [hw, hm]
    simp [flushStep, h1]
  · by_cases h2 : tok = ANCHOR_TEXT_END
    · have hm : isAnchorMarker tok = true := (isAnchorMarker_iff tok).2 (Or.inr h2)
      have hw : isWordToken w tok = false := by simp [isWordToken, hm]
      rw [hw, hm]
      subst h2
      simp [flushStep, Ne.symm ANCHOR_TEXT_START_ne_END]
    · have hm : isAnchorMarker tok = false := by
        rw [← Bool.not_eq_true, isAnchorMarker_iff]
        tauto
      by_cases h3 : isWord w tok = true
      · have hw : isWordToken w tok = true := by
          have h3b : tok.any w = true := h3
          simp [isWordToken, hm, h3b]
        rw [hw, hm]
        by_cases h4 : v.inAnchorText = true
        · rw [h4]
          simp only [flushStep, h1, h2, h3, h4, if_true, if_false]
          split_ifs <;> simp_all
        · have h4b : v.inAnchorText = false := by simpa using h4
          rw [h4b]
          simp only [flushStep, h1, h2, h3, h4b, if_true, if_false]
          split_ifs <;> simp_all
      · have hw : isWordToken w tok = false := by
          have h3b : tok.any w = false := by simpa [isWord] using h3
          simp [isWordToken, h3b]
        rw [hw, hm]
        simp [flushStep, h1, h2, h3]

theorem flushLoop_counts (w : Char → Bool) (toks : List (List Char)) :
    ∀ (pre : List (List Char)) (v : FlushVars), v.inAnchorText = inOpenAnchor pre →
      (flushLoop w v toks).numWords =
        v.numWords + ((toks.filter (isWordToken w)).length : Int) ∧
      (flushLoop w v toks).numTokens =
        v.numTokens + ((toks.filter fun tok => !isAnchorMarker tok).length : Int) ∧
      (flushLoop w v toks).numLinkedWords =
        v.numLinkedWords +
          ((((toks.inits.map fun x => pre ++ x).zip toks).filter fun p =>
            isWordToken w p.2 && inOpenAnchor p.1).length : Int) := by
  induction toks with
  | nil => intro pre v _; simp [flushLoop]
  | cons tok toks ih =>
    intro pre v hv
    obtain ⟨s1, s2, s3, s4⟩ := flushStep_counts w v tok
    have hnext : (flushStep w v tok).inAnchorText = inOpenAnchor (pre ++ [tok]) := by
      rw [s4, inOpenAnchor_append_singleton, hv]
    obtain ⟨r1, r2, r3⟩ := ih (pre ++ [tok]) (flushStep w v tok) hnext
    have hfold : flushLoop w v (tok :: toks) = flushLoop w (flushStep w v tok) toks := rfl
    rw [hfold, r1, r2, r3, s1, s2, s3, hv]
    refine ⟨?_, ?_, ?_⟩
    · by_cases hw : isWordToken w tok = true <;> simp [List.filter_cons, hw]; omega
    · by_cases hm : isAnchorMarker tok = true <;> simp [List.filter_cons, hm]; omega
    · simp only [List.inits_cons, List.map_cons, List.map_map, List.append_nil,
        List.zip_cons_cons, List.filter_cons]
      have hmap : ((fun x => pre ++ x) ∘ fun x => tok :: x) = fun x => pre ++ [tok] ++ x := by
        funext x
        simp
      rw [hmap]
      by_cases hc : (isWordToken w tok && inOpenAnchor pre) = true
      · simp only [hc, if_true, List.length_cons]
        push_cast
        omega
      · simp only [hc, if_false]
        simp

theorem NewTextBlock_fields (text : List Char) (nw nlw nwwl nwl off lvl : Int) :
    (NewTextBlock text nw nlw nwwl nwl off lvl).Text = text ∧
    (NewTextBlock text nw nlw nwwl nwl off lvl).NumWords = nw ∧
    (NewTextBlock text nw nlw nwwl nwl off lvl).NumLinkedWords = nlw ∧
    (NewTextBlock text nw nlw nwwl nwl off lvl).NumWordsInWrappedLines =
      (if nwwl = 0 then nw else nwwl) ∧
    (NewTextBlock text nw nlw nwwl nwl off lvl).NumWrappedLines =
      (if nwwl = 0 then 1 else nwl) ∧
    (NewTextBlock text nw nlw nwwl nwl off lvl).OffsetBlocksStart = off ∧
    (NewTextBlock text nw nlw nwwl nwl off lvl).OffsetBlocksEnd = off ∧
    (NewTextBlock text nw nlw nwwl nwl off lvl).TagLevel = lvl := by
  simp only [NewTextBlock, initDensities]
  by_cases h3 : nwwl = 0 <;> by_cases h4 : nw = 0 <;> simp [h3, h4]

theorem flushLoop_spec (w : Char → Bool) (toks : List (List Char)) :
    (flushLoop w (flushInit false) toks).numWords = (specNumWords w toks : Int) ∧
    (flushLoop w (flushInit false) toks).numLinkedWords = (specNumLinkedWords w toks : Int) ∧
    (flushLoop w (flushInit false) toks).numTokens = (specNumTokens toks : Int) := by
  obtain ⟨r1, r2, r3⟩ := flushLoop_counts w toks [] (flushInit false) rfl
  refine ⟨?_, ?_, ?_⟩
  · rw [r1]; simp [flushInit, specNumWords]
  · rw [r3]; simp [flushInit, specNumLinkedWords]
  · rw [r2]; simp [flushInit, specNumTokens]

/-- C2. When `FlushBlock`, called inside body with `inAnchorText` false, appends
a block, the block's `NumWords` is the number of space-separated tokens of the
token buffer that are not anchor markers and hold at least one word character,
its `NumLinkedWords` is the number of those word tokens that stand after an
anchor-start marker with no anchor-end marker in between, and the token count
of the loop is the number of tokens that are not markers. -/
theorem flushed_block_word_counts (w : Char → Bool) (h : ContentHandler) (b : TextBlock)
    (_ : 0 < h.depthBody) (hanchor : h.inAnchorText = false)
    (hb : (FlushBlock w h).textBlocks = h.textBlocks ++ [b]) :
    b.NumWords = (specNumWords w (Split h.tokenBuffer) : Int) ∧
    b.NumLinkedWords = (specNumLinkedWords w (Split h.tokenBuffer) : Int) ∧
    (flushLoop w (flushInit h.inAnchorText) (Split h.tokenBuffer)).numTokens =
      (specNumTokens (Split h.tokenBuffer) : Int) := by
  obtain ⟨s1, s2, s3⟩ := flushLoop_spec w (Split h.tokenBuffer)
  rcases FlushBlock_textBlocks w h with hsame | ⟨_, _, _, _, happ⟩
  · rw [hsame] at hb
    simp at hb
  · rw [happ] at hb
    have hbe := List.append_cancel_left hb
    simp only [List.cons.injEq, and_true] at hbe
    subst hbe
    rw [hanchor]
    refine ⟨?_, ?_, s3⟩
    · rw [(NewTextBlock_fields _ _ _ _ _ _ _).2.1, s1]
    · rw [(NewTextBlock_fields _ _ _ _ _ _ _).2.2.1, s2]

/-- C2 on the block flushed from `Click here now` with `here` as anchor
text. -/
theorem flushed_block_word_counts_witness :
    (NewTextBlock clickHandler.textBuffer 3 1 3 1 0 (-1)).NumWords =
      (specNumWords asciiWordChar (Split clickHandler.tokenBuffer) : Int) ∧
    (NewTextBlock clickHandler.textBuffer 3 1 3 1 0 (-1)).NumLinkedWords =
      (specNumLinkedWords asciiWordChar (Split clickHandler.tokenBuffer) : Int) ∧
    (flushLoop asciiWordChar (flushInit clickHandler.inAnchorText)
      (Split clickHandler.tokenBuffer)).numTokens =
      (specNumTokens (Split clickHandler.tokenBuffer) : Int) :=
  flushed_block_word_counts asciiWordChar clickHandler
    (NewTextBlock clickHandler.textBuffer 3 1 3 1 0 (-1)) (by decide) (by decide) rfl

/-- The example of C2: the tokens `Click`, anchor-start, `here`, anchor-end,
`now` give 3 words, 1 linked word and 3 tokens. -/
theorem click_here_now_counts :
    Split clickHandler.tokenBuffer =
      [['C', 'l', 'i', 'c', 'k'], ANCHOR_TEXT_START, ['h', 'e', 'r', 'e'], ANCHOR_TEXT_END,
        ['n', 'o', 'w']] ∧
    specNumWords asciiWordChar (Split clickHandler.tokenBuffer) = 3 ∧
    specNumLinkedWords asciiWordChar (Split clickHandler.tokenBuffer) = 1 ∧
    specNumTokens (Split clickHandler.tokenBuffer) = 3 ∧
    (FlushBlock asciiWordChar clickHandler).textBlocks.map
      (fun b => (b.NumWords, b.NumLinkedWords)) = [(3, 1)] := by
  decide

/-! ## A line of words -/

theorem ne_space_of_not_isSpace (c : Char) (hc : isSpace c = false) : c ≠ ' ' := by
  intro h
  rw [h, isSpace_space] at hc
  exact Bool.noConfusion hc

theorem Map_of_no_space (tok : List Char) (htok : ∀ c ∈ tok, isSpace c = false) :
    ∀ (sr : spaceRemover) (rest : List Char),
      Map sr (tok ++ rest) =
        ((Map { i := sr.i + tok.length
                wasFirstWhitespace := sr.wasFirstWhitespace
                wasLastWhitespace := if tok = [] then sr.wasLastWhitespace else false } rest).1,
         tok ++ (Map { i := sr.i + tok.length
                       wasFirstWhitespace := sr.wasFirstWhitespace
                       wasLastWhitespace :=
                         if tok = [] then sr.wasLastWhitespace else false } rest).2) := by
  induction tok with
  | nil => intro sr rest; simp
  | cons c tok ih =>
    intro sr rest
    have hc : isSpace c = false := htok c (List.mem_cons_self _ _)
    have ih2 := ih (fun d hd => htok d (List.mem_cons_of_mem _ hd))
    rw [List.cons_append, Map_cons_of_not_space sr c _ hc, ih2]
    have hi : sr.i + 1 + (tok.length : Int) = sr.i + ((c :: tok).length : Int) := by
      simp only [List.length_cons]
      push_cast
      omega
    simp only [hi]
    by_cases ht : tok = [] <;> simp [ht]

theorem Map_joinSpace (toks : List (List Char)) (hne : toks ≠ [])
    (htoks : ∀ tok ∈ toks, tok ≠ [] ∧ ∀ c ∈ tok, isSpace c = false) :
    ∀ sr : spaceRemover, 0 ≤ sr.i →
      Map sr (joinSpace toks) =
        ({ i := sr.i + (joinSpace toks).length
           wasFirstWhitespace := sr.wasFirstWhitespace
           wasLastWhitespace := false }, joinSpace toks) := by
  induction toks with
  | nil => exact absurd rfl hne
  | cons tok toks ih =>
    intro sr hi
    obtain ⟨htne, htsp⟩ := htoks tok (List.mem_cons_self _ _)
    cases toks with
    | nil =>
      have h := Map_of_no_space tok htsp sr []
      rw [List.append_nil] at h
      simp only [joinSpace]
      rw [h, Map_nil]
      simp [htne]
    | cons tok2 toks =>
      have ih2 := ih (by simp) (fun u hu => htoks u (List.mem_cons_of_mem _ hu))
      simp only [joinSpace]
      rw [Map_of_no_space tok htsp sr, Map_cons_of_space _ ' ' _ isSpace_space]
      have hlen : 0 < (tok.length : Int) := by
        have : 0 < tok.length := List.length_pos.2 htne
        omega
      have hi0 : ¬ (sr.i + (tok.length : Int) = 0) := by omega
      simp only [htne, if_false, Bool.false_eq_true, hi0, decide_False, Bool.or_false]
      rw [ih2 _ (by simp only; omega)]
      simp only [List.length_append, List.length_cons]
      push_cast
      simp only [Prod.mk.injEq, spaceRemover.mk.injEq, and_true, true_and]
      omega

theorem trimRight_append_singleton (p : Char → Bool) (c : Char) (hc : p c = false) :
    ∀ pre : List Char, trimRight p (pre ++ [c]) = pre ++ [c] := by
  intro pre
  induction pre with
  | nil => simp [trimRight, hc]
  | cons r pre ih =>
    rw [List.cons_append, trimRight, ih]
    cases pre <;> rfl

theorem joinSpace_last (toks : List (List Char)) (hne : toks ≠ [])
    (htoks : ∀ tok ∈ toks, tok ≠ [] ∧ ∀ c ∈ tok, isSpace c = false) :
    ∃ pre c, joinSpace toks = pre ++ [c] ∧ isSpace c = false := by
  induction toks with
  | nil => exact absurd rfl hne
  | cons tok toks ih =>
    obtain ⟨htne, htsp⟩ := htoks tok (List.mem_cons_self _ _)
    cases toks with
    | nil =>
      refine ⟨tok.dropLast, tok.getLast htne, ?_, htsp _ (List.getLast_mem htne)⟩
      simp only [joinSpace]
      exact (List.dropLast_append_getLast htne).symm
    | cons tok2 toks =>
      obtain ⟨pre, c, hj, hc⟩ :=
        ih (by simp) (fun u hu => htoks u (List.mem_cons_of_mem _ hu))
      refine ⟨tok ++ ' ' :: pre, c, ?_, hc⟩
      simp only [joinSpace]
      rw [hj]
      simp

theorem joinSpace_head (toks : List (List Char)) (hne : toks ≠ [])
    (htoks : ∀ tok ∈ toks, tok ≠ [] ∧ ∀ c ∈ tok, isSpace c = false) :
    ∃ c rest, joinSpace toks = c :: rest ∧ isSpace c = false := by
  cases toks with
  | nil => exact absurd rfl hne
  | cons tok toks =>
    obtain ⟨htne, htsp⟩ := htoks tok (List.mem_cons_self _ _)
    cases tok with
    | nil => exact absurd rfl htne
    | cons c tok =>
      have hc : isSpace c = false := htsp c (List.mem_cons_self _ _)
      cases toks with
      | nil => exact ⟨c, tok, rfl, hc⟩
      | cons tok2 toks => exact ⟨c, _, rfl, hc⟩

theorem TrimSpace_joinSpace (toks : List (List Char)) (hne : toks ≠ [])
    (htoks : ∀ tok ∈ toks, tok ≠ [] ∧ ∀ c ∈ tok, isSpace c = false) :
    TrimSpace (joinSpace toks) = joinSpace toks := by
  obtain ⟨c, rest, hj, hc⟩ := joinSpace_head toks hne htoks
  obtain ⟨pre, d, hj2, hd⟩ := joinSpace_last toks hne htoks
  unfold TrimSpace
  have hdrop : (joinSpace toks).dropWhile isSpace = joinSpace toks := by
    rw [hj]
    exact List.dropWhile_cons_of_neg (by simp [hc])
  rw [hdrop, hj2]
  exact trimRight_append_singleton isSpace d hd pre

theorem Split_of_no_blank (tok : List Char) (htok : ∀ c ∈ tok, c ≠ ' ') :
    Split tok = [tok] ∧ ∀ rest, Split (tok ++ ' ' :: rest) = tok :: Split rest := by
  induction tok with
  | nil => exact ⟨rfl, fun rest => by simp [Split]⟩
  | cons c tok ih =>
    have hc : c ≠ ' ' := htok c (List.mem_cons_self _ _)
    obtain ⟨ih1, ih2⟩ := ih (fun d hd => htok d (List.mem_cons_of_mem _ hd))
    refine ⟨?_, fun rest => ?_⟩
    · rw [Split, if_neg hc, ih1]
    · rw [List.cons_append, Split, if_neg hc, ih2]

theorem Split_joinSpace (toks : List (List Char)) (hne : toks ≠ [])
    (htoks : ∀ tok ∈ toks, ∀ c ∈ tok, c ≠ ' ') :
    Split (joinSpace toks) = toks := by
  induction toks with
  | nil => exact absurd rfl hne
  | cons tok toks ih =>
    obtain ⟨h1, h2⟩ := Split_of_no_blank tok (htoks tok (List.mem_cons_self _ _))
    cases toks with
    | nil => simpa [joinSpace] using h1
    | cons tok2 toks =>
      simp only [joinSpace]
      rw [h2, ih (by simp) (fun u hu => htoks u (List.mem_cons_of_mem _ hu))]

theorem byteLen_joinSpace_cons (tok : List Char) (toks : List (List Char))
    (hne : toks ≠ []) :
    byteLen (joinSpace (tok :: toks)) = byteLen tok + 1 + byteLen (joinSpace toks) := by
  cases toks with
  | nil => exact absurd rfl hne
  | cons tok2 toks =>
    simp only [joinSpace]
    rw [byteLen_append]
    have h1 : runeLen ' ' = 1 := by decide
    simp only [byteLen, h1]
    omega

/-- The token loop on word tokens that fit on the open line: every token is
counted as a token and as a word of the line, and no line is wrapped. -/
theorem flushLoop_words_fit (w : Char → Bool) (toks : List (List Char))
    (htoks : ∀ tok ∈ toks,
      isWord w tok = true ∧ tok ≠ ANCHOR_TEXT_START ∧ tok ≠ ANCHOR_TEXT_END) :
    ∀ v : FlushVars, v.inAnchorText = false →
      v.currentLineLength + (((toks.map fun tok => byteLen tok + 1).sum : Nat) : Int)
        ≤ maxLineLength →
      flushLoop w v toks =
        { v with
          numTokens := v.numTokens + toks.length
          numWords := v.numWords + toks.length
          numWordsCurrentLine := v.numWordsCurrentLine + toks.length
          currentLineLength :=
            v.currentLineLength + (((toks.map fun tok => byteLen tok + 1).sum : Nat) : Int) } := by
  induction toks with
  | nil => intro v _ _; simp [flushLoop]
  | cons tok toks ih =>
    intro v hv hfit
    obtain ⟨hw, hs, he⟩ := htoks tok (List.mem_cons_self _ _)
    have ih2 := ih (fun u hu => htoks u (List.mem_cons_of_mem _ hu))
    simp only [List.map_cons, List.sum_cons, List.length_cons] at hfit ih2 ⊢
    generalize (toks.map fun tok => byteLen tok + 1).sum = rest at hfit ih2 ⊢
    have hno : ¬ (v.currentLineLength + ((byteLen tok : Int) + 1) > maxLineLength) := by
      push_cast at hfit
      omega
    have hstep : flushStep w v tok =
        { v with
          numTokens := v.numTokens + 1
          numWords := v.numWords + 1
          numWordsCurrentLine := v.numWordsCurrentLine + 1
          currentLineLength := v.currentLineLength + ((byteLen tok : Int) + 1) } := by
      simp only [flushStep, hs, he, hw, hv, if_false, if_true, Bool.false_eq_true, hno]
    have hfold : flushLoop w v (tok :: toks) = flushLoop w (flushStep w v tok) toks := rfl
    rw [hfold, hstep]
    rw [ih2 { v with
          numTokens := v.numTokens + 1
          numWords := v.numWords + 1
          numWordsCurrentLine := v.numWordsCurrentLine + 1
          currentLineLength := v.currentLineLength + ((byteLen tok : Int) + 1) } hv
      (by push_cast at hfit; simp only; omega)]
    push_cast
    simp only [FlushVars.mk.injEq, true_and]
    refine ⟨?_, ?_, ?_, ?_⟩ <;> omega

theorem sum_byteLen_joinSpace (toks : List (List Char)) (hne : toks ≠ []) :
    (toks.map fun tok => byteLen tok + 1).sum = byteLen (joinSpace toks) + 1 := by
  induction toks with
  | nil => exact absurd rfl hne
  | cons tok toks ih =>
    cases toks with
    | nil => simp [joinSpace]
    | cons tok2 toks =>
      rw [byteLen_joinSpace_cons tok _ (by simp), List.map_cons, List.sum_cons, ih (by simp)]
      omega

/-- The state after `TextToken` on a text of tokens joined by single spaces,
from empty buffers inside body: both buffers hold the text. -/
theorem TextToken_joinSpace (w : Char → Bool) (h : ContentHandler) (toks : List (List Char))
    (hne : toks ≠ [])
    (htoks : ∀ tok ∈ toks, tok ≠ [] ∧ ∀ c ∈ tok, isSpace c = false)
    (hbody : 0 < h.depthBody) (hign : h.depthIgnoreable = 0)
    (htok : h.tokenBuffer = []) (htxt : h.textBuffer = []) :
    TextToken w h (joinSpace toks) =
      { h with
        textElementIndex := h.textElementIndex + 1
        flush := false
        depthBlockTag := if h.depthBlockTag = -1 then h.depthTag else h.depthBlockTag
        textBuffer := joinSpace toks
        tokenBuffer := joinSpace toks
        sbLastWasWhitespace := false } := by
  have hne0 : h.depthBody ≠ 0 := by omega
  obtain ⟨c, rest, hj, _⟩ := joinSpace_head toks hne htoks
  have hjne : joinSpace toks ≠ [] := by rw [hj]; simp
  have hlen : byteLen (joinSpace toks) ≠ 0 := by
    rw [Ne, byteLen_eq_zero]; exact hjne
  have hmap := Map_joinSpace toks hne htoks
    { i := 0, wasFirstWhitespace := false, wasLastWhitespace := false } (le_refl _)
  have hflush := FlushBlock_of_empty w
    { h with textElementIndex := h.textElementIndex + 1 } hne0 htok
  unfold TextToken
  simp only [hflush]
  simp only [hmap, TrimSpace_joinSpace toks hne htoks, hlen]
  by_cases hf : h.flush = true <;> by_cases hd : h.depthBlockTag = -1 <;>
    simp [hf, hd, hign, htok, htxt]

/-- When `FlushBlock` reaches `NewTextBlock`: inside body, with a token buffer
that is not empty and not a lone white-space byte, at least one token that is
not a marker, and a render buffer that is not blank. -/
theorem FlushBlock_emits (w : Char → Bool) (h : ContentHandler)
    (hbody : h.depthBody ≠ 0) (htok : h.tokenBuffer ≠ [])
    (hone : ¬ (byteLen h.tokenBuffer = 1 ∧ h.sbLastWasWhitespace = true))
    (hnum : (flushLoop w (flushInit h.inAnchorText) (Split h.tokenBuffer)).numTokens ≠ 0)
    (htxt : TrimSpace h.textBuffer ≠ []) :
    (FlushBlock w h).textBlocks = h.textBlocks ++
      [NewTextBlock (TrimSpace h.textBuffer)
        (flushLoop w (flushInit h.inAnchorText) (Split h.tokenBuffer)).numWords
        (flushLoop w (flushInit h.inAnchorText) (Split h.tokenBuffer)).numLinkedWords
        (if (flushLoop w (flushInit h.inAnchorText) (Split h.tokenBuffer)).numWrappedLines = 0
          then (flushLoop w (flushInit h.inAnchorText) (Split h.tokenBuffer)).numWords
          else (flushLoop w (flushInit h.inAnchorText) (Split h.tokenBuffer)).numWords -
            (flushLoop w (flushInit h.inAnchorText)
              (Split h.tokenBuffer)).numWordsCurrentLine)
        (if (flushLoop w (flushInit h.inAnchorText) (Split h.tokenBuffer)).numWrappedLines = 0
          then 1
          else (flushLoop w (flushInit h.inAnchorText)
            (Split h.tokenBuffer)).numWrappedLines)
        h.offsetBlocks h.depthBlockTag] := by
  have h0 : byteLen h.tokenBuffer ≠ 0 := by
    rw [Ne, byteLen_eq_zero]; exact htok
  have h1 : byteLen (TrimSpace h.textBuffer) > 0 := (byteLen_pos _).2 htxt
  unfold FlushBlock
  simp only [hbody, h0, hone, hnum, h1, if_false, if_true]

/-- C1. A text of `n ≥ 1` word tokens joined by single spaces, with no anchor
marker and at most 80 bytes long, processed by `TextToken` inside body
(`depthBody > 0`, `depthIgnoreable = 0`, both buffers empty, `inAnchorText`
false) and then flushed, appends exactly one block: its text is that text,
`NumWords = n`, `NumLinkedWords = 0`, `NumWrappedLines = 1`,
`NumWordsInWrappedLines = n` and `LinkDensity = 0`. -/
theorem words_line_one_block (w : Char → Bool) (h : ContentHandler)
    (toks : List (List Char)) (hne : toks ≠ [])
    (htoks : ∀ tok ∈ toks, (∀ c ∈ tok, isSpace c = false) ∧ isWord w tok = true ∧
      tok ≠ ANCHOR_TEXT_START ∧ tok ≠ ANCHOR_TEXT_END)
    (hlen : byteLen (joinSpace toks) ≤ 80)
    (hbody : 0 < h.depthBody) (hign : h.depthIgnoreable = 0)
    (htok : h.tokenBuffer = []) (htxt : h.textBuffer = [])
    (hanchor : h.inAnchorText = false) :
    ∃ b : TextBlock,
      (FlushBlock w (TextToken w h (joinSpace toks))).textBlocks = h.textBlocks ++ [b] ∧
      b.Text = joinSpace toks ∧
      b.NumWords = toks.length ∧
      b.NumLinkedWords = 0 ∧
      b.NumWrappedLines = 1 ∧
      b.NumWordsInWrappedLines = toks.length ∧
      b.LinkDensity = Float64.finite 0 := by
  have hshape : ∀ tok ∈ toks, tok ≠ [] ∧ ∀ c ∈ tok, isSpace c = false := by
    intro tok ht
    obtain ⟨h1, h2, _, _⟩ := htoks tok ht
    refine ⟨?_, h1⟩
    intro he
    rw [he] at h2
    simp [isWord] at h2
  have hnoblank : ∀ tok ∈ toks, ∀ c ∈ tok, c ≠ ' ' := fun tok ht c hc =>
    ne_space_of_not_isSpace c ((htoks tok ht).1 c hc)
  have hwords : ∀ tok ∈ toks,
      isWord w tok = true ∧ tok ≠ ANCHOR_TEXT_START ∧ tok ≠ ANCHOR_TEXT_END :=
    fun tok ht => (htoks tok ht).2
  have hn : (0 : Int) < toks.length := by
    have : 0 < toks.length := List.length_pos.2 hne
    omega
  have hstate := TextToken_joinSpace w h toks hne hshape hbody hign htok htxt
  have hsplit := Split_joinSpace toks hne hnoblank
  have htrim := TrimSpace_joinSpace toks hne hshape
  obtain ⟨c, rest, hj, _⟩ := joinSpace_head toks hne hshape
  have hjne : joinSpace toks ≠ [] := by rw [hj]; simp
  have hsum := sum_byteLen_joinSpace toks hne
  have hloop : flushLoop w (flushInit false) toks =
      { inAnchorText := false
        numWords := toks.length
        numLinkedWords := 0
        numWrappedLines := 0
        numTokens := toks.length
        numWordsCurrentLine := toks.length
        currentLineLength := byteLen (joinSpace toks) } := by
    rw [flushLoop_words_fit w toks hwords (flushInit false) rfl (by
      rw [hsum]
      simp only [flushInit, maxLineLength]
      push_cast
      omega)]
    rw [hsum]
    simp only [flushInit, FlushVars.mk.injEq, zero_add, true_and]
    push_cast
    omega
  have e1 : (TextToken w h (joinSpace toks)).depthBody = h.depthBody := by rw [hstate]
  have e2 : (TextToken w h (joinSpace toks)).tokenBuffer = joinSpace toks := by rw [hstate]
  have e3 : (TextToken w h (joinSpace toks)).textBuffer = joinSpace toks := by rw [hstate]
  have e4 : (TextToken w h (joinSpace toks)).sbLastWasWhitespace = false := by rw [hstate]
  have e5 : (TextToken w h (joinSpace toks)).inAnchorText = false := by
    rw [hstate]; exact hanchor
  have e6 : (TextToken w h (joinSpace toks)).textBlocks = h.textBlocks := by rw [hstate]
  have hemit := FlushBlock_emits w (TextToken w h (joinSpace toks))
    (by rw [e1]; omega)
    (by rw [e2]; exact hjne)
    (by rw [e4]; simp)
    (by
      rw [e5, e2, hsplit, hloop]
      simp only
      omega)
    (by rw [e3, htrim]; exact hjne)
  rw [e5, e2, e3, e6, hsplit, hloop, htrim] at hemit
  simp only [if_true] at hemit
  refine ⟨_, hemit, ?_⟩
  obtain ⟨f1, f2, f3, f4, f5, _⟩ := NewTextBlock_fields (joinSpace toks) (toks.length : Int) 0
    (toks.length : Int) 1 (TextToken w h (joinSpace toks)).offsetBlocks
    (TextToken w h (joinSpace toks)).depthBlockTag
  have hn0 : (toks.length : Int) ≠ 0 := by omega
  refine ⟨f1, f2, f3, ?_, ?_, ?_⟩
  · rw [f5, if_neg hn0]
  · rw [f4, if_neg hn0]
  · simp only [NewTextBlock, initDensities, hn0, if_false]
    exact float64Div_zero _ hn

/-- C1 on the six words `Hello world this is a test`. -/
theorem words_line_one_block_witness :
    ∃ b : TextBlock,
      (FlushBlock asciiWordChar
        (TextToken asciiWordChar bodyHandler (joinSpace helloWords))).textBlocks =
          bodyHandler.textBlocks ++ [b] ∧
      b.Text = joinSpace helloWords ∧
      b.NumWords = helloWords.length ∧
      b.NumLinkedWords = 0 ∧
      b.NumWrappedLines = 1 ∧
      b.NumWordsInWrappedLines = helloWords.length ∧
      b.LinkDensity = Float64.finite 0 :=
  words_line_one_block asciiWordChar bodyHandler helloWords (by decide) (by decide)
    (by decide) (by decide) (by decide) (by decide) (by decide) (by decide)

/-- The example of C1: `Hello world this is a test` gives one block with that
text and 6 words, none linked, on 1 wrapped line. -/
theorem hello_world_block :
    String.mk (joinSpace helloWords) = "Hello world this is a test" ∧
    (FlushBlock asciiWordChar
      (TextToken asciiWordChar bodyHandler (joinSpace helloWords))).textBlocks.map
        (fun b => (String.mk b.Text, b.NumWords, b.NumLinkedWords, b.NumWrappedLines,
          b.NumWordsInWrappedLines)) =
      [("Hello world this is a test", 6, 0, 1, 6)] := by
  decide

/-! ## What `TextToken` writes -/

theorem Map_out (t : List Char) :
    ∀ sr : spaceRemover,
      (Map sr t).2 = collapseFrom sr.wasLastWhitespace t ∧
      (Map sr t).1.wasLastWhitespace = endsInSpace sr.wasLastWhitespace t := by
  induction t with
  | nil => intro sr; exact ⟨rfl, rfl⟩
  | cons r t ih =>
    intro sr
    by_cases hr : isSpace r = true
    · rw [Map_cons_of_space sr r t hr]
      by_cases hl : sr.wasLastWhitespace = true
      · simp only [hl, if_true, collapseFrom, endsInSpace, hr]
        exact ih _
      · have hl2 : sr.wasLastWhitespace = false := by simpa using hl
        simp only [hl2, collapseFrom, endsInSpace, hr, if_true, Bool.false_eq_true, if_false]
        exact ⟨by rw [(ih _).1], (ih _).2⟩
    · have hr2 : isSpace r = false := by simpa using hr
      rw [Map_cons_of_not_space sr r t hr2]
      simp only [collapseFrom, endsInSpace, hr2, Bool.false_eq_true, if_false]
      exact ⟨by rw [(ih _).1], (ih _).2⟩

theorem Map_wasFirst_of_pos (t : List Char) :
    ∀ sr : spaceRemover, 0 < sr.i →
      (Map sr t).1.wasFirstWhitespace = sr.wasFirstWhitespace := by
  induction t with
  | nil => intro sr _; rfl
  | cons r t ih =>
    intro sr hi
    have h0 : ¬ sr.i = 0 := by omega
    by_cases hr : isSpace r = true
    · rw [Map_cons_of_space sr r t hr]
      split_ifs
      all_goals
        rw [ih _ (by simp only; omega)]
        simp [h0]
    · have hr2 : isSpace r = false := by simpa using hr
      rw [Map_cons_of_not_space sr r t hr2]
      rw [ih _ (by simp only; omega)]

theorem Map_wasFirst (t : List Char) :
    (Map { i := 0, wasFirstWhitespace := false, wasLastWhitespace := false } t).1.wasFirstWhitespace
      = (t.take 1).any isSpace := by
  cases t with
  | nil => rfl
  | cons r t =>
    by_cases hr : isSpace r = true
    · rw [Map_cons_of_space _ r t hr]
      simp only [Bool.false_eq_true, if_false]
      rw [Map_wasFirst_of_pos t _ (by decide)]
      simp [hr]
    · have hr2 : isSpace r = false := by simpa using hr
      rw [Map_cons_of_not_space _ r t hr2]
      rw [Map_wasFirst_of_pos t _ (by decide)]
      simp [hr2]

theorem collapseFrom_lead (q : Bool) (t : List Char) :
    collapseFrom q t =
      (if ((t.take 1).any isSpace && !q) = true then [' '] else []) ++ collapseFrom true t := by
  cases t with
  | nil => simp [collapseFrom]
  | cons r t =>
    by_cases hr : isSpace r = true <;> cases q <;> simp [collapseFrom, hr]

theorem collapseFrom_true_head (t : List Char) :
    ∀ (c : Char) (rest : List Char), collapseFrom true t = c :: rest → isSpace c = false := by
  induction t with
  | nil => intro c rest h; simp [collapseFrom] at h
  | cons r t ih =>
    intro c rest h
    by_cases hr : isSpace r = true
    · simp only [collapseFrom, hr, if_true] at h
      exact ih c rest h
    · have hr2 : isSpace r = false := by simpa using hr
      simp only [collapseFrom, hr2, Bool.false_eq_true, if_false, List.cons.injEq] at h
      rw [← h.1]
      exact hr2

theorem collapseFrom_space_mem (t : List Char) :
    ∀ (q : Bool) (c : Char), c ∈ collapseFrom q t → isSpace c = true → c = ' ' := by
  induction t with
  | nil => intro q c h; simp [collapseFrom] at h
  | cons r t ih =>
    intro q c h hc
    by_cases hr : isSpace r = true
    · simp only [collapseFrom, hr, if_true] at h
      split_ifs at h
      · exact ih _ c h hc
      · rcases List.mem_cons.1 h with h1 | h1
        · exact h1
        · exact ih _ c h1 hc
    · have hr2 : isSpace r = false := by simpa using hr
      simp only [collapseFrom, hr2, Bool.false_eq_true, if_false] at h
      rcases List.mem_cons.1 h with h1 | h1
      · rw [h1, hr2] at hc
        exact Bool.noConfusion hc
      · exact ih _ c h1 hc

theorem collapseFrom_mem (t : List Char) :
    ∀ (q : Bool) (c : Char), c ∈ collapseFrom q t → c = ' ' ∨ (c ∈ t ∧ isSpace c = false) := by
  induction t with
  | nil => intro q c h; simp [collapseFrom] at h
  | cons r t ih =>
    intro q c h
    have hrest : ∀ q2, c ∈ collapseFrom q2 t → c = ' ' ∨ (c ∈ r :: t ∧ isSpace c = false) := by
      intro q2 h2
      rcases ih q2 c h2 with h3 | ⟨h3, h4⟩
      · exact Or.inl h3
      · exact Or.inr ⟨List.mem_cons_of_mem _ h3, h4⟩
    by_cases hr : isSpace r = true
    · simp only [collapseFrom, hr, if_true] at h
      split_ifs at h
      · exact hrest _ h
      · rcases List.mem_cons.1 h with h1 | h1
        · exact Or.inl h1
        · exact hrest _ h1
    · have hr2 : isSpace r = false := by simpa using hr
      simp only [collapseFrom, hr2, Bool.false_eq_true, if_false] at h
      rcases List.mem_cons.1 h with h1 | h1
      · exact Or.inr ⟨by rw [h1]; exact List.mem_cons_self _ _, by rw [h1]; exact hr2⟩
      · exact hrest _ h1

theorem mem_collapseFrom (t : List Char) :
    ∀ (q : Bool) (c : Char), c ∈ t → isSpace c = false → c ∈ collapseFrom q t := by
  induction t with
  | nil => intro q c h; simp at h
  | cons r t ih =>
    intro q c h hc
    by_cases hr : isSpace r = true
    · have hne : c ≠ r := by
        intro e
        rw [e, hr] at hc
        exact Bool.noConfusion hc
      have hmem : c ∈ t := by
        rcases List.mem_cons.1 h with h1 | h1
        · exact absurd h1 hne
        · exact h1
      simp only [collapseFrom, hr, if_true]
      split_ifs
      · exact ih _ c hmem hc
      · exact List.mem_cons_of_mem _ (ih _ c hmem hc)
    · have hr2 : isSpace r = false := by simpa using hr
      simp only [collapseFrom, hr2, Bool.false_eq_true, if_false]
      rcases List.mem_cons.1 h with h1 | h1
      · rw [h1]; exact List.mem_cons_self _ _
      · exact List.mem_cons_of_mem _ (ih _ c h1 hc)

theorem collapseFrom_chain (t : List Char) :
    ∀ q : Bool,
      List.Chain' (fun a b => ¬ (isSpace a = true ∧ isSpace b = true)) (collapseFrom q t) := by
  induction t with
  | nil => intro q; simp [collapseFrom]
  | cons r t ih =>
    intro q
    by_cases hr : isSpace r = true
    · simp only [collapseFrom, hr, if_true]
      split_ifs
      · exact ih _
      · refine List.Chain'.cons' (ih _) ?_
        intro y hy
        cases hk : collapseFrom true t with
        | nil => rw [hk] at hy; simp at hy
        | cons c rest =>
          rw [hk] at hy
          simp only [List.head?_cons, Option.mem_def, Option.some.injEq] at hy
          rw [← hy]
          have := collapseFrom_true_head t c rest hk
          simp [this]
    · have hr2 : isSpace r = false := by simpa using hr
      simp only [collapseFrom, hr2, Bool.false_eq_true, if_false]
      refine List.Chain'.cons' (ih _) ?_
      intro y _
      simp [hr2]

theorem endsInSpace_irrel (a b : Bool) (t : List Char) (ht : t ≠ []) :
    endsInSpace a t = endsInSpace b t := by
  cases t with
  | nil => exact absurd rfl ht
  | cons r t => rfl

theorem endsInSpace_append (a : Bool) (s t : List Char) :
    endsInSpace a (s ++ t) = endsInSpace (endsInSpace a s) t := by
  induction s generalizing a with
  | nil => rfl
  | cons r s ih =>
    rw [List.cons_append]
    exact ih (isSpace r)

theorem endsInSpace_collapseFrom (t : List Char) :
    ∀ q a : Bool, (q = true → a = true) →
      endsInSpace a (collapseFrom q t) = endsInSpace a t := by
  induction t with
  | nil => intro q a _; rfl
  | cons r t ih =>
    intro q a hqa
    by_cases hr : isSpace r = true
    · by_cases hq : q = true
      · have ha : a = true := hqa hq
        subst hq
        subst ha
        simp only [collapseFrom, hr, if_true, endsInSpace]
        exact ih true true (fun _ => rfl)
      · have hq2 : q = false := by simpa using hq
        subst hq2
        simp only [collapseFrom, hr, if_true, Bool.false_eq_true, if_false, endsInSpace,
          isSpace_space]
        exact ih true true (fun _ => rfl)
    · have hr2 : isSpace r = false := by simpa using hr
      simp only [collapseFrom, hr2, Bool.false_eq_true, if_false, endsInSpace]
      exact ih false false (fun h => Bool.noConfusion h)

/-- A text with no two white-space runes next to each other, all of them
spaces, is its right trim followed by at most one space. -/
theorem trimRight_of_chain (s : List Char)
    (hchain : List.Chain' (fun a b => ¬ (isSpace a = true ∧ isSpace b = true)) s)
    (hsp : ∀ c ∈ s, isSpace c = true → c = ' ') :
    s = trimRight isSpace s ++ (if endsInSpace false s = true then [' '] else []) := by
  induction s with
  | nil => simp [trimRight, endsInSpace]
  | cons r s ih =>
    have ih2 := ih hchain.tail (fun c hc => hsp c (List.mem_cons_of_mem _ hc))
    cases htr : trimRight isSpace s with
    | cons r2 s2 =>
      have hne : s ≠ [] := by
        intro e
        rw [e] at htr
        simp [trimRight] at htr
      have he : endsInSpace false (r :: s) = endsInSpace false s := endsInSpace_irrel _ _ s hne
      rw [he]
      rw [htr] at ih2
      simp only [trimRight, htr]
      exact congrArg (List.cons r) ih2
    | nil =>
      rw [htr, List.nil_append] at ih2
      by_cases hs : endsInSpace false s = true
      · rw [if_pos hs] at ih2
        have hnr : isSpace r = false := by
          rw [ih2] at hchain
          have h1 := List.Chain'.rel_head hchain
          rw [isSpace_space] at h1
          cases hh : isSpace r
          · rfl
          · exact absurd ⟨hh, rfl⟩ h1
        simp only [trimRight, htr, hnr, Bool.false_eq_true, if_false]
        rw [ih2]
        simp [endsInSpace, isSpace_space]
      · rw [if_neg hs] at ih2
        subst ih2
        by_cases hr : isSpace r = true
        · have hr1 : r = ' ' := hsp r (List.mem_cons_self _ _) hr
          subst hr1
          simp [trimRight, endsInSpace, isSpace_space]
        · have hr2 : isSpace r = false := by simpa using hr
          simp [trimRight, endsInSpace, hr2]

theorem dropWhile_collapseFrom_true (t : List Char) :
    (collapseFrom true t).dropWhile isSpace = collapseFrom true t := by
  cases hk : collapseFrom true t with
  | nil => rfl
  | cons c rest =>
    have hc := collapseFrom_true_head t c rest hk
    exact List.dropWhile_cons_of_neg (by simp [hc])

theorem collapsedTrimmed_eq (t : List Char) :
    collapsedTrimmed t = trimRight isSpace (collapseFrom true t) := by
  unfold collapsedTrimmed TrimSpace
  rw [collapseFrom_lead false t]
  by_cases hl : ((t.take 1).any isSpace && !false) = true
  · rw [if_pos hl]
    have : ([' '] ++ collapseFrom true t).dropWhile isSpace =
        (collapseFrom true t).dropWhile isSpace := by
      simp [List.dropWhile_cons, isSpace_space]
    rw [this, dropWhile_collapseFrom_true]
  · rw [if_neg hl, List.nil_append, dropWhile_collapseFrom_true]

/-- What `TextToken` appends to the buffers: an opening space when the text
starts with white space and the rune before it was none, the collapsed trimmed
text, and a closing space when the text ends with white space. -/
theorem collapseFrom_parts (p : Bool) (t : List Char) :
    collapseFrom p t =
      (if ((t.take 1).any isSpace && !p) = true then [' '] else []) ++
        (collapsedTrimmed t ++
          (if endsInSpace false t = true ∧ collapsedTrimmed t ≠ [] then [' '] else [])) := by
  have hdec := trimRight_of_chain (collapseFrom true t) (collapseFrom_chain t true)
    (fun c hc => collapseFrom_space_mem t true c hc)
  rw [← collapsedTrimmed_eq] at hdec
  rw [collapseFrom_lead p t]
  congr 1
  by_cases hch : collapsedTrimmed t = []
  · rw [hch, List.nil_append] at hdec
    have hk : collapseFrom true t = [] := by
      by_cases hs : endsInSpace false (collapseFrom true t) = true
      · rw [if_pos hs] at hdec
        have := collapseFrom_true_head t ' ' [] hdec
        rw [isSpace_space] at this
        exact Bool.noConfusion this
      · rw [if_neg hs] at hdec
        exact hdec
    rw [hk, hch]
    simp
  · have hk : collapseFrom true t ≠ [] := by
      intro e
      rw [collapsedTrimmed_eq, e] at hch
      exact hch rfl
    have ht : t ≠ [] := by
      intro e
      rw [e] at hk
      exact hk rfl
    have he : endsInSpace false (collapseFrom true t) = endsInSpace false t := by
      rw [endsInSpace_irrel false true _ hk, endsInSpace_collapseFrom t true true (fun _ => rfl),
        endsInSpace_irrel true false t ht]
    rw [he] at hdec
    rw [hdec]
    congr 1
    by_cases hs : endsInSpace false t = true <;> simp [hs, hch]

theorem blank_of_collapsedTrimmed_nil (t : List Char) (hc : collapsedTrimmed t = []) :
    ∀ c ∈ t, isSpace c = true := by
  intro c hmem
  by_cases hr : isSpace c = true
  · exact hr
  · have hr2 : isSpace c = false := by simpa using hr
    exfalso
    have hk : c ∈ collapseFrom true t := mem_collapseFrom t true c hmem hr2
    have hdec := trimRight_of_chain (collapseFrom true t) (collapseFrom_chain t true)
      (fun d hd => collapseFrom_space_mem t true d hd)
    rw [← collapsedTrimmed_eq, hc, List.nil_append] at hdec
    rw [hdec] at hk
    split_ifs at hk
    · simp only [List.mem_singleton] at hk
      rw [hk, isSpace_space] at hr2
      exact Bool.noConfusion hr2
    · simp at hk

theorem collapsedTrimmed_of_blank (t : List Char) (hb : ∀ c ∈ t, isSpace c = true) :
    collapsedTrimmed t = [] := by
  unfold collapsedTrimmed
  apply TrimSpace_of_blank
  intro c hc
  rcases collapseFrom_mem t false c hc with h1 | ⟨h1, h2⟩
  · rw [h1]; exact isSpace_space
  · rw [hb c h1] at h2
    exact Bool.noConfusion h2

theorem collapsedTrimmed_ne_nil_iff (t : List Char) :
    collapsedTrimmed t ≠ [] ↔ ∃ c ∈ t, isSpace c = false := by
  constructor
  · intro hne
    by_contra hcon
    apply hne
    apply collapsedTrimmed_of_blank
    intro c hc
    by_contra hsp
    exact hcon ⟨c, hc, by simpa using hsp⟩
  · rintro ⟨c, hc, hsp⟩ hnil
    rw [blank_of_collapsedTrimmed_nil t hnil c hc] at hsp
    exact Bool.noConfusion hsp

theorem endsInSpace_of_blank (a : Bool) (t : List Char) (hb : ∀ c ∈ t, isSpace c = true)
    (ht : t ≠ []) : endsInSpace a t = true := by
  induction t generalizing a with
  | nil => exact absurd rfl ht
  | cons r t ih =>
    have hr : isSpace r = true := hb r (List.mem_cons_self _ _)
    cases t with
    | nil => simpa [endsInSpace] using hr
    | cons r2 t =>
      exact ih (isSpace r) (fun c hc => hb c (List.mem_cons_of_mem _ hc)) (by simp)

theorem FlushBlock_textElementIndex (w : Char → Bool) (h : ContentHandler) (n : Int) :
    FlushBlock w { h with textElementIndex := n } =
      { FlushBlock w h with textElementIndex := n } := by
  unfold FlushBlock
  simp only
  split_ifs <;> rfl

/-- A pending flush is done first: `TextToken` on a state with the flag set is
`TextToken` on the flushed state with the flag cleared. -/
theorem TextToken_of_flush (w : Char → Bool) (h : ContentHandler) (t : List Char)
    (hf : h.flush = true) :
    TextToken w h t = TextToken w { FlushBlock w h with flush := false } t := by
  have he : (FlushBlock w h).textElementIndex = h.textElementIndex := by
    unfold FlushBlock
    simp only
    split_ifs <;> rfl
  unfold TextToken
  simp only [FlushBlock_textElementIndex]
  simp only [hf, if_true, Bool.false_eq_true, if_false, he]

/-- The effect of `TextToken` with no flush pending and outside ignorable
regions: the collapsed text, continuing the white space before it, goes to both
buffers; the flag tells whether the text ended in white space; and the block
level is stamped when it is unset and the text is not blank. -/
theorem TextToken_writes (w : Char → Bool) (h : ContentHandler) (t : List Char)
    (hf : h.flush = false) (hign : h.depthIgnoreable = 0) :
    TextToken w h t =
      { h with
        textElementIndex := h.textElementIndex + 1
        textBuffer := h.textBuffer ++ collapseFrom h.sbLastWasWhitespace t
        tokenBuffer := h.tokenBuffer ++ collapseFrom h.sbLastWasWhitespace t
        sbLastWasWhitespace := endsInSpace h.sbLastWasWhitespace t
        depthBlockTag :=
          if h.depthBlockTag = -1 ∧ collapsedTrimmed t ≠ [] then h.depthTag
          else h.depthBlockTag } := by
  by_cases ht : t = []
  · subst ht
    unfold TextToken
    simp [hf, hign, byteLen, collapseFrom, endsInSpace, collapsedTrimmed, TrimSpace, trimRight]
  · have hlen : byteLen t ≠ 0 := by
      rw [Ne, byteLen_eq_zero]; exact ht
    have hM := Map_out t { i := 0, wasFirstWhitespace := false, wasLastWhitespace := false }
    have hF := Map_wasFirst t
    have hparts := collapseFrom_parts h.sbLastWasWhitespace t
    have hsb : endsInSpace h.sbLastWasWhitespace t = endsInSpace false t :=
      endsInSpace_irrel _ _ t ht
    have hch : TrimSpace (collapseFrom false t) = collapsedTrimmed t := rfl
    have hfirst_of_blank : collapsedTrimmed t = [] → (t.take 1).any isSpace = true := by
      intro hc
      have hb := blank_of_collapsedTrimmed_nil t hc
      cases t with
      | nil => exact absurd rfl ht
      | cons r t => simp [hb r (List.mem_cons_self _ _)]
    have hlast_of_blank : collapsedTrimmed t = [] → endsInSpace false t = true :=
      fun hc => endsInSpace_of_blank false t (blank_of_collapsedTrimmed_nil t hc) ht
    rw [hparts, hsb]
    unfold TextToken
    simp only [hf, Bool.false_eq_true, if_false, hign, ne_eq, not_true_eq_false, hlen,
      hM.1, hM.2, hF, hch]
    by_cases hc : collapsedTrimmed t = []
    · have hfirst := hfirst_of_blank hc
      have hlast := hlast_of_blank hc
      by_cases hp : h.sbLastWasWhitespace = true
      · simp [hc, hfirst, hlast, hp, byteLen]
      · have hp2 : h.sbLastWasWhitespace = false := by simpa using hp
        simp [hc, hfirst, hlast, hp2, byteLen]
    · have hcl : byteLen (collapsedTrimmed t) ≠ 0 := by
        rw [Ne, byteLen_eq_zero]; exact hc
      by_cases hfirst : (t.take 1).any isSpace = true <;>
        by_cases hp : h.sbLastWasWhitespace = true <;>
        by_cases hl : endsInSpace false t = true <;>
        by_cases hd : h.depthBlockTag = -1 <;>
        simp [hc, hcl, hfirst, hp, hl, hd]

/-! ## Splitting a text token -/

theorem collapseFrom_cons_of_space (p : Bool) (r : Char) (t : List Char)
    (hr : isSpace r = true) :
    collapseFrom p (r :: t) =
      if p = true then collapseFrom true t else ' ' :: collapseFrom true t := by
  simp only [collapseFrom, hr, if_true]

theorem collapseFrom_cons_of_not_space (p : Bool) (r : Char) (t : List Char)
    (hr : isSpace r = false) :
    collapseFrom p (r :: t) = r :: collapseFrom false t := by
  simp only [collapseFrom, hr, Bool.false_eq_true, if_false]

theorem collapseFrom_append (s t : List Char) :
    ∀ p : Bool,
      collapseFrom p (s ++ t) = collapseFrom p s ++ collapseFrom (endsInSpace p s) t := by
  induction s with
  | nil => intro p; rfl
  | cons r s ih =>
    intro p
    have he : endsInSpace p (r :: s) = endsInSpace (isSpace r) s := rfl
    by_cases hr : isSpace r = true
    · rw [List.cons_append, collapseFrom_cons_of_space p r _ hr,
        collapseFrom_cons_of_space p r _ hr, he, hr, ih true]
      split_ifs <;> simp
    · have hr2 : isSpace r = false := by simpa using hr
      rw [List.cons_append, collapseFrom_cons_of_not_space p r _ hr2,
        collapseFrom_cons_of_not_space p r _ hr2, he, hr2, ih false]
      simp

theorem collapsedTrimmed_append_ne_nil (s t : List Char) :
    collapsedTrimmed (s ++ t) ≠ [] ↔ collapsedTrimmed s ≠ [] ∨ collapsedTrimmed t ≠ [] := by
  simp only [collapsedTrimmed_ne_nil_iff, List.mem_append]
  constructor
  · rintro ⟨c, hc | hc, hsp⟩
    · exact Or.inl ⟨c, hc, hsp⟩
    · exact Or.inr ⟨c, hc, hsp⟩
  · rintro (⟨c, hc, hsp⟩ | ⟨c, hc, hsp⟩)
    · exact ⟨c, Or.inl hc, hsp⟩
    · exact ⟨c, Or.inr hc, hsp⟩

/-- C19. With no flush pending and `depthIgnoreable = 0`, `TextToken(t1)`
followed by `TextToken(t2)` leaves the same token buffer, render buffer,
last-was-white-space flag and `depthBlockTag` as the single `TextToken` on
`t1` followed by `t2`, for every two non-empty texts. -/
theorem TextToken_split (w : Char → Bool) (h : ContentHandler) (t1 t2 : List Char)
    (hf : h.flush = false) (hign : h.depthIgnoreable = 0) (_ : t1 ≠ []) (_ : t2 ≠ []) :
    (TextToken w (TextToken w h t1) t2).tokenBuffer = (TextToken w h (t1 ++ t2)).tokenBuffer ∧
    (TextToken w (TextToken w h t1) t2).textBuffer = (TextToken w h (t1 ++ t2)).textBuffer ∧
    (TextToken w (TextToken w h t1) t2).sbLastWasWhitespace =
      (TextToken w h (t1 ++ t2)).sbLastWasWhitespace ∧
    (TextToken w (TextToken w h t1) t2).depthBlockTag =
      (TextToken w h (t1 ++ t2)).depthBlockTag := by
  have e1 := TextToken_writes w h t1 hf hign
  have e2 := TextToken_writes w (TextToken w h t1) t2 (by rw [e1]; exact hf) (by rw [e1]; exact hign)
  have e3 := TextToken_writes w h (t1 ++ t2) hf hign
  rw [e2, e3]
  simp only [e1, collapseFrom_append, endsInSpace_append, List.append_assoc, true_and]
  have hiff := collapsedTrimmed_append_ne_nil t1 t2
  by_cases hd : h.depthBlockTag = -1
  · by_cases h1 : collapsedTrimmed t1 = []
    · by_cases h2 : collapsedTrimmed t2 = []
      · have h3 : collapsedTrimmed (t1 ++ t2) = [] := by
          by_contra hne
          rcases hiff.1 hne with h4 | h4
          · exact h4 h1
          · exact h4 h2
        simp [hd, h1, h2, h3]
      · have h3 : collapsedTrimmed (t1 ++ t2) ≠ [] := hiff.2 (Or.inr h2)
        simp [hd, h1, h2, h3]
    · have h3 : collapsedTrimmed (t1 ++ t2) ≠ [] := hiff.2 (Or.inl h1)
      simp [hd, h1, h3]
  · simp [hd]

/-- C19 on `Hello wor` and `ld this`, split inside a word. -/
theorem TextToken_split_witness :
    (TextToken asciiWordChar (TextToken asciiWordChar bodyHandler
        ['H', 'e', 'l', 'l', 'o', ' ', 'w', 'o', 'r']) ['l', 'd', ' ', 't', 'h', 'i', 's']).tokenBuffer =
      (TextToken asciiWordChar bodyHandler
        (['H', 'e', 'l', 'l', 'o', ' ', 'w', 'o', 'r'] ++
          ['l', 'd', ' ', 't', 'h', 'i', 's'])).tokenBuffer :=
  (TextToken_split asciiWordChar bodyHandler ['H', 'e', 'l', 'l', 'o', ' ', 'w', 'o', 'r']
    ['l', 'd', ' ', 't', 'h', 'i', 's'] (by decide) (by decide) (by decide) (by decide)).1

/-! ## Runs: offsets of the emitted blocks -/

theorem FlushBlock_blocks_offset (w : Char → Bool) (h : ContentHandler) :
    ((FlushBlock w h).textBlocks = h.textBlocks ∧
      (FlushBlock w h).offsetBlocks = h.offsetBlocks) ∨
    (∃ b : TextBlock, (FlushBlock w h).textBlocks = h.textBlocks ++ [b] ∧
      b.OffsetBlocksStart = h.offsetBlocks ∧ b.OffsetBlocksEnd = h.offsetBlocks ∧
      (FlushBlock w h).offsetBlocks = h.offsetBlocks + 1) := by
  unfold FlushBlock
  simp only
  split_ifs
  all_goals first
    | (left; exact ⟨rfl, rfl⟩)
    | (right
       exact ⟨_, rfl, (NewTextBlock_fields _ _ _ _ _ _ _).2.2.2.2.2.1,
         (NewTextBlock_fields _ _ _ _ _ _ _).2.2.2.2.2.2.1, rfl⟩)

theorem TextToken_blocks_of_no_flush (w : Char → Bool) (h : ContentHandler) (t : List Char)
    (hf : h.flush = false) :
    (TextToken w h t).textBlocks = h.textBlocks ∧
    (TextToken w h t).offsetBlocks = h.offsetBlocks := by
  by_cases hign : h.depthIgnoreable = 0
  · rw [TextToken_writes w h t hf hign]
    exact ⟨rfl, rfl⟩
  · rw [TextToken_of_ignorable w h t hign]
    simp [hf]

theorem HandlerOp_blocks_offset (w : Char → Bool) (h : ContentHandler) (op : HandlerOp) :
    ((HandlerOp.apply w h op).textBlocks = h.textBlocks ∧
      (HandlerOp.apply w h op).offsetBlocks = h.offsetBlocks) ∨
    (∃ b : TextBlock, (HandlerOp.apply w h op).textBlocks = h.textBlocks ++ [b] ∧
      b.OffsetBlocksStart = h.offsetBlocks ∧ b.OffsetBlocksEnd = h.offsetBlocks ∧
      (HandlerOp.apply w h op).offsetBlocks = h.offsetBlocks + 1) := by
  cases op with
  | text t =>
    simp only [HandlerOp.apply]
    by_cases hf : h.flush = true
    · rw [TextToken_of_flush w h t hf]
      obtain ⟨e1, e2⟩ := TextToken_blocks_of_no_flush w
        { FlushBlock w h with flush := false } t rfl
      rw [e1, e2]
      exact FlushBlock_blocks_offset w h
    · exact Or.inl (TextToken_blocks_of_no_flush w h t (by simpa using hf))
  | flushBlock => exact FlushBlock_blocks_offset w h
  | setDepthBody n => exact Or.inl ⟨rfl, rfl⟩
  | setDepthTag n => exact Or.inl ⟨rfl, rfl⟩
  | setDepthIgnoreable n => exact Or.inl ⟨rfl, rfl⟩
  | setFlush b => exact Or.inl ⟨rfl, rfl⟩
  | setLastStartTag tag => exact Or.inl ⟨rfl, rfl⟩

theorem runOps_append (w : Char → Bool) (h : ContentHandler) (ops : List HandlerOp)
    (op : HandlerOp) :
    runOps w h (ops ++ [op]) = HandlerOp.apply w (runOps w h ops) op := by
  simp [runOps, List.foldl_append]

theorem runOps_offsets (w : Char → Bool) (ops : List HandlerOp) :
    (runOps w NewContentHandler ops).offsetBlocks =
      ((runOps w NewContentHandler ops).textBlocks.length : Int) ∧
    ∀ (k : Nat) (b : TextBlock), (runOps w NewContentHandler ops).textBlocks[k]? = some b →
      b.OffsetBlocksStart = (k : Int) ∧ b.OffsetBlocksEnd = (k : Int) := by
  induction ops using List.reverseRecOn with
  | nil =>
    refine ⟨rfl, ?_⟩
    intro k b hk
    simp [runOps, NewContentHandler] at hk
  | append_singleton ops op ih =>
    obtain ⟨ih1, ih2⟩ := ih
    rw [runOps_append]
    rcases HandlerOp_blocks_offset w (runOps w NewContentHandler ops) op with
      ⟨e1, e2⟩ | ⟨b0, e1, e3, e4, e2⟩
    · rw [e1, e2]
      exact ⟨ih1, ih2⟩
    · rw [e1, e2]
      refine ⟨?_, ?_⟩
      · rw [ih1]
        simp
      · intro k b hk
        by_cases hlt : k < (runOps w NewContentHandler ops).textBlocks.length
        · rw [List.getElem?_append_left hlt] at hk
          exact ih2 k b hk
        · have hge : (runOps w NewContentHandler ops).textBlocks.length ≤ k := by omega
          rw [List.getElem?_append_right hge] at hk
          cases hd : k - (runOps w NewContentHandler ops).textBlocks.length with
          | zero =>
            rw [hd] at hk
            simp only [List.getElem?_cons_zero, Option.some.injEq] at hk
            subst hk
            have hk2 : (k : Int) = (runOps w NewContentHandler ops).textBlocks.length := by
              omega
            rw [e3, e4, ih1, hk2]
            exact ⟨rfl, rfl⟩
          | succ n =>
            rw [hd] at hk
            simp at hk

/-- C17. In every run of handler operations from a fresh handler, an operation
leaves the emitted blocks as they are or appends one block to them; the block
counter is the number of emitted blocks; the `k`-th emitted block has
`OffsetBlocksStart = OffsetBlocksEnd = k`; so the offsets grow strictly along
the list. -/
theorem emitted_blocks_offsets (w : Char → Bool) (ops : List HandlerOp) :
    (∀ op : HandlerOp,
      (runOps w NewContentHandler (ops ++ [op])).textBlocks =
        (runOps w NewContentHandler ops).textBlocks ∨
      ∃ b : TextBlock, (runOps w NewContentHandler (ops ++ [op])).textBlocks =
        (runOps w NewContentHandler ops).textBlocks ++ [b]) ∧
    (runOps w NewContentHandler ops).offsetBlocks =
      ((runOps w NewContentHandler ops).textBlocks.length : Int) ∧
    (∀ (k : Nat) (b : TextBlock), (runOps w NewContentHandler ops).textBlocks[k]? = some b →
      b.OffsetBlocksStart = (k : Int) ∧ b.OffsetBlocksEnd = (k : Int)) ∧
    (∀ (i j : Nat) (bi bj : TextBlock), i < j →
      (runOps w NewContentHandler ops).textBlocks[i]? = some bi →
      (runOps w NewContentHandler ops).textBlocks[j]? = some bj →
      bi.OffsetBlocksStart < bj.OffsetBlocksStart ∧ bi.OffsetBlocksEnd < bj.OffsetBlocksEnd) := by
  obtain ⟨h1, h2⟩ := runOps_offsets w ops
  refine ⟨?_, h1, h2, ?_⟩
  · intro op
    rw [runOps_append]
    rcases HandlerOp_blocks_offset w (runOps w NewContentHandler ops) op with
      ⟨e1, _⟩ | ⟨b0, e1, _, _, _⟩
    · exact Or.inl e1
    · exact Or.inr ⟨b0, e1⟩
  · intro i j bi bj hij hi hj
    obtain ⟨a1, a2⟩ := h2 i bi hi
    obtain ⟨b1, b2⟩ := h2 j bj hj
    rw [a1, a2, b1, b2]
    omega

/-- C17 on the sample run, whose two blocks have the offsets 0 and 1. -/
theorem emitted_blocks_offsets_witness :
    (runOps asciiWordChar NewContentHandler sampleRun).textBlocks.map
        (fun b => (b.Text, b.OffsetBlocksStart, b.OffsetBlocksEnd)) =
      [(['H', 'i'], 0, 0), (['a', ' ', 'b', ' ', 'c'], 1, 1)] ∧
    (NewTextBlock ['a', ' ', 'b', ' ', 'c'] 3 0 3 1 1 3).OffsetBlocksStart = ((1 : Nat) : Int) ∧
    (NewTextBlock ['a', ' ', 'b', ' ', 'c'] 3 0 3 1 1 3).OffsetBlocksEnd = ((1 : Nat) : Int) :=
  ⟨by decide,
   (emitted_blocks_offsets asciiWordChar sampleRun).2.2.1 1
     (NewTextBlock ['a', ' ', 'b', ' ', 'c'] 3 0 3 1 1 3) rfl⟩

/-! ## Runs: the text of the emitted blocks -/

theorem trimRight_initial (p : Char → Bool) (s : List Char) : trimRight p s <+: s := by
  induction s with
  | nil => exact List.prefix_refl _
  | cons r s ih =>
    cases htr : trimRight p s with
    | nil =>
      simp only [trimRight, htr]
      split_ifs
      · exact List.nil_prefix
      · exact ⟨s, rfl⟩
    | cons r2 s2 =>
      simp only [trimRight, htr]
      rw [htr] at ih
      obtain ⟨rest, hrest⟩ := ih
      exact ⟨rest, by rw [← hrest]; rfl⟩

theorem trimRight_getLast (p : Char → Bool) (s : List Char) :
    ∀ c, (trimRight p s).getLast? = some c → p c = false := by
  induction s with
  | nil => intro c hc; simp [trimRight] at hc
  | cons r s ih =>
    intro c hc
    cases htr : trimRight p s with
    | nil =>
      simp only [trimRight, htr] at hc
      split_ifs at hc with hp
      · simp at hc
      · simp only [List.getLast?_singleton, Option.some.injEq] at hc
        rw [← hc]
        simpa using hp
    | cons r2 s2 =>
      simp only [trimRight, htr] at hc
      rw [List.getLast?_cons_cons] at hc
      rw [htr] at ih
      exact ih c hc

theorem TrimSpace_inside (s : List Char) : TrimSpace s <:+: s :=
  List.IsInfix.trans (trimRight_initial isSpace _).isInfix
    (List.dropWhile_suffix isSpace).isInfix

theorem TrimSpace_head (s : List Char) :
    ∀ c, (TrimSpace s).head? = some c → isSpace c = false := by
  intro c hc
  unfold TrimSpace at hc
  obtain ⟨rest, hrest⟩ := trimRight_initial isSpace (s.dropWhile isSpace)
  cases htr : trimRight isSpace (s.dropWhile isSpace) with
  | nil => rw [htr] at hc; simp at hc
  | cons a l =>
    rw [htr] at hc hrest
    simp only [List.head?_cons, Option.some.injEq] at hc
    subst hc
    have hd : (s.dropWhile isSpace).head? = some a := by
      rw [← hrest]; rfl
    have := List.head?_dropWhile_not isSpace s
    rw [hd] at this
    exact this

theorem TextClean_TrimSpace (s : List Char)
    (hchain : List.Chain' (fun a b => ¬ (isSpace a = true ∧ isSpace b = true)) s)
    (hsp : ∀ c ∈ s, isSpace c = true → c = ' ') (hne : TrimSpace s ≠ []) :
    TextClean (TrimSpace s) := by
  refine ⟨hne, TrimSpace_head s, trimRight_getLast isSpace _, ?_, ?_⟩
  · intro c hc
    exact hsp c ((TrimSpace_inside s).subset hc)
  · intro pre post he
    have hc := List.Chain'.infix hchain (TrimSpace_inside s)
    rw [he] at hc
    have h2 := List.Chain'.rel_head (List.Chain'.right_of_append hc)
    exact h2 ⟨isSpace_space, isSpace_space⟩

theorem endsInSpace_getLast (s : List Char) :
    ∀ (a : Bool) (c : Char), s.getLast? = some c → endsInSpace a s = isSpace c := by
  induction s with
  | nil => intro a c hc; simp at hc
  | cons r s ih =>
    intro a c hc
    cases s with
    | nil =>
      simp only [List.getLast?_singleton, Option.some.injEq] at hc
      rw [← hc]
      rfl
    | cons r2 s =>
      rw [List.getLast?_cons_cons] at hc
      exact ih (isSpace r) c hc

theorem endsInSpace_collapseFrom_imp (t : List Char) :
    ∀ q a : Bool, (a = true → q = true) →
      endsInSpace a (collapseFrom q t) = true → endsInSpace q t = true := by
  induction t with
  | nil => intro q a hqa h; exact hqa h
  | cons r t ih =>
    intro q a hqa h
    have he : endsInSpace q (r :: t) = endsInSpace (isSpace r) t := rfl
    by_cases hr : isSpace r = true
    · rw [collapseFrom_cons_of_space q r t hr] at h
      rw [he, hr]
      split_ifs at h
      · exact ih true a (fun _ => rfl) h
      · have h2 : endsInSpace (isSpace ' ') (collapseFrom true t) = true := h
        rw [isSpace_space] at h2
        exact ih true true (fun _ => rfl) h2
    · have hr2 : isSpace r = false := by simpa using hr
      rw [collapseFrom_cons_of_not_space q r t hr2] at h
      rw [he, hr2]
      have h2 : endsInSpace (isSpace r) (collapseFrom false t) = true := h
      rw [hr2] at h2
      exact ih false false (fun x => x) h2

theorem FlushBlock_textBuffer (w : Char → Bool) (h : ContentHandler) :
    ((FlushBlock w h).textBuffer = h.textBuffer ∨ (FlushBlock w h).textBuffer = []) ∧
    (FlushBlock w h).sbLastWasWhitespace = h.sbLastWasWhitespace := by
  unfold FlushBlock
  simp only
  split_ifs
  all_goals first
    | exact ⟨Or.inl rfl, rfl⟩
    | exact ⟨Or.inr rfl, rfl⟩

theorem BufferClean_of_nil (h : ContentHandler) (hb : h.textBuffer = []) : BufferClean h := by
  unfold BufferClean
  rw [hb]
  refine ⟨List.chain'_nil, ?_, ?_⟩
  · intro c hc; simp at hc
  · intro he; simp [endsInSpace] at he

theorem FlushBlock_BufferClean (w : Char → Bool) (h : ContentHandler) (hc : BufferClean h) :
    BufferClean (FlushBlock w h) := by
  obtain ⟨hbuf, hsb⟩ := FlushBlock_textBuffer w h
  rcases hbuf with hbuf | hbuf
  · unfold BufferClean
    rw [hbuf, hsb]
    exact hc
  · exact BufferClean_of_nil _ hbuf

theorem TextToken_BufferClean_of_no_flush (w : Char → Bool) (h : ContentHandler)
    (t : List Char) (hf : h.flush = false) (hc : BufferClean h) :
    BufferClean (TextToken w h t) := by
  by_cases hign : h.depthIgnoreable = 0
  · obtain ⟨c1, c2, c3⟩ := hc
    rw [TextToken_writes w h t hf hign]
    refine ⟨?_, ?_, ?_⟩
    · simp only
      rw [List.chain'_append]
      refine ⟨c1, collapseFrom_chain t _, ?_⟩
      intro x hx y hy hxy
      have hx2 : h.textBuffer.getLast? = some x := hx
      have hends : endsInSpace false h.textBuffer = true := by
        rw [endsInSpace_getLast _ false x hx2]; exact hxy.1
      have hsb := c3 hends
      rw [hsb] at hy
      cases hk : collapseFrom true t with
      | nil => rw [hk] at hy; simp at hy
      | cons d rest =>
        rw [hk] at hy
        simp only [List.head?_cons, Option.mem_def, Option.some.injEq] at hy
        have := collapseFrom_true_head t d rest hk
        rw [hy, hxy.2] at this
        exact Bool.noConfusion this
    · intro c hmem hsp
      simp only at hmem
      rcases List.mem_append.1 hmem with h1 | h1
      · exact c2 c h1 hsp
      · exact collapseFrom_space_mem t _ c h1 hsp
    · intro he
      simp only at he ⊢
      rw [endsInSpace_append] at he
      exact endsInSpace_collapseFrom_imp t _ _ c3 he
  · rw [TextToken_of_ignorable w h t hign]
    simp only [hf, Bool.false_eq_true, if_false]
    exact hc

theorem TextToken_BufferClean (w : Char → Bool) (h : ContentHandler) (t : List Char)
    (hc : BufferClean h) : BufferClean (TextToken w h t) := by
  by_cases hf : h.flush = true
  · rw [TextToken_of_flush w h t hf]
    exact TextToken_BufferClean_of_no_flush w _ t rfl (FlushBlock_BufferClean w h hc)
  · exact TextToken_BufferClean_of_no_flush w h t (by simpa using hf) hc

theorem FlushBlock_blocks_clean (w : Char → Bool) (h : ContentHandler)
    (hc : BufferClean h) (hb : ∀ b ∈ h.textBlocks, TextClean b.Text) :
    ∀ b ∈ (FlushBlock w h).textBlocks, TextClean b.Text := by
  rcases FlushBlock_textBlocks w h with hsame | ⟨_, _, hne, _, happ⟩
  · rw [hsame]; exact hb
  · rw [happ]
    intro b hmem
    rcases List.mem_append.1 hmem with h1 | h1
    · exact hb b h1
    · simp only [List.mem_singleton] at h1
      rw [h1, (NewTextBlock_fields _ _ _ _ _ _ _).1]
      exact TextClean_TrimSpace _ hc.1 hc.2.1 hne

theorem HandlerOp_clean (w : Char → Bool) (h : ContentHandler) (op : HandlerOp)
    (hc : BufferClean h) (hb : ∀ b ∈ h.textBlocks, TextClean b.Text) :
    BufferClean (HandlerOp.apply w h op) ∧
    ∀ b ∈ (HandlerOp.apply w h op).textBlocks, TextClean b.Text := by
  cases op with
  | text t =>
    refine ⟨TextToken_BufferClean w h t hc, ?_⟩
    simp only [HandlerOp.apply]
    by_cases hf : h.flush = true
    · rw [TextToken_of_flush w h t hf,
        (TextToken_blocks_of_no_flush w { FlushBlock w h with flush := false } t rfl).1]
      exact FlushBlock_blocks_clean w h hc hb
    · rw [(TextToken_blocks_of_no_flush w h t (by simpa using hf)).1]
      exact hb
  | flushBlock => exact ⟨FlushBlock_BufferClean w h hc, FlushBlock_blocks_clean w h hc hb⟩
  | setDepthBody n => exact ⟨hc, hb⟩
  | setDepthTag n => exact ⟨hc, hb⟩
  | setDepthIgnoreable n => exact ⟨hc, hb⟩
  | setFlush b => exact ⟨hc, hb⟩
  | setLastStartTag tag => exact ⟨hc, hb⟩

theorem runOps_clean (w : Char → Bool) (ops : List HandlerOp) :
    BufferClean (runOps w NewContentHandler ops) ∧
    ∀ b ∈ (runOps w NewContentHandler ops).textBlocks, TextClean b.Text := by
  induction ops using List.reverseRecOn with
  | nil =>
    refine ⟨BufferClean_of_nil _ rfl, ?_⟩
    intro b hb
    simp [runOps, NewContentHandler] at hb
  | append_singleton ops op ih =>
    rw [runOps_append]
    exact HandlerOp_clean w _ op ih.1 ih.2

/-- C20. In every run of `TextToken` and `FlushBlock` calls from a fresh
handler, also when the depth counters, the pending-flush flag and the last
start tag change in between (without which no block is emitted at all), the
text of every emitted block is not empty, has no white space at its start or
end, holds no white-space character but the space, and has no two spaces next
to each other. -/
theorem emitted_text_clean (w : Char → Bool) (ops : List HandlerOp) :
    ∀ b ∈ (runOps w NewContentHandler ops).textBlocks,
      b.Text ≠ [] ∧
      (∀ c, b.Text.head? = some c → isSpace c = false) ∧
      (∀ c, b.Text.getLast? = some c → isSpace c = false) ∧
      (∀ c ∈ b.Text, isSpace c = true → c = ' ') ∧
      (∀ pre post : List Char, b.Text ≠ pre ++ ' ' :: ' ' :: post) :=
  (runOps_clean w ops).2

/-- C20 on the second block of the sample run, whose text tokens ` a  b ` and
`c` give `a b c`. -/
theorem emitted_text_clean_witness :
    (NewTextBlock ['a', ' ', 'b', ' ', 'c'] 3 0 3 1 1 3).Text ≠ [] ∧
    (∀ c, (NewTextBlock ['a', ' ', 'b', ' ', 'c'] 3 0 3 1 1 3).Text.head? = some c →
      isSpace c = false) ∧
    (∀ c, (NewTextBlock ['a', ' ', 'b', ' ', 'c'] 3 0 3 1 1 3).Text.getLast? = some c →
      isSpace c = false) ∧
    (∀ c ∈ (NewTextBlock ['a', ' ', 'b', ' ', 'c'] 3 0 3 1 1 3).Text, isSpace c = true → c = ' ') ∧
    (∀ pre post : List Char,
      (NewTextBlock ['a', ' ', 'b', ' ', 'c'] 3 0 3 1 1 3).Text ≠ pre ++ ' ' :: ' ' :: post) :=
  emitted_text_clean asciiWordChar sampleRun (NewTextBlock ['a', ' ', 'b', ' ', 'c'] 3 0 3 1 1 3)
    (List.getElem?_mem (n := 1) rfl)

/-- With `TextToken` and `FlushBlock` alone a fresh handler never enters body,
so it emits no block; the runs of C16, C17 and C20 change the depths too. -/
theorem text_and_flush_alone_emit_nothing (w : Char → Bool) (ts : List (Option (List Char))) :
    (runOps w NewContentHandler
      (ts.map fun o => match o with
        | some t => HandlerOp.text t
        | none => HandlerOp.flushBlock)).textBlocks = [] := by
  have key : ∀ ts : List (Option (List Char)),
      (runOps w NewContentHandler
        (ts.map fun o => match o with
          | some t => HandlerOp.text t
          | none => HandlerOp.flushBlock)).textBlocks = [] ∧
      (runOps w NewContentHandler
        (ts.map fun o => match o with
          | some t => HandlerOp.text t
          | none => HandlerOp.flushBlock)).depthBody = 0 := by
    intro ts
    induction ts using List.reverseRecOn with
    | nil => exact ⟨rfl, rfl⟩
    | append_singleton ts o ih =>
      obtain ⟨ih1, ih2⟩ := ih
      rw [List.map_append, List.map_singleton, runOps_append]
      have hflush : ∀ g : ContentHandler, g.depthBody = 0 →
          (FlushBlock w g).textBlocks = g.textBlocks ∧ (FlushBlock w g).depthBody = 0 := by
        intro g hg
        refine ⟨?_, by rw [FlushBlock_depthBody]; exact hg⟩
        rcases FlushBlock_textBlocks w g with hsame | ⟨hne, _⟩
        · exact hsame
        · exact absurd hg hne
      have hbody_text : ∀ (g : ContentHandler) (t : List Char), g.flush = false →
          (TextToken w g t).depthBody = g.depthBody := by
        intro g t hf
        by_cases hign : g.depthIgnoreable = 0
        · rw [TextToken_writes w g t hf hign]
        · rw [TextToken_of_ignorable w g t hign]
          simp [hf]
      cases o with
      | none =>
        obtain ⟨f1, f2⟩ := hflush _ ih2
        exact ⟨f1.trans ih1, f2⟩
      | some t =>
        simp only [HandlerOp.apply]
        by_cases hf : (runOps w NewContentHandler
            (ts.map fun o => match o with
              | some t => HandlerOp.text t
              | none => HandlerOp.flushBlock)).flush = true
        · rw [TextToken_of_flush w _ t hf]
          obtain ⟨f1, f2⟩ := hflush _ ih2
          rw [(TextToken_blocks_of_no_flush w _ t rfl).1, hbody_text _ t rfl]
          exact ⟨f1.trans ih1, f2⟩
        · have hf2 := (by simpa using hf :
            (runOps w NewContentHandler
              (ts.map fun o => match o with
                | some t => HandlerOp.text t
                | none => HandlerOp.flushBlock)).flush = false)
          rw [(TextToken_blocks_of_no_flush w _ t hf2).1, hbody_text _ t hf2]
          exact ⟨ih1, ih2⟩
  exact (key ts).1

/-! ## An unknown tag between two text runs -/

theorem FlushBlock_emits_state (w : Char → Bool) (h : ContentHandler)
    (hbody : h.depthBody ≠ 0) (htok : h.tokenBuffer ≠ [])
    (hone : ¬ (byteLen h.tokenBuffer = 1 ∧ h.sbLastWasWhitespace = true))
    (hnum : (flushLoop w (flushInit h.inAnchorText) (Split h.tokenBuffer)).numTokens ≠ 0)
    (htxt : TrimSpace h.textBuffer ≠ []) :
    ∃ (b : TextBlock) (ia : Bool), b.Text = TrimSpace h.textBuffer ∧
      FlushBlock w h =
        { h with
          inAnchorText := ia
          textBlocks := h.textBlocks ++ [b]
          offsetBlocks := h.offsetBlocks + 1
          textBuffer := []
          tokenBuffer := []
          depthBlockTag := -1 } := by
  have h0 : byteLen h.tokenBuffer ≠ 0 := by
    rw [Ne, byteLen_eq_zero]; exact htok
  have h1 : byteLen (TrimSpace h.textBuffer) > 0 := (byteLen_pos _).2 htxt
  unfold FlushBlock
  simp only [hbody, h0, hone, hnum, h1, if_false, if_true]
  refine ⟨NewTextBlock (TrimSpace h.textBuffer)
    (flushLoop w (flushInit h.inAnchorText) (Split h.tokenBuffer)).numWords
    (flushLoop w (flushInit h.inAnchorText) (Split h.tokenBuffer)).numLinkedWords _ _
    h.offsetBlocks h.depthBlockTag,
    (flushLoop w (flushInit h.inAnchorText) (Split h.tokenBuffer)).inAnchorText,
    (NewTextBlock_fields _ _ _ _ _ _ _).1, rfl⟩

theorem Split_ne_nil (s : List Char) : Split s ≠ [] := by
  cases s with
  | nil => simp [Split]
  | cons r s =>
    rw [Split]
    split_ifs
    · simp
    · cases Split s <;> simp

theorem Split_cons_space (s : List Char) : Split (' ' :: s) = [] :: Split s := by
  rw [Split, if_pos rfl]

theorem Split_append_space (s : List Char) : Split (s ++ [' ']) = Split s ++ [[]] := by
  induction s with
  | nil => rfl
  | cons r s ih =>
    by_cases hr : r = ' '
    · rw [List.cons_append, Split, if_pos hr, ih, Split, if_pos hr]
      rfl
    · rw [List.cons_append, Split, if_neg hr, ih, Split, if_neg hr]
      cases hs : Split s with
      | nil => exact absurd hs (Split_ne_nil s)
      | cons tok toks => rfl

theorem TrimSpace_collapseFrom (p : Bool) (t : List Char) :
    TrimSpace (collapseFrom p t) = collapsedTrimmed t := by
  rw [collapsedTrimmed_eq, collapseFrom_lead p t]
  unfold TrimSpace
  by_cases hl : ((t.take 1).any isSpace && !p) = true
  · rw [if_pos hl]
    have : ([' '] ++ collapseFrom true t).dropWhile isSpace =
        (collapseFrom true t).dropWhile isSpace := by
      simp [List.dropWhile_cons, isSpace_space]
    rw [this, dropWhile_collapseFrom_true]
  · rw [if_neg hl, List.nil_append, dropWhile_collapseFrom_true]

/-- The tokens of the collapsed trimmed text are among the tokens of what
`TextToken` writes. -/
theorem mem_Split_collapseFrom (p : Bool) (t : List Char) (tok : List Char)
    (htok : tok ∈ Split (collapsedTrimmed t)) : tok ∈ Split (collapseFrom p t) := by
  rw [collapseFrom_parts p t]
  have hright : tok ∈ Split (collapsedTrimmed t ++
      (if endsInSpace false t = true ∧ collapsedTrimmed t ≠ [] then [' '] else [])) := by
    by_cases hc : endsInSpace false t = true ∧ collapsedTrimmed t ≠ []
    · rw [if_pos hc, Split_append_space]
      exact List.mem_append_left _ htok
    · rw [if_neg hc, List.append_nil]
      exact htok
  by_cases hl : ((t.take 1).any isSpace && !p) = true
  · rw [if_pos hl, List.singleton_append, Split_cons_space]
    exact List.mem_cons_of_mem _ hright
  · rw [if_neg hl, List.nil_append]
    exact hright

theorem flushLoop_numTokens (w : Char → Bool) (v : FlushVars) (toks : List (List Char)) :
    (flushLoop w v toks).numTokens =
      v.numTokens + ((toks.filter fun tok => !isAnchorMarker tok).length : Int) := by
  by_cases hv : v.inAnchorText = true
  · exact (flushLoop_counts w toks [ANCHOR_TEXT_START] v (by rw [hv]; decide)).2.1
  · exact (flushLoop_counts w toks [] v (by simpa [inOpenAnchor] using hv)).2.1

theorem flushLoop_numTokens_ne_zero (w : Char → Bool) (ia : Bool) (toks : List (List Char))
    (tok : List Char) (hmem : tok ∈ toks) (hm : isAnchorMarker tok = false) :
    (flushLoop w (flushInit ia) toks).numTokens ≠ 0 := by
  rw [flushLoop_numTokens]
  have hpos : 0 < (toks.filter fun tok => !isAnchorMarker tok).length := by
    apply List.length_pos_of_mem (a := tok)
    rw [List.mem_filter]
    exact ⟨hmem, by simp [hm]⟩
  simp only [flushInit, zero_add]
  omega

/-- Flushing what one text token wrote into empty buffers inside body: the
block holds the collapsed trimmed text, when that text has a token that is not
an anchor marker. -/
theorem FlushBlock_after_text (w : Char → Bool) (g : ContentHandler) (p : Bool) (t : List Char)
    (hbody : g.depthBody ≠ 0)
    (htokbuf : g.tokenBuffer = collapseFrom p t) (htxtbuf : g.textBuffer = collapseFrom p t)
    (hsb : g.sbLastWasWhitespace = endsInSpace p t)
    (hreal : ∃ tok ∈ Split (collapsedTrimmed t), isAnchorMarker tok = false)
    (hne : collapsedTrimmed t ≠ []) :
    ∃ (b : TextBlock) (ia : Bool), b.Text = collapsedTrimmed t ∧
      FlushBlock w g =
        { g with
          inAnchorText := ia
          textBlocks := g.textBlocks ++ [b]
          offsetBlocks := g.offsetBlocks + 1
          textBuffer := []
          tokenBuffer := []
          depthBlockTag := -1 } := by
  obtain ⟨tok, htok, hm⟩ := hreal
  have hparts := collapseFrom_parts p t
  have ht : t ≠ [] := by
    intro e
    rw [e] at hne
    exact hne rfl
  have hbuf_ne : collapseFrom p t ≠ [] := by
    intro e
    have := TrimSpace_collapseFrom p t
    rw [e] at this
    exact hne this.symm
  have hone : ¬ (byteLen g.tokenBuffer = 1 ∧ g.sbLastWasWhitespace = true) := by
    rintro ⟨hlen, hlast⟩
    rw [hsb, endsInSpace_irrel p false t ht] at hlast
    have hcond : endsInSpace false t = true ∧ collapsedTrimmed t ≠ [] := ⟨hlast, hne⟩
    rw [htokbuf, hparts, if_pos hcond, byteLen_append, byteLen_append] at hlen
    have h1 : 0 < byteLen (collapsedTrimmed t) := (byteLen_pos _).2 hne
    have h2 : byteLen [' '] = 1 := by decide
    omega
  obtain ⟨b, ia, hb, hstate⟩ := FlushBlock_emits_state w g hbody
    (by rw [htokbuf]; exact hbuf_ne) hone
    (by
      rw [htokbuf]
      exact flushLoop_numTokens_ne_zero w _ _ tok (mem_Split_collapseFrom p t tok htok) hm)
    (by rw [htxtbuf, TrimSpace_collapseFrom]; exact hne)
  rw [htxtbuf, TrimSpace_collapseFrom] at hb
  exact ⟨b, ia, hb, hstate⟩

theorem StartElement_unknown (tk : TagTables) (h : ContentHandler) (a : Atom)
    (hunknown : tk.TagActionMap a = none) :
    StartElement tk h a =
      { h with depthTag := h.depthTag + 1, flush := true, lastStartTag := tk.String a } := by
  unfold StartElement
  simp only [hunknown]

/-- C11, as stated, fails: after the text `a` and an unknown start tag, a text
that is just the anchor-start marker is taken for the marker and counts as no
token, so the final flush emits nothing and only the block `a` is there. -/
theorem unknown_tag_marker_text_one_block :
    bodyHandler.depthBody > 0 ∧ bodyHandler.depthIgnoreable = 0 ∧
    bodyHandler.tokenBuffer = [] ∧ bodyHandler.textBuffer = [] ∧ bodyHandler.flush = false ∧
    noTagTables.TagActionMap 0 = none ∧
    (∃ c ∈ ['a'], isSpace c = false) ∧ (∃ c ∈ ANCHOR_TEXT_START, isSpace c = false) ∧
    collapsedTrimmed ANCHOR_TEXT_START = ANCHOR_TEXT_START ∧
    (FlushBlock asciiWordChar
      (TextToken asciiWordChar
        (StartElement noTagTables (TextToken asciiWordChar bodyHandler ['a']) 0)
        ANCHOR_TEXT_START)).textBlocks.map (fun b => b.Text) = [['a']] := by
  refine ⟨by decide, by decide, by decide, by decide, by decide, rfl, by decide, by decide,
    by decide, by decide⟩

/-- C11, amended. Inside body (`depthBody > 0`, `depthIgnoreable = 0`) with
empty buffers and no flush pending, for two texts that each hold a character
that is not white space and whose collapsed trimmed form has a space-separated
token that is not an anchor marker, the sequence `TextToken(t1)`,
`StartElement` of a tag absent from the tag table, `TextToken(t2)`,
`FlushBlock` appends exactly two blocks, in order, with the texts collapsed
trimmed `t1` and collapsed trimmed `t2`. -/
theorem unknown_tag_splits_blocks (tk : TagTables) (w : Char → Bool) (h : ContentHandler)
    (a : Atom) (t1 t2 : List Char)
    (hunknown : tk.TagActionMap a = none)
    (hbody : 0 < h.depthBody) (hign : h.depthIgnoreable = 0)
    (htok : h.tokenBuffer = []) (htxt : h.textBuffer = []) (hf : h.flush = false)
    (h1 : ∃ c ∈ t1, isSpace c = false) (h2 : ∃ c ∈ t2, isSpace c = false)
    (r1 : ∃ tok ∈ Split (collapsedTrimmed t1), isAnchorMarker tok = false)
    (r2 : ∃ tok ∈ Split (collapsedTrimmed t2), isAnchorMarker tok = false) :
    ∃ b1 b2 : TextBlock,
      (FlushBlock w (TextToken w (StartElement tk (TextToken w h t1) a) t2)).textBlocks =
        h.textBlocks ++ [b1, b2] ∧
      b1.Text = collapsedTrimmed t1 ∧ b2.Text = collapsedTrimmed t2 := by
  have hne1 := (collapsedTrimmed_ne_nil_iff t1).2 h1
  have hne2 := (collapsedTrimmed_ne_nil_iff t2).2 h2
  have hb0 : h.depthBody ≠ 0 := by omega
  have e1 := TextToken_writes w h t1 hf hign
  have e2 := StartElement_unknown tk (TextToken w h t1) a hunknown
  -- the state before the pending flush
  have s_body : (StartElement tk (TextToken w h t1) a).depthBody = h.depthBody := by
    rw [e2, e1]
  have s_ign : (StartElement tk (TextToken w h t1) a).depthIgnoreable = 0 := by
    rw [e2, e1]; exact hign
  have s_tok : (StartElement tk (TextToken w h t1) a).tokenBuffer =
      collapseFrom h.sbLastWasWhitespace t1 := by
    rw [e2, e1]; simp [htok]
  have s_txt : (StartElement tk (TextToken w h t1) a).textBuffer =
      collapseFrom h.sbLastWasWhitespace t1 := by
    rw [e2, e1]; simp [htxt]
  have s_sb : (StartElement tk (TextToken w h t1) a).sbLastWasWhitespace =
      endsInSpace h.sbLastWasWhitespace t1 := by
    rw [e2, e1]
  have s_blocks : (StartElement tk (TextToken w h t1) a).textBlocks = h.textBlocks := by
    rw [e2, e1]
  have s_flush : (StartElement tk (TextToken w h t1) a).flush = true := by
    rw [e2]
  obtain ⟨b1, ia1, hb1, f1⟩ := FlushBlock_after_text w (StartElement tk (TextToken w h t1) a)
    h.sbLastWasWhitespace t1 (by rw [s_body]; exact hb0) s_tok s_txt s_sb r1 hne1
  rw [TextToken_of_flush w _ t2 s_flush]
  have e3 := TextToken_writes w
    { FlushBlock w (StartElement tk (TextToken w h t1) a) with flush := false } t2 rfl
    (by rw [f1]; exact s_ign)
  have g_body : (TextToken w
      { FlushBlock w (StartElement tk (TextToken w h t1) a) with flush := false } t2).depthBody =
      h.depthBody := by
    rw [e3, f1]; exact s_body
  have g_tok : (TextToken w
      { FlushBlock w (StartElement tk (TextToken w h t1) a) with flush := false } t2).tokenBuffer =
      collapseFrom (endsInSpace h.sbLastWasWhitespace t1) t2 := by
    rw [e3, f1]; simp [s_sb]
  have g_txt : (TextToken w
      { FlushBlock w (StartElement tk (TextToken w h t1) a) with flush := false } t2).textBuffer =
      collapseFrom (endsInSpace h.sbLastWasWhitespace t1) t2 := by
    rw [e3, f1]; simp [s_sb]
  have g_sb : (TextToken w
      { FlushBlock w (StartElement tk (TextToken w h t1) a) with flush := false }
        t2).sbLastWasWhitespace =
      endsInSpace (endsInSpace h.sbLastWasWhitespace t1) t2 := by
    rw [e3, f1]; simp [s_sb]
  have g_blocks : (TextToken w
      { FlushBlock w (StartElement tk (TextToken w h t1) a) with flush := false } t2).textBlocks =
      h.textBlocks ++ [b1] := by
    rw [e3, f1]; simp [s_blocks]
  obtain ⟨b2, ia2, hb2, f2⟩ := FlushBlock_after_text w
    (TextToken w { FlushBlock w (StartElement tk (TextToken w h t1) a) with flush := false } t2)
    (endsInSpace h.sbLastWasWhitespace t1) t2 (by rw [g_body]; exact hb0) g_tok g_txt g_sb r2 hne2
  refine ⟨b1, b2, ?_, hb1, hb2⟩
  rw [f2]
  simp only [g_blocks, List.append_assoc, List.singleton_append]

/-- C11 (amended) on the texts ` a  b` and `c` with a line break after it. -/
theorem unknown_tag_splits_blocks_witness :
    ∃ b1 b2 : TextBlock,
      (FlushBlock asciiWordChar
        (TextToken asciiWordChar
          (StartElement noTagTables (TextToken asciiWordChar bodyHandler [' ', 'a', ' ', ' ', 'b']) 0)
          ['c', ' ', '\n'])).textBlocks = bodyHandler.textBlocks ++ [b1, b2] ∧
      b1.Text = collapsedTrimmed [' ', 'a', ' ', ' ', 'b'] ∧
      b2.Text = collapsedTrimmed ['c', ' ', '\n'] :=
  unknown_tag_splits_blocks noTagTables asciiWordChar bodyHandler 0 [' ', 'a', ' ', ' ', 'b']
    ['c', ' ', '\n'] rfl (by decide) (by decide) (by decide) (by decide) (by decide)
    (by decide) (by decide) (by decide) (by decide)

/-! ## Wrapped lines -/

theorem flushStep_wraps (w : Char → Bool) (v : FlushVars) (tok : List Char)
    (hv : 0 ≤ v.numWordsCurrentLine ∧ v.numWordsCurrentLine ≤ v.numWords ∧
      0 ≤ v.numWrappedLines ∧ v.numWrappedLines ≤ v.numWords ∧
      (v.numWrappedLines ≠ 0 → v.numWrappedLines - 1 ≤ v.numWords - v.numWordsCurrentLine)) :
    0 ≤ (flushStep w v tok).numWordsCurrentLine ∧
    (flushStep w v tok).numWordsCurrentLine ≤ (flushStep w v tok).numWords ∧
    0 ≤ (flushStep w v tok).numWrappedLines ∧
    (flushStep w v tok).numWrappedLines ≤ (flushStep w v tok).numWords ∧
    ((flushStep w v tok).numWrappedLines ≠ 0 →
      (flushStep w v tok).numWrappedLines - 1 ≤
        (flushStep w v tok).numWords - (flushStep w v tok).numWordsCurrentLine) := by
  obtain ⟨h1, h2, h3, h4, h5⟩ := hv
  unfold flushStep
  simp only
  split_ifs <;> simp only <;> refine ⟨?_, ?_, ?_, ?_, ?_⟩ <;> omega

theorem flushLoop_wraps (w : Char → Bool) (tokens : List (List Char)) :
    ∀ v : FlushVars,
      (0 ≤ v.numWordsCurrentLine ∧ v.numWordsCurrentLine ≤ v.numWords ∧
        0 ≤ v.numWrappedLines ∧ v.numWrappedLines ≤ v.numWords ∧
        (v.numWrappedLines ≠ 0 →
          v.numWrappedLines - 1 ≤ v.numWords - v.numWordsCurrentLine)) →
      (flushLoop w v tokens).numWrappedLines ≠ 0 →
      (flushLoop w v tokens).numWrappedLines - 1 ≤
        (flushLoop w v tokens).numWords - (flushLoop w v tokens).numWordsCurrentLine := by
  induction tokens with
  | nil => intro v hv; exact hv.2.2.2.2
  | cons tok tokens ih =>
    intro v hv
    exact ih (flushStep w v tok) (flushStep_wraps w v tok hv)

/-- C14, as stated, fails: for a buffer of one word of 81 bytes the limit is
exceeded once (an empty line is closed) with that word alone on the open line,
so `numWords` minus the number of words on the open line is 0, but the block
has `NumWordsInWrappedLines = 1`. -/
theorem long_word_block_counters :
    longWordHandler.depthBody > 0 ∧
    specWrap ((Split longWordHandler.tokenBuffer).filter (isWordToken asciiWordChar)) =
      ([[]], [List.replicate 81 'a']) ∧
    (flushLoop asciiWordChar (flushInit longWordHandler.inAnchorText)
      (Split longWordHandler.tokenBuffer)).numWrappedLines = 1 ∧
    (flushLoop asciiWordChar (flushInit longWordHandler.inAnchorText)
      (Split longWordHandler.tokenBuffer)).numWords -
      (flushLoop asciiWordChar (flushInit longWordHandler.inAnchorText)
        (Split longWordHandler.tokenBuffer)).numWordsCurrentLine = 0 ∧
    (FlushBlock asciiWordChar longWordHandler).textBlocks.map
      (fun b => (b.NumWords, b.NumWrappedLines, b.NumWordsInWrappedLines)) = [(1, 1, 1)] := by
  decide

theorem byteLen_joinSpace_snoc (line : List (List Char)) (tok : List Char) :
    byteLen (joinSpace (line ++ [tok])) + 1 =
      (line.map fun t => byteLen t + 1).sum + (byteLen tok + 1) := by
  rw [← sum_byteLen_joinSpace (line ++ [tok]) (by simp), List.map_append, List.sum_append]
  simp

theorem flushStep_word (w : Char → Bool) (v : FlushVars) (tok : List Char)
    (n1 : tok ≠ ANCHOR_TEXT_START) (n2 : tok ≠ ANCHOR_TEXT_END) (hword : isWord w tok = true) :
    (flushStep w v tok).numWrappedLines =
      (if v.currentLineLength + ((byteLen tok : Int) + 1) > 80 then v.numWrappedLines + 1
       else v.numWrappedLines) ∧
    (flushStep w v tok).numWordsCurrentLine =
      (if v.currentLineLength + ((byteLen tok : Int) + 1) > 80 then 1
       else v.numWordsCurrentLine + 1) ∧
    (flushStep w v tok).currentLineLength =
      (if v.currentLineLength + ((byteLen tok : Int) + 1) > 80 then (byteLen tok : Int)
       else v.currentLineLength + ((byteLen tok : Int) + 1)) := by
  unfold flushStep
  simp only [n1, n2, hword, if_false, if_true, maxLineLength]
  by_cases ha : v.inAnchorText = true <;>
    by_cases hfit : v.currentLineLength + ((byteLen tok : Int) + 1) > 80 <;>
    simp [ha, hfit]

theorem flushStep_not_word (w : Char → Bool) (v : FlushVars) (tok : List Char)
    (hw : isWordToken w tok = false) :
    (flushStep w v tok).numWrappedLines = v.numWrappedLines ∧
    (flushStep w v tok).numWordsCurrentLine = v.numWordsCurrentLine ∧
    (flushStep w v tok).currentLineLength = v.currentLineLength := by
  have hnw : ¬ (tok ≠ ANCHOR_TEXT_START ∧ tok ≠ ANCHOR_TEXT_END ∧ isWord w tok = true) := by
    rintro ⟨n1, n2, h3⟩
    have : isWordToken w tok = true := by
      simp only [isWordToken, isAnchorMarker, Bool.and_eq_true, Bool.not_eq_true',
        Bool.or_eq_false_iff, beq_eq_false_iff_ne, ne_eq]
      exact ⟨⟨n1, n2⟩, h3⟩
    rw [hw] at this
    exact Bool.noConfusion this
  unfold flushStep
  simp only
  split_ifs with a b c
  all_goals first
    | exact ⟨rfl, rfl, rfl⟩
    | exact absurd ⟨a, b, c⟩ hnw

theorem flushStep_specWrap (w : Char → Bool) (v : FlushVars) (tok : List Char)
    (st : List (List (List Char)) × List (List Char))
    (h1 : v.numWrappedLines = (st.1.length : Int))
    (h2 : v.numWordsCurrentLine = (st.2.length : Int))
    (h3 : v.currentLineLength + 1 = (((st.2.map fun t => byteLen t + 1).sum : Nat) : Int))
    (hw : isWordToken w tok = true) :
    (flushStep w v tok).numWrappedLines = ((specWrapStep st tok).1.length : Int) ∧
    (flushStep w v tok).numWordsCurrentLine = ((specWrapStep st tok).2.length : Int) ∧
    (flushStep w v tok).currentLineLength + 1 =
      ((((specWrapStep st tok).2.map fun t => byteLen t + 1).sum : Nat) : Int) := by
  have hlen := byteLen_joinSpace_snoc st.2 tok
  simp only [isWordToken, isAnchorMarker, Bool.and_eq_true, Bool.not_eq_true',
    Bool.or_eq_false_iff, beq_eq_false_iff_ne, ne_eq] at hw
  obtain ⟨⟨n1, n2⟩, hany⟩ := hw
  obtain ⟨f1, f2, f3⟩ := flushStep_word w v tok n1 n2 hany
  rw [f1, f2, f3]
  unfold specWrapStep
  by_cases hfit : byteLen (joinSpace (st.2 ++ [tok])) ≤ 80
  · have hfit2 : ¬ (v.currentLineLength + ((byteLen tok : Int) + 1) > 80) := by omega
    rw [if_pos hfit, if_neg hfit2, if_neg hfit2, if_neg hfit2]
    refine ⟨h1, ?_, ?_⟩
    · rw [h2, List.length_append]
      simp
    · rw [List.map_append, List.sum_append]
      simp only [List.map_cons, List.map_nil, List.sum_cons, List.sum_nil]
      omega
  · have hfit2 : v.currentLineLength + ((byteLen tok : Int) + 1) > 80 := by omega
    rw [if_neg hfit, if_pos hfit2, if_pos hfit2, if_pos hfit2]
    refine ⟨?_, ?_, ?_⟩
    · rw [h1, List.length_append]
      simp
    · simp
    · simp

theorem flushLoop_specWrap (w : Char → Bool) (toks : List (List Char)) :
    ∀ (v : FlushVars) (st : List (List (List Char)) × List (List Char)),
      v.numWrappedLines = (st.1.length : Int) →
      v.numWordsCurrentLine = (st.2.length : Int) →
      v.currentLineLength + 1 = (((st.2.map fun t => byteLen t + 1).sum : Nat) : Int) →
      (flushLoop w v toks).numWrappedLines =
        ((((toks.filter (isWordToken w)).foldl specWrapStep st).1.length : Nat) : Int) ∧
      (flushLoop w v toks).numWordsCurrentLine =
        ((((toks.filter (isWordToken w)).foldl specWrapStep st).2.length : Nat) : Int) := by
  induction toks with
  | nil => intro v st h1 h2 _; exact ⟨h1, h2⟩
  | cons tok toks ih =>
    intro v st h1 h2 h3
    have e : flushLoop w v (tok :: toks) = flushLoop w (flushStep w v tok) toks := rfl
    rw [e]
    by_cases hw : isWordToken w tok = true
    · obtain ⟨a1, a2, a3⟩ := flushStep_specWrap w v tok st h1 h2 h3 hw
      rw [List.filter_cons_of_pos hw, List.foldl_cons]
      exact ih _ _ a1 a2 a3
    · have hw2 : isWordToken w tok = false := by simpa using hw
      obtain ⟨a1, a2, a3⟩ := flushStep_not_word w v tok hw2
      rw [List.filter_cons_of_neg hw]
      exact ih _ _ (a1.trans h1) (a2.trans h2) (by rw [a3]; exact h3)

theorem specWrap_words (words : List (List Char)) :
    ∀ st : List (List (List Char)) × List (List Char),
      (words.foldl specWrapStep st).1.flatten ++ (words.foldl specWrapStep st).2 =
        st.1.flatten ++ st.2 ++ words := by
  induction words with
  | nil => intro st; simp
  | cons tok words ih =>
    intro st
    rw [List.foldl_cons, ih]
    unfold specWrapStep
    split_ifs <;> simp

theorem flushLoop_numWords (w : Char → Bool) (ia : Bool) (toks : List (List Char)) :
    (flushLoop w (flushInit ia) toks).numWords = ((toks.filter (isWordToken w)).length : Int) := by
  cases ia with
  | false =>
    rw [(flushLoop_counts w toks [] (flushInit false) rfl).1]
    simp [flushInit]
  | true =>
    rw [(flushLoop_counts w toks [ANCHOR_TEXT_START] (flushInit true) (by decide)).1]
    simp [flushInit]

/-- C14, amended. When `FlushBlock` inside body appends a block and the words
of the token buffer, put on lines of at most 80 bytes in order, close at least
one line (the running line length exceeded 80 at least once), then the block's
`NumWrappedLines` is the number of lines closed, its `NumWords` is the number
of words, the closed lines and the open line hold the words in order, and its
`NumWordsInWrappedLines` is `NumWords` minus the number of words on the open
line when that difference is not 0; when the difference is 0, every word being
on the open line, `NewTextBlock` makes it `NumWords`. -/
theorem wrapped_block_counters (w : Char → Bool) (h : ContentHandler) (b : TextBlock)
    (_ : 0 < h.depthBody)
    (hb : (FlushBlock w h).textBlocks = h.textBlocks ++ [b])
    (hwrap : (specWrap ((Split h.tokenBuffer).filter (isWordToken w))).1 ≠ []) :
    b.NumWrappedLines =
      ((specWrap ((Split h.tokenBuffer).filter (isWordToken w))).1.length : Int) ∧
    b.NumWords = (((Split h.tokenBuffer).filter (isWordToken w)).length : Int) ∧
    (specWrap ((Split h.tokenBuffer).filter (isWordToken w))).1.flatten ++
      (specWrap ((Split h.tokenBuffer).filter (isWordToken w))).2 =
        (Split h.tokenBuffer).filter (isWordToken w) ∧
    b.NumWordsInWrappedLines =
      (if b.NumWords -
          ((specWrap ((Split h.tokenBuffer).filter (isWordToken w))).2.length : Int) = 0
        then b.NumWords
        else b.NumWords -
          ((specWrap ((Split h.tokenBuffer).filter (isWordToken w))).2.length : Int)) := by
  obtain ⟨s1, s2⟩ := flushLoop_specWrap w (Split h.tokenBuffer) (flushInit h.inAnchorText)
    ([], []) rfl rfl rfl
  have s3 := flushLoop_numWords w h.inAnchorText (Split h.tokenBuffer)
  have s4 := specWrap_words ((Split h.tokenBuffer).filter (isWordToken w)) ([], [])
  have hlen : (specWrap ((Split h.tokenBuffer).filter (isWordToken w))).1.length ≠ 0 := by
    intro h0
    exact hwrap (List.length_eq_zero.1 h0)
  rcases FlushBlock_textBlocks w h with hsame | ⟨_, _, _, _, happ⟩
  · rw [hsame] at hb
    simp at hb
  · rw [happ] at hb
    have hbe := List.append_cancel_left hb
    simp only [List.cons.injEq, and_true] at hbe
    subst hbe
    obtain ⟨_, f2, _, f4, f5, _⟩ := NewTextBlock_fields (TrimSpace h.textBuffer)
      (flushLoop w (flushInit h.inAnchorText) (Split h.tokenBuffer)).numWords
      (flushLoop w (flushInit h.inAnchorText) (Split h.tokenBuffer)).numLinkedWords
      (if (flushLoop w (flushInit h.inAnchorText) (Split h.tokenBuffer)).numWrappedLines = 0
        then (flushLoop w (flushInit h.inAnchorText) (Split h.tokenBuffer)).numWords
        else (flushLoop w (flushInit h.inAnchorText) (Split h.tokenBuffer)).numWords -
          (flushLoop w (flushInit h.inAnchorText) (Split h.tokenBuffer)).numWordsCurrentLine)
      (if (flushLoop w (flushInit h.inAnchorText) (Split h.tokenBuffer)).numWrappedLines = 0
        then 1
        else (flushLoop w (flushInit h.inAnchorText) (Split h.tokenBuffer)).numWrappedLines)
      h.offsetBlocks h.depthBlockTag
    have hw0 : (flushLoop w (flushInit h.inAnchorText)
        (Split h.tokenBuffer)).numWrappedLines ≠ 0 := by
      rw [s1]
      unfold specWrap at hlen
      exact_mod_cast hlen
    rw [f2, f4, f5]
    simp only [hw0, if_false]
    unfold specWrap
    rw [← s1, ← s2, ← s3]
    refine ⟨?_, rfl, ?_, rfl⟩
    · split_ifs with hz
      · have hinv := flushLoop_wraps w (Split h.tokenBuffer) (flushInit h.inAnchorText)
          (by simp [flushInit]) hw0
        obtain ⟨c1, c2, c3, c4⟩ := flushLoop_counters w (Split h.tokenBuffer)
          (flushInit h.inAnchorText) (by simp [flushInit])
        omega
      · rfl
    · simpa using s4

/-- C14 (amended) on the block flushed from three words of 30 bytes: the first
two fill a line of 61 bytes, the third exceeds 80 and opens the second line. -/
theorem wrapped_block_counters_witness :
    (NewTextBlock wrappedHandler.textBuffer 3 0 2 1 0 (-1)).NumWrappedLines =
      ((specWrap ((Split wrappedHandler.tokenBuffer).filter
        (isWordToken asciiWordChar))).1.length : Int) ∧
    (NewTextBlock wrappedHandler.textBuffer 3 0 2 1 0 (-1)).NumWords =
      (((Split wrappedHandler.tokenBuffer).filter (isWordToken asciiWordChar)).length : Int) ∧
    (specWrap ((Split wrappedHandler.tokenBuffer).filter (isWordToken asciiWordChar))).1.flatten ++
      (specWrap ((Split wrappedHandler.tokenBuffer).filter (isWordToken asciiWordChar))).2 =
        (Split wrappedHandler.tokenBuffer).filter (isWordToken asciiWordChar) ∧
    (NewTextBlock wrappedHandler.textBuffer 3 0 2 1 0 (-1)).NumWordsInWrappedLines =
      (if (NewTextBlock wrappedHandler.textBuffer 3 0 2 1 0 (-1)).NumWords -
          ((specWrap ((Split wrappedHandler.tokenBuffer).filter
            (isWordToken asciiWordChar))).2.length : Int) = 0
        then (NewTextBlock wrappedHandler.textBuffer 3 0 2 1 0 (-1)).NumWords
        else (NewTextBlock wrappedHandler.textBuffer 3 0 2 1 0 (-1)).NumWords -
          ((specWrap ((Split wrappedHandler.tokenBuffer).filter
            (isWordToken asciiWordChar))).2.length : Int)) :=
  wrapped_block_counters asciiWordChar wrappedHandler
    (NewTextBlock wrappedHandler.textBuffer 3 0 2 1 0 (-1)) (by decide) rfl (by decide)

/-- The sample of C14 evaluated: three words, one closed line of two words, one
word on the open line, and a block with 1 wrapped line and 2 words in wrapped
lines. -/
theorem wrapped_block_example :
    (specWrap ((Split wrappedHandler.tokenBuffer).filter (isWordToken asciiWordChar))).1 =
      [[List.replicate 30 'a', List.replicate 30 'b']] ∧
    (specWrap ((Split wrappedHandler.tokenBuffer).filter (isWordToken asciiWordChar))).2 =
      [List.replicate 30 'c'] ∧
    (FlushBlock asciiWordChar wrappedHandler).textBlocks.map
      (fun b => (b.NumWords, b.NumWrappedLines, b.NumWordsInWrappedLines)) = [(3, 1, 2)] := by
  decide

/-! ## Early returns of `FlushBlock` -/

/-- C15: the code at the failing input.  Inside body, after the text token that
is just the anchor-start marker, the loop of `FlushBlock` counts no token,
`FlushBlock` returns at `numTokens == 0` and both buffers still hold the
marker; the text `a` after an unknown tag then lands in one block with it. -/
theorem marker_only_buffers_kept :
    (flushLoop asciiWordChar (flushInit false)
      (Split (TextToken asciiWordChar bodyHandler ANCHOR_TEXT_START).tokenBuffer)).numTokens = 0 ∧
    (FlushBlock asciiWordChar
      (TextToken asciiWordChar bodyHandler ANCHOR_TEXT_START)).tokenBuffer = ANCHOR_TEXT_START ∧
    (FlushBlock asciiWordChar
      (TextToken asciiWordChar bodyHandler ANCHOR_TEXT_START)).textBuffer = ANCHOR_TEXT_START ∧
    (FlushBlock asciiWordChar
      (TextToken asciiWordChar bodyHandler ANCHOR_TEXT_START)).textBlocks = [] ∧
    (FlushBlock asciiWordChar
      (TextToken asciiWordChar
        (StartElement noTagTables (TextToken asciiWordChar bodyHandler ANCHOR_TEXT_START) 0)
        ['a'])).textBlocks.map (fun b => b.Text) = [ANCHOR_TEXT_START ++ ['a']] := by
  refine ⟨by decide, by decide, by decide, rfl, by decide⟩

/-- Every other way out of `FlushBlock` leaves the token buffer empty, and the
render buffer too unless the call found the token buffer empty inside body and
did nothing. -/
theorem FlushBlock_buffers (w : Char → Bool) (h : ContentHandler) :
    ((FlushBlock w h).tokenBuffer = [] ∧ (FlushBlock w h).textBuffer = []) ∨
    (h.depthBody ≠ 0 ∧ h.tokenBuffer = [] ∧ FlushBlock w h = h) ∨
    (h.depthBody ≠ 0 ∧ h.tokenBuffer ≠ [] ∧
      (flushLoop w (flushInit h.inAnchorText) (Split h.tokenBuffer)).numTokens = 0 ∧
      (FlushBlock w h).tokenBuffer = h.tokenBuffer ∧
      (FlushBlock w h).textBuffer = h.textBuffer) := by
  by_cases h1 : h.depthBody = 0
  · left
    unfold FlushBlock
    simp [h1]
  · by_cases h2 : h.tokenBuffer = []
    · right; left
      exact ⟨h1, h2, FlushBlock_of_empty w h h1 h2⟩
    · have h2b : byteLen h.tokenBuffer ≠ 0 := fun e => h2 ((byteLen_eq_zero _).1 e)
      by_cases h3 : byteLen h.tokenBuffer = 1 ∧ h.sbLastWasWhitespace = true
      · left
        unfold FlushBlock
        simp [h1, h2b, h3]
      · by_cases h4 :
            (flushLoop w (flushInit h.inAnchorText) (Split h.tokenBuffer)).numTokens = 0
        · right; right
          refine ⟨h1, h2, h4, ?_, ?_⟩ <;>
          · unfold FlushBlock
            simp only [h1, h2b, h3, h4, if_true, if_false]
        · left
          unfold FlushBlock
          simp [h1, h2b, h3, h4]

/-- The level is right when the stamp was reset: with `depthBlockTag = -1`, no
flush pending and outside ignorable regions, a block flushed right after a
text token that is not blank has the `depthTag` of that token as `TagLevel`. -/
theorem block_level_after_reset (w : Char → Bool) (h : ContentHandler) (t : List Char)
    (b : TextBlock) (hf : h.flush = false) (hign : h.depthIgnoreable = 0)
    (hd : h.depthBlockTag = -1) (ht : collapsedTrimmed t ≠ [])
    (hb : (FlushBlock w (TextToken w h t)).textBlocks = (TextToken w h t).textBlocks ++ [b]) :
    b.TagLevel = h.depthTag := by
  rcases FlushBlock_textBlocks w (TextToken w h t) with hsame | ⟨_, _, _, _, happ⟩
  · rw [hsame] at hb
    simp at hb
  · rw [happ] at hb
    have hbe := List.append_cancel_left hb
    simp only [List.cons.injEq, and_true] at hbe
    rw [← hbe, (NewTextBlock_fields _ _ _ _ _ _ _).2.2.2.2.2.2.2,
      TextToken_writes w h t hf hign]
    simp [hd, ht]

/-- C16: the code at the failing input.  The title text stamps
`depthBlockTag = 3` before body; the flush before body empties the buffers but
keeps the stamp; the first body text is read at `depthTag = 5`, and the block
flushed from it has `TagLevel = 3`. -/
theorem stale_tag_level :
    (runOps asciiWordChar NewContentHandler (staleLevelRun.take 3)).tokenBuffer = [] ∧
    (runOps asciiWordChar NewContentHandler (staleLevelRun.take 3)).depthBlockTag = 3 ∧
    (runOps asciiWordChar NewContentHandler (staleLevelRun.take 5)).depthTag = 5 ∧
    (runOps asciiWordChar NewContentHandler (staleLevelRun.take 5)).tokenBuffer = [] ∧
    (runOps asciiWordChar NewContentHandler staleLevelRun).textBlocks.map
      (fun b => (b.Text, b.TagLevel)) = [(['a'], 3)] := by
  decide

/-! ## Projections of a text document -/

theorem textLines_no_content (tbs : List TextBlock)
    (hno : ∀ b ∈ tbs, b.IsContent = false) :
    textLines true true tbs = textLines false true tbs := by
  induction tbs with
  | nil => rfl
  | cons tb tbs ih =>
    have h1 : tb.IsContent = false := hno tb (List.mem_cons_self _ _)
    have ih2 := ih (fun b hb => hno b (List.mem_cons_of_mem _ hb))
    simp [textLines, h1, ih2]

theorem textLines_all_content (tbs : List TextBlock)
    (hall : ∀ b ∈ tbs, b.IsContent = true) :
    textLines true true tbs = textLines true false tbs := by
  induction tbs with
  | nil => rfl
  | cons tb tbs ih =>
    have h1 : tb.IsContent = true := hall tb (List.mem_cons_self _ _)
    have ih2 := ih (fun b hb => hall b (List.mem_cons_of_mem _ hb))
    simp [textLines, h1, ih2]

/-- C12. For a text document in which no block has `IsContent` set,
`Text(true, true)` equals `Text(false, true)`; for one in which every block has
it set, `Text(true, true)` equals `Text(true, false)`. -/
theorem Text_partitions (esc : List Char → List Char) (doc : TextDocument) :
    ((∀ b ∈ doc.TextBlocks, b.IsContent = false) →
      doc.Text esc true true = doc.Text esc false true) ∧
    ((∀ b ∈ doc.TextBlocks, b.IsContent = true) →
      doc.Text esc true true = doc.Text esc true false) := by
  refine ⟨?_, ?_⟩
  · intro hno
    unfold TextDocument.Text
    rw [textLines_no_content _ hno]
  · intro hall
    unfold TextDocument.Text
    rw [textLines_all_content _ hall]

/-- C12 on a document of two blocks without `IsContent` and on the document
with one content block. -/
theorem Text_partitions_witness :
    TextDocument.Text htmlEscapeString
        { Title := [], TextBlocks := [NewTextBlock ['a'] 1 0 1 1 0 0, NewTextBlock ['b'] 1 0 1 1 1 0] }
        true true =
      TextDocument.Text htmlEscapeString
        { Title := [], TextBlocks := [NewTextBlock ['a'] 1 0 1 1 0 0, NewTextBlock ['b'] 1 0 1 1 1 0] }
        false true ∧
    indentedDocument.Text htmlEscapeString true true =
      indentedDocument.Text htmlEscapeString true false :=
  ⟨(Text_partitions htmlEscapeString
      { Title := [], TextBlocks := [NewTextBlock ['a'] 1 0 1 1 0 0, NewTextBlock ['b'] 1 0 1 1 1 0] }).1
      (by
        intro b hb
        simp only [List.mem_cons, List.mem_singleton, List.not_mem_nil, or_false] at hb
        rcases hb with hb | hb <;> rw [hb] <;> rfl),
   (Text_partitions htmlEscapeString indentedDocument).2
      (by
        intro b hb
        simp only [indentedDocument, List.mem_singleton] at hb
        rw [hb])⟩

theorem textLines_content (tbs : List TextBlock) :
    textLines true false tbs =
      ((tbs.filter fun tb => tb.IsContent).map fun tb => tb.Text ++ ['\n']).flatten := by
  induction tbs with
  | nil => rfl
  | cons tb tbs ih =>
    by_cases h1 : tb.IsContent = true
    · simp [textLines, h1, ih]
    · have h2 : tb.IsContent = false := by simpa using h1
      simp [textLines, h2, ih]

/-- C13, as stated, fails: for the document whose one content block has the
text ` a`, `Content()` is `a`, the space at the front of the line being
trimmed too, while removing leading and trailing blank lines leaves ` a`. -/
theorem content_trims_spaces_too :
    indentedDocument.Content htmlEscapeString = ['a'] ∧
    specContent htmlEscapeString indentedDocument = [' ', 'a'] ∧
    indentedDocument.Content htmlEscapeString ≠ specContent htmlEscapeString indentedDocument := by
  decide

/-! ## Plain-text extraction -/

theorem isReSpace_space : isReSpace ' ' = true := by
  decide

theorem replaceSpaceRuns_cons_of_space (q : Bool) (c : Char) (s : List Char)
    (hc : isReSpace c = true) :
    replaceSpaceRuns q (c :: s) =
      if q = true then replaceSpaceRuns true s else ' ' :: replaceSpaceRuns true s := by
  simp only [replaceSpaceRuns, hc, if_true]

theorem replaceSpaceRuns_cons_of_not_space (q : Bool) (c : Char) (s : List Char)
    (hc : isReSpace c = false) :
    replaceSpaceRuns q (c :: s) = c :: replaceSpaceRuns false s := by
  simp only [replaceSpaceRuns, hc, Bool.false_eq_true, if_false]

theorem replaceSpaceRuns_true_head (s : List Char) :
    ∀ (c : Char) (rest : List Char), replaceSpaceRuns true s = c :: rest →
      isReSpace c = false := by
  induction s with
  | nil => intro c rest h; simp [replaceSpaceRuns] at h
  | cons r s ih =>
    intro c rest h
    by_cases hr : isReSpace r = true
    · rw [replaceSpaceRuns_cons_of_space true r s hr, if_pos rfl] at h
      exact ih c rest h
    · have hr2 : isReSpace r = false := by simpa using hr
      rw [replaceSpaceRuns_cons_of_not_space true r s hr2] at h
      simp only [List.cons.injEq] at h
      rw [← h.1]
      exact hr2

theorem replaceSpaceRuns_chain (s : List Char) :
    ∀ q : Bool,
      List.Chain' (fun a b => ¬ (isReSpace a = true ∧ isReSpace b = true))
        (replaceSpaceRuns q s) := by
  induction s with
  | nil => intro q; simp [replaceSpaceRuns]
  | cons r s ih =>
    intro q
    by_cases hr : isReSpace r = true
    · rw [replaceSpaceRuns_cons_of_space q r s hr]
      split_ifs
      · exact ih _
      · refine List.Chain'.cons' (ih _) ?_
        intro y hy
        cases hk : replaceSpaceRuns true s with
        | nil => rw [hk] at hy; simp at hy
        | cons c rest =>
          rw [hk] at hy
          simp only [List.head?_cons, Option.mem_def, Option.some.injEq] at hy
          rw [← hy]
          have := replaceSpaceRuns_true_head s c rest hk
          simp [this]
    · have hr2 : isReSpace r = false := by simpa using hr
      rw [replaceSpaceRuns_cons_of_not_space q r s hr2]
      refine List.Chain'.cons' (ih _) ?_
      intro y _
      simp [hr2]

theorem replaceSpaceRuns_space_mem (s : List Char) :
    ∀ (q : Bool) (c : Char), c ∈ replaceSpaceRuns q s → isReSpace c = true → c = ' ' := by
  induction s with
  | nil => intro q c h; simp [replaceSpaceRuns] at h
  | cons r s ih =>
    intro q c h hc
    by_cases hr : isReSpace r = true
    · rw [replaceSpaceRuns_cons_of_space q r s hr] at h
      split_ifs at h
      · exact ih _ c h hc
      · rcases List.mem_cons.1 h with h1 | h1
        · exact h1
        · exact ih _ c h1 hc
    · have hr2 : isReSpace r = false := by simpa using hr
      rw [replaceSpaceRuns_cons_of_not_space q r s hr2] at h
      rcases List.mem_cons.1 h with h1 | h1
      · rw [h1, hr2] at hc
        exact Bool.noConfusion hc
      · exact ih _ c h1 hc

/-- C18, as stated, fails: two no-break spaces U+00A0 next to each other are
white space that `[\s]+` does not match, so `ExtractText` returns them as they
are. -/
theorem nbsp_run_kept :
    ExtractText noTagTables asciiWordChar [HtmlToken.TextToken nbspText] = some nbspText ∧
    nbspText = ['a'] ++ Char.ofNat 0xA0 :: Char.ofNat 0xA0 :: ['b'] ∧
    isSpace (Char.ofNat 0xA0) = true := by
  decide

theorem reFields_cons_of_space (c : Char) (s : List Char) (hc : isReSpace c = true) :
    reFields (c :: s) = reFields s := by
  simp only [reFields, hc, if_true]

theorem reFields_cons_of_not_space (c : Char) (s : List Char) (hc : isReSpace c = false) :
    reFields (c :: s) =
      match reFields s with
      | [] => [[c]]
      | f :: fs => if startsWithReSpace s then [c] :: f :: fs else (c :: f) :: fs := by
  rw [reFields]
  simp only [hc, Bool.false_eq_true, if_false]

theorem reFields_spec (s : List Char) :
    (∀ f ∈ reFields s, f ≠ [] ∧ ∀ c ∈ f, isReSpace c = false) ∧
    (reFields s).flatten = s.filter (fun c => !isReSpace c) := by
  induction s with
  | nil => simp [reFields]
  | cons c s ih =>
    by_cases hc : isReSpace c = true
    · rw [reFields_cons_of_space c s hc]
      refine ⟨ih.1, ?_⟩
      rw [ih.2, List.filter_cons_of_neg (by simp [hc])]
    · have hc2 : isReSpace c = false := by simpa using hc
      rw [reFields_cons_of_not_space c s hc2, List.filter_cons_of_pos (by simp [hc2])]
      obtain ⟨i1, i2⟩ := ih
      rw [← i2]
      cases hf : reFields s with
      | nil => simp [hc2]
      | cons f fs =>
        rw [hf] at i1
        have hf1 := i1 f (List.mem_cons_self _ _)
        have hfs : ∀ g ∈ fs, g ≠ [] ∧ ∀ c ∈ g, isReSpace c = false :=
          fun g hg => i1 g (List.mem_cons_of_mem _ hg)
        by_cases hd : startsWithReSpace s = true
        · simp only [hd, if_true]
          refine ⟨?_, by simp⟩
          intro g hg
          rcases List.mem_cons.1 hg with h | h
          · rw [h]
            simp [hc2]
          · exact i1 g h
        · simp only [hd, if_false]
          refine ⟨?_, by simp⟩
          intro g hg
          rcases List.mem_cons.1 hg with h | h
          · rw [h]
            refine ⟨by simp, ?_⟩
            intro x hx
            rcases List.mem_cons.1 hx with h2 | h2
            · rw [h2]; exact hc2
            · exact hf1.2 x h2
          · exact hfs g h

theorem joinSpace_cons_cons (c : Char) (f : List Char) (fs : List (List Char)) :
    joinSpace ((c :: f) :: fs) = c :: joinSpace (f :: fs) := by
  cases fs <;> simp [joinSpace]

theorem joinSpace_cons_of_ne_nil (f : List Char) (fs : List (List Char)) (h : fs ≠ []) :
    joinSpace (f :: fs) = f ++ ' ' :: joinSpace fs := by
  cases fs with
  | nil => exact absurd rfl h
  | cons g gs => simp [joinSpace]

theorem replaceSpaceRuns_false (s : List Char) :
    replaceSpaceRuns false s =
      (if startsWithReSpace s then [' '] else []) ++ replaceSpaceRuns true s := by
  cases s with
  | nil => simp [replaceSpaceRuns, startsWithReSpace]
  | cons c t =>
    by_cases hc : isReSpace c = true
    · rw [replaceSpaceRuns_cons_of_space false c t hc, replaceSpaceRuns_cons_of_space true c t hc]
      simp [startsWithReSpace, hc]
    · have hc2 : isReSpace c = false := by simpa using hc
      rw [replaceSpaceRuns_cons_of_not_space false c t hc2,
        replaceSpaceRuns_cons_of_not_space true c t hc2]
      simp [startsWithReSpace, hc2]

theorem replaceSpaceRuns_fields (s : List Char) :
    ∃ trail : List Char, (trail = [] ∨ trail = [' ']) ∧ (reFields s = [] → trail = []) ∧
      replaceSpaceRuns true s = joinSpace (reFields s) ++ trail := by
  induction s with
  | nil => exact ⟨[], Or.inl rfl, fun _ => rfl, by simp [replaceSpaceRuns, reFields, joinSpace]⟩
  | cons c s ih =>
    obtain ⟨trail, ht1, ht2, ht3⟩ := ih
    by_cases hc : isReSpace c = true
    · refine ⟨trail, ht1, ?_, ?_⟩
      · rw [reFields_cons_of_space c s hc]
        exact ht2
      · rw [replaceSpaceRuns_cons_of_space true c s hc, if_pos rfl, reFields_cons_of_space c s hc]
        exact ht3
    · have hc2 : isReSpace c = false := by simpa using hc
      rw [replaceSpaceRuns_cons_of_not_space true c s hc2, replaceSpaceRuns_false s, ht3,
        reFields_cons_of_not_space c s hc2]
      cases hf : reFields s with
      | nil =>
        have ht := ht2 hf
        subst ht
        by_cases hd : startsWithReSpace s = true
        · exact ⟨[' '], Or.inr rfl, fun h => by simp at h, by simp [hd, joinSpace]⟩
        · exact ⟨[], Or.inl rfl, fun _ => rfl, by simp [hd, joinSpace]⟩
      | cons f fs =>
        by_cases hd : startsWithReSpace s = true
        · refine ⟨trail, ht1, fun h => by simp [hd] at h, ?_⟩
          simp only [hd, if_true]
          rw [joinSpace_cons_of_ne_nil [c] (f :: fs) (by simp)]
          simp
        · refine ⟨trail, ht1, fun h => by simp [hd] at h, ?_⟩
          simp only [hd, Bool.false_eq_true, if_false]
          rw [joinSpace_cons_cons]
          simp

theorem trimRight_snoc_dropped (p : Char → Bool) (c : Char) (hc : p c = true) (s : List Char) :
    trimRight p (s ++ [c]) = trimRight p s := by
  induction s with
  | nil => simp [trimRight, hc]
  | cons r s ih => rw [List.cons_append, trimRight, ih, trimRight]

theorem dropWhile_append_of_exists (p : Char → Bool) (y : List Char) (x : List Char)
    (h : ∃ c ∈ x, p c = false) : (x ++ y).dropWhile p = x.dropWhile p ++ y := by
  induction x with
  | nil =>
    obtain ⟨c, hc, _⟩ := h
    simp at hc
  | cons r x ih =>
    by_cases hr : p r = true
    · rw [List.cons_append, List.dropWhile_cons_of_pos hr, List.dropWhile_cons_of_pos hr]
      apply ih
      obtain ⟨c, hc, hp⟩ := h
      rcases List.mem_cons.1 hc with e | e
      · rw [e, hr] at hp
        exact Bool.noConfusion hp
      · exact ⟨c, e, hp⟩
    · rw [List.cons_append, List.dropWhile_cons_of_neg hr, List.dropWhile_cons_of_neg hr]
      rfl

theorem TrimSpace_padded (lead trail s : List Char) (hl : lead = [] ∨ lead = [' '])
    (ht : trail = [] ∨ trail = [' ']) : TrimSpace (lead ++ s ++ trail) = TrimSpace s := by
  have hsp : isSpace ' ' = true := by decide
  have h1 : ∀ x : List Char, TrimSpace (x ++ [' ']) = TrimSpace x := by
    intro x
    unfold TrimSpace
    by_cases hall : ∀ c ∈ x, isSpace c = true
    · rw [dropWhile_isSpace_of_blank x hall, dropWhile_isSpace_of_blank (x ++ [' '])]
      intro c hc
      rcases List.mem_append.1 hc with h | h
      · exact hall c h
      · simp only [List.mem_singleton] at h
        rw [h]
        exact hsp
    · have hex : ∃ c ∈ x, isSpace c = false := by
        by_contra hno
        apply hall
        intro c hc
        by_contra hcn
        exact hno ⟨c, hc, by simpa using hcn⟩
      rw [dropWhile_append_of_exists isSpace [' '] x hex]
      exact trimRight_snoc_dropped isSpace ' ' hsp _
  have h2 : ∀ x : List Char, TrimSpace (' ' :: x) = TrimSpace x := by
    intro x
    unfold TrimSpace
    rw [List.dropWhile_cons_of_pos hsp]
  rcases hl with hl | hl <;> rcases ht with ht | ht
  · rw [hl, ht]
    simp
  · rw [hl, ht, List.nil_append]
    exact h1 s
  · rw [hl, ht, List.append_nil, List.singleton_append]
    exact h2 s
  · rw [hl, ht, List.singleton_append, List.cons_append, h2, h1]

theorem extractLoop_texts (tk : TagTables) (w : Char → Bool) (texts : List (List Char)) :
    ∀ (buf : List Char) (h : ContentHandler), h.depthIgnoreable = 0 → h.lastEndTag = [] →
      extractLoop tk w (texts.map HtmlToken.TextToken) buf h =
        some (buf ++ (texts.map fun t => ' ' :: t).flatten) := by
  induction texts with
  | nil => intro buf h _ _; simp [extractLoop]
  | cons t texts ih =>
    intro buf h h1 h2
    rw [List.map_cons, extractLoop]
    simp only [h1, h2, if_true, ne_eq, not_true_eq_false, if_false, Bool.false_eq_true]
    rw [ih _ h h1 h2]
    simp

/-- C18, amended. When `ExtractText` succeeds, the returned string is made from
the accumulated text by taking its maximal runs of characters outside the class
`\s` (tab, line feed, form feed, carriage return, space), which hold all those
characters in order, joining them with one space each, and trimming Unicode
white space at both ends: every run of `\s` between two of them is exactly one
space, and white space outside the class (vertical tab, U+0085, U+00A0 and the
other Unicode spaces) stays as it is inside the string.  The string has no
Unicode white space at its start or end and no two characters of the class `\s`
next to each other. -/
theorem ExtractText_collapsed (tk : TagTables) (w : Char → Bool) (tokens : List HtmlToken)
    (s : List Char) (hs : ExtractText tk w tokens = some s) :
    ∃ buf : List Char, extractLoop tk w tokens [] NewContentHandler = some buf ∧
      s = TrimSpace (joinSpace (reFields buf)) ∧
      (reFields buf).flatten = buf.filter (fun c => !isReSpace c) ∧
      (∀ f ∈ reFields buf, f ≠ [] ∧ ∀ c ∈ f, isReSpace c = false) ∧
      (∀ c, s.head? = some c → isSpace c = false) ∧
      (∀ c, s.getLast? = some c → isSpace c = false) ∧
      (∀ (pre post : List Char) (a b : Char), s = pre ++ a :: b :: post →
        ¬ (isReSpace a = true ∧ isReSpace b = true)) ∧
      (∀ c ∈ s, isReSpace c = true → c = ' ') := by
  unfold ExtractText at hs
  cases hbuf : extractLoop tk w tokens [] NewContentHandler with
  | none => rw [hbuf] at hs; simp at hs
  | some buf =>
    rw [hbuf] at hs
    simp only [Option.map_some', Option.some.injEq] at hs
    subst hs
    obtain ⟨trail, ht1, _, ht3⟩ := replaceSpaceRuns_fields buf
    have hlead : (if startsWithReSpace buf then [' '] else ([] : List Char)) = [] ∨
        (if startsWithReSpace buf then [' '] else ([] : List Char)) = [' '] := by
      split_ifs
      · exact Or.inr rfl
      · exact Or.inl rfl
    have hfields : TrimSpace (reMultiSpaceReplaceAll buf) = TrimSpace (joinSpace (reFields buf)) := by
      unfold reMultiSpaceReplaceAll
      rw [replaceSpaceRuns_false buf, ht3, ← List.append_assoc]
      exact TrimSpace_padded _ trail _ hlead ht1
    refine ⟨buf, rfl, hfields, (reFields_spec buf).2, (reFields_spec buf).1,
      TrimSpace_head _, trimRight_getLast isSpace _, ?_, ?_⟩
    · intro pre post a b he
      have hc := List.Chain'.infix (replaceSpaceRuns_chain buf false)
        (TrimSpace_inside (reMultiSpaceReplaceAll buf))
      rw [he] at hc
      exact List.Chain'.rel_head (List.Chain'.right_of_append hc)
    · intro c hc hsp
      exact replaceSpaceRuns_space_mem buf false c
        ((TrimSpace_inside (reMultiSpaceReplaceAll buf)).subset hc) hsp

/-- C18 (amended) on the text space, `a`, tab, space, `b`, two U+00A0, `c`,
line feed: the result is `a b`, the two U+00A0, `c`. -/
theorem ExtractText_collapsed_witness :
    ∃ buf : List Char,
      extractLoop noTagTables asciiWordChar
        [HtmlToken.TextToken mixedSpaceText, HtmlToken.ErrorToken true] []
        NewContentHandler = some buf ∧
      ['a', ' ', 'b', Char.ofNat 0xA0, Char.ofNat 0xA0, 'c'] =
        TrimSpace (joinSpace (reFields buf)) ∧
      (reFields buf).flatten = buf.filter (fun c => !isReSpace c) ∧
      (∀ f ∈ reFields buf, f ≠ [] ∧ ∀ c ∈ f, isReSpace c = false) ∧
      (∀ c, ['a', ' ', 'b', Char.ofNat 0xA0, Char.ofNat 0xA0, 'c'].head? = some c →
        isSpace c = false) ∧
      (∀ c, ['a', ' ', 'b', Char.ofNat 0xA0, Char.ofNat 0xA0, 'c'].getLast? = some c →
        isSpace c = false) ∧
      (∀ (pre post : List Char) (a b : Char),
        ['a', ' ', 'b', Char.ofNat 0xA0, Char.ofNat 0xA0, 'c'] = pre ++ a :: b :: post →
        ¬ (isReSpace a = true ∧ isReSpace b = true)) ∧
      (∀ c ∈ ['a', ' ', 'b', Char.ofNat 0xA0, Char.ofNat 0xA0, 'c'],
        isReSpace c = true → c = ' ') :=
  ExtractText_collapsed noTagTables asciiWordChar
    [HtmlToken.TextToken mixedSpaceText, HtmlToken.ErrorToken true]
    ['a', ' ', 'b', Char.ofNat 0xA0, Char.ofNat 0xA0, 'c'] (by decide)

/-- The sample of C18 evaluated: the accumulated text is a space and the text
of the token, and its runs outside `\s` are `a`, `b` with the two U+00A0 and
`c`. -/
theorem mixed_space_fields :
    extractLoop noTagTables asciiWordChar
      [HtmlToken.TextToken mixedSpaceText, HtmlToken.ErrorToken true] [] NewContentHandler =
        some (' ' :: mixedSpaceText) ∧
    reFields (' ' :: mixedSpaceText) =
      [['a'], ['b', Char.ofNat 0xA0, Char.ofNat 0xA0, 'c']] := by
  decide

/-! ## When the trim of `Content` is the removal of blank lines -/

theorem splitLines_ne_nil (s : List Char) : splitLines s ≠ [] := by
  cases s with
  | nil => simp [splitLines]
  | cons r s =>
    rw [splitLines]
    split_ifs
    · simp
    · cases splitLines s <;> simp

theorem splitLines_append_break (s : List Char) :
    splitLines (s ++ ['\n']) = splitLines s ++ [[]] := by
  induction s with
  | nil => rfl
  | cons r s ih =>
    by_cases hr : r = '\n'
    · rw [List.cons_append, splitLines, if_pos hr, ih, splitLines, if_pos hr]
      rfl
    · rw [List.cons_append, splitLines, if_neg hr, ih, splitLines, if_neg hr]
      cases hs : splitLines s with
      | nil => exact absurd hs (splitLines_ne_nil s)
      | cons line lines => rfl

theorem joinLines_splitLines (s : List Char) : joinLines (splitLines s) = s := by
  induction s with
  | nil => rfl
  | cons r s ih =>
    by_cases hr : r = '\n'
    · rw [splitLines, if_pos hr]
      cases hs : splitLines s with
      | nil => exact absurd hs (splitLines_ne_nil s)
      | cons line lines =>
        rw [hs] at ih
        simp only [joinLines, List.nil_append]
        rw [ih, hr]
    · rw [splitLines, if_neg hr]
      cases hs : splitLines s with
      | nil => exact absurd hs (splitLines_ne_nil s)
      | cons line lines =>
        rw [hs] at ih
        cases lines with
        | nil =>
          simp only [joinLines] at ih ⊢
          rw [ih]
        | cons line2 lines =>
          simp only [joinLines] at ih ⊢
          rw [← ih]
          rfl

theorem splitLines_head_not_blank (c : Char) (s : List Char) (h1 : c ≠ ' ') (h2 : c ≠ '\n') :
    ∃ line lines, splitLines (c :: s) = line :: lines ∧ isBlankLine line = false := by
  rw [splitLines, if_neg h2]
  cases hs : splitLines s with
  | nil => exact absurd hs (splitLines_ne_nil s)
  | cons line lines =>
    refine ⟨c :: line, lines, rfl, ?_⟩
    simp [isBlankLine, h1]

theorem splitLines_last_not_blank (d : Char) (h1 : d ≠ ' ') (h2 : d ≠ '\n') :
    ∀ s : List Char, ∃ lines line, splitLines (s ++ [d]) = lines ++ [line] ∧
      isBlankLine line = false := by
  intro s
  induction s with
  | nil =>
    refine ⟨[], [d], ?_, ?_⟩
    · simp [splitLines, h2]
    · simp [isBlankLine, h1]
  | cons r s ih =>
    obtain ⟨lines, line, he, hb⟩ := ih
    by_cases hr : r = '\n'
    · refine ⟨[] :: lines, line, ?_, hb⟩
      rw [List.cons_append, splitLines, if_pos hr, he]
      rfl
    · rw [List.cons_append, splitLines, if_neg hr, he]
      cases lines with
      | nil =>
        refine ⟨[], r :: line, rfl, ?_⟩
        simp only [isBlankLine, List.all_cons, Bool.and_eq_false_imp] at hb ⊢
        intro _
        exact hb
      | cons l0 ls => exact ⟨(r :: l0) :: ls, line, rfl, hb⟩

theorem trimRight_append_dropped (p : Char → Bool) (c : Char) (hc : p c = true)
    (pre : List Char) (d : Char) (hd : p d = false) :
    trimRight p (pre ++ [d] ++ [c]) = pre ++ [d] := by
  induction pre with
  | nil => simp [trimRight, hc, hd]
  | cons r pre ih =>
    rw [List.cons_append, List.cons_append, trimRight, ih]
    cases pre <;> rfl

/-- The text of the segmenter's blocks: a text that is not empty and has
neither a space nor a line break at its start or end, followed by a line
break, is trimmed and stripped of blank lines to the same string. -/
theorem Trim_eq_dropBlankLines (c d : Char) (mid : List Char)
    (hc1 : c ≠ ' ') (hc2 : c ≠ '\n') (hd1 : d ≠ ' ') (hd2 : d ≠ '\n')
    (s : List Char) (hs : s = c :: mid) (pre : List Char) (hs2 : s = pre ++ [d]) :
    Trim (s ++ ['\n']) [' ', '\n'] = s ∧ dropBlankLines (s ++ ['\n']) = s := by
  constructor
  · unfold Trim
    have hdrop : (s ++ ['\n']).dropWhile (fun x => [' ', '\n'].contains x) = s ++ ['\n'] := by
      rw [hs, List.cons_append]
      apply List.dropWhile_cons_of_neg
      simp [hc1, hc2]
    rw [hdrop, hs2]
    exact trimRight_append_dropped _ '\n' (by decide) pre d (by simp [hd1, hd2])
  · unfold dropBlankLines
    rw [splitLines_append_break]
    obtain ⟨line, lines, he, hb⟩ := splitLines_head_not_blank c mid hc1 hc2
    obtain ⟨lines2, line2, he2, hb2⟩ := splitLines_last_not_blank d hd1 hd2 pre
    rw [← hs] at he
    rw [← hs2] at he2
    have h1 : (splitLines s ++ [[]]).dropWhile isBlankLine = splitLines s ++ [[]] := by
      rw [he, List.cons_append]
      exact List.dropWhile_cons_of_neg (by simp [hb])
    rw [h1, he2]
    have h2 : ((lines2 ++ [line2] ++ [[]]).reverse).dropWhile isBlankLine =
        (lines2 ++ [line2]).reverse := by
      simp only [List.reverse_append, List.reverse_cons, List.reverse_nil, List.nil_append,
        List.singleton_append]
      rw [List.dropWhile_cons_of_pos (by decide)]
      exact List.dropWhile_cons_of_neg (by simp [hb2])
    rw [h2, List.reverse_reverse, ← he2]
    exact joinLines_splitLines s

theorem ne_break_of_not_isSpace (c : Char) (hc : isSpace c = false) : c ≠ '\n' := by
  intro h
  rw [h] at hc
  exact absurd hc (by decide)

theorem lines_shape (texts : List (List Char)) (hne : texts ≠ [])
    (hclean : ∀ t ∈ texts, t ≠ [] ∧ (∀ c, t.head? = some c → isSpace c = false) ∧
      (∀ c, t.getLast? = some c → isSpace c = false)) :
    ∃ (s : List Char) (c d : Char) (mid pre : List Char),
      (texts.map fun t => t ++ ['\n']).flatten = s ++ ['\n'] ∧
      s = c :: mid ∧ s = pre ++ [d] ∧ isSpace c = false ∧ isSpace d = false := by
  induction texts with
  | nil => exact absurd rfl hne
  | cons t texts ih =>
    obtain ⟨htne, hth, htl⟩ := hclean t (List.mem_cons_self _ _)
    obtain ⟨c, mid, hcm⟩ := List.exists_cons_of_ne_nil htne
    have hc : isSpace c = false := hth c (by rw [hcm]; rfl)
    cases texts with
    | nil =>
      refine ⟨t, c, t.getLast htne, mid, t.dropLast, by simp, hcm,
        (List.dropLast_append_getLast htne).symm, hc, ?_⟩
      exact htl _ (List.getLast?_eq_getLast _ htne)
    | cons t2 texts =>
      obtain ⟨s2, c2, d2, mid2, pre2, he, _, hpre, _, hd2⟩ :=
        ih (by simp) (fun u hu => hclean u (List.mem_cons_of_mem _ hu))
      refine ⟨t ++ '\n' :: s2, c, d2, mid ++ '\n' :: s2, t ++ '\n' :: pre2, ?_, ?_, ?_, hc, hd2⟩
      · rw [List.map_cons, List.flatten_cons, he]
        simp
      · rw [hcm]
        rfl
      · rw [hpre]
        simp

/-- For a document whose content blocks have texts that are not empty and have
no white space at either end, as the segmenter emits them and `MergeNext`
keeps them, `Content()` is the content as the specification words it: the trim
removes the closing line break alone, which is the one blank line. -/
theorem Content_eq_specContent (esc : List Char → List Char) (doc : TextDocument)
    (hclean : ∀ b ∈ doc.TextBlocks, b.IsContent = true →
      b.Text ≠ [] ∧ (∀ c, b.Text.head? = some c → isSpace c = false) ∧
        (∀ c, b.Text.getLast? = some c → isSpace c = false)) :
    doc.Content esc = specContent esc doc := by
  unfold TextDocument.Content TextDocument.Text specContent
  rw [textLines_content]
  congr 1
  have hmap : ((doc.TextBlocks.filter fun tb => tb.IsContent).map fun tb => tb.Text ++ ['\n']) =
      (((doc.TextBlocks.filter fun tb => tb.IsContent).map fun tb => tb.Text).map
        fun t => t ++ ['\n']) := by
    rw [List.map_map]
    rfl
  rw [hmap]
  by_cases hnil : ((doc.TextBlocks.filter fun tb => tb.IsContent).map fun tb => tb.Text) = []
  · rw [hnil]
    decide
  · obtain ⟨s, c, d, mid, pre, he, hs1, hs2, hc, hd⟩ := lines_shape _ hnil (by
      intro t ht
      obtain ⟨b, hb, hbt⟩ := List.mem_map.1 ht
      rw [← hbt]
      have hb2 := List.mem_filter.1 hb
      exact hclean b hb2.1 (by simpa using hb2.2))
    rw [he]
    obtain ⟨r1, r2⟩ := Trim_eq_dropBlankLines c d mid (ne_space_of_not_isSpace c hc)
      (ne_break_of_not_isSpace c hc) (ne_space_of_not_isSpace d hd)
      (ne_break_of_not_isSpace d hd) s hs1 pre hs2
    rw [r1, r2]

/-- C13, amended. `Content()` equals `Text(true, false)` and is the
entity-escaped form of the string obtained by writing the text of every block
with `IsContent`, in document order, each followed by a line break, and then
removing every leading and trailing space and line break (`strings.Trim` with
the cutset of space and line feed); blocks without `IsContent` contribute
nothing, the content of the document being the content of its content blocks
alone; and when the texts of the content blocks are not empty and have no
white space at either end, that trim is the removal of the leading and trailing
blank lines. -/
theorem Content_is_trimmed_content_lines (esc : List Char → List Char) (doc : TextDocument) :
    doc.Content esc = doc.Text esc true false ∧
    doc.Content esc =
      esc (Trim (((doc.TextBlocks.filter fun tb => tb.IsContent).map
        fun tb => tb.Text ++ ['\n']).flatten) [' ', '\n']) ∧
    doc.Content esc =
      TextDocument.Content esc
        { doc with TextBlocks := doc.TextBlocks.filter fun tb => tb.IsContent } ∧
    ((∀ b ∈ doc.TextBlocks, b.IsContent = true →
        b.Text ≠ [] ∧ (∀ c, b.Text.head? = some c → isSpace c = false) ∧
          (∀ c, b.Text.getLast? = some c → isSpace c = false)) →
      doc.Content esc = specContent esc doc) := by
  refine ⟨rfl, ?_, ?_, Content_eq_specContent esc doc⟩
  · unfold TextDocument.Content TextDocument.Text
    rw [textLines_content]
  · unfold TextDocument.Content TextDocument.Text
    rw [textLines_content, textLines_content, List.filter_filter]
    simp

/-- C13 (amended) on a document of two clean content blocks and one other
block. -/
theorem Content_is_trimmed_content_lines_witness :
    TextDocument.Content htmlEscapeString
      { Title := []
        TextBlocks :=
          [{ NewTextBlock ['x', ' ', 'y'] 2 0 2 1 0 0 with IsContent := true },
            NewTextBlock ['n', 'a', 'v'] 1 0 1 1 1 0,
            { NewTextBlock ['a', '<', 'b'] 1 0 1 1 2 0 with IsContent := true }] } =
    specContent htmlEscapeString
      { Title := []
        TextBlocks :=
          [{ NewTextBlock ['x', ' ', 'y'] 2 0 2 1 0 0 with IsContent := true },
            NewTextBlock ['n', 'a', 'v'] 1 0 1 1 1 0,
            { NewTextBlock ['a', '<', 'b'] 1 0 1 1 2 0 with IsContent := true }] } :=
  (Content_is_trimmed_content_lines htmlEscapeString _).2.2.2 (by
    intro b hb hc
    simp only [List.mem_cons, List.mem_singleton, List.not_mem_nil, or_false] at hb
    rcases hb with hb | hb | hb
    · rw [hb]; decide
    · rw [hb] at hc; exact absurd hc (by decide)
    · rw [hb]; decide)

/-- The example document gives `x y`, a line break, and `a&lt;b`. -/
theorem content_example :
    TextDocument.Content htmlEscapeString
      { Title := []
        TextBlocks :=
          [{ NewTextBlock ['x', ' ', 'y'] 2 0 2 1 0 0 with IsContent := true },
            NewTextBlock ['n', 'a', 'v'] 1 0 1 1 1 0,
            { NewTextBlock ['a', '<', 'b'] 1 0 1 1 2 0 with IsContent := true }] } =
      ['x', ' ', 'y', '\n', 'a', '&', 'l', 't', ';', 'b'] := by
  decide

end Boilerpipe
